import Mathlib

/-!
Shortest-path engines: Bellman-Ford, Dijkstra, Floyd-Warshall.

A shallow embedding of `bellman_ford_seq_parallel.c`, `dijkstra_seq_parallel.c`
and `floyd_warshall_seq_parallel.c`.  Vectors are lists, `long long` values are
mathematical integers (exact arithmetic), vertex indices are natural numbers.
-/

namespace SP

/-! ## Data model -/

/-- Sentinel `INF = (long long)1e18` of the Bellman-Ford and Dijkstra programs. -/
def INF : Int := 1000000000000000000

/-- Sentinel `INF = (long long)1e15` of the Floyd-Warshall program. -/
def INF_FW : Int := 1000000000000000

/-- Largest value of the C type `int` that holds an edge weight. -/
def INT_MAX : Int := 2147483647

/-- The edge struct of the Bellman-Ford program: `struct Edge { int u, v; int w; }`. -/
structure Edge where
  u : Nat
  v : Nat
  w : Int
deriving DecidableEq

/-- Vector read `dist[i]`. -/
def rd (dist : List Int) (i : Nat) : Int := dist.getD i 0

/-! ## Bellman-Ford (bellman_ford_seq_parallel.c) -/

/-- Body of the edge loop of `bellman_ford_seq`, acting on `(dist, changed)`:
skip when `dist[e.u] == INF`, otherwise write `cand` when `cand < dist[e.v]`. -/
def relaxEdge (st : List Int × Bool) (e : Edge) : List Int × Bool :=
  if rd st.1 e.u = INF then st
  else
    if rd st.1 e.u + e.w < rd st.1 e.v then (st.1.set e.v (rd st.1 e.u + e.w), true)
    else st

/-- One round: `changed = false`, then the scan over the edges in the given order. -/
def relaxRound (order : List Edge) (dist : List Int) : List Int × Bool :=
  order.foldl relaxEdge (dist, false)

/-- The round loop `for (it = 0; it < n - 1; ++it)` with `if (!changed) break;`,
given the number of rounds that remain. -/
def bfLoop (edges : List Edge) : Nat → List Int → List Int
  | 0, dist => dist
  | k + 1, dist =>
    if (relaxRound edges dist).2 then bfLoop edges k (relaxRound edges dist).1
    else (relaxRound edges dist).1

/-- The function `bellman_ford_seq(edges, n, source)`. -/
def bellman_ford_seq (edges : List Edge) (n source : Nat) : List Int :=
  bfLoop edges (n - 1) ((List.replicate n INF).set source 0)

/-- The round loop of `bellman_ford_seq` with the edge list of round `it`
replaced by the list `sched it`; with `sched it = edges` in every round it is
`bfLoop`. A generalisation of the sequential loop used in the proofs (the
rounds of the parallel program are `bfParLoop` below). -/
def bfOrdLoop (sched : Nat → List Edge) : Nat → Nat → List Int → List Int
  | _, 0, dist => dist
  | it, k + 1, dist =>
    if (relaxRound (sched it) dist).2 then
      bfOrdLoop sched (it + 1) k (relaxRound (sched it) dist).1
    else (relaxRound (sched it) dist).1

/-- The function `bellman_ford_seq` with the edge list of round `it` replaced by
`sched it`. -/
def bellman_ford_ord (sched : Nat → List Edge) (n source : Nat) : List Int :=
  bfOrdLoop sched 0 (n - 1) ((List.replicate n INF).set source 0)

/-- Every round's list is a permutation of the edge list. -/
def ValidSched (edges : List Edge) (sched : Nat → List Edge) : Prop :=
  ∀ it, (sched it).Perm edges

/-- The function `has_negative_cycle(edges, dist)` of the Bellman-Ford program. -/
def has_negative_cycle : List Edge → List Int → Bool
  | [], _ => false
  | e :: es, dist =>
    if rd dist e.u = INF then has_negative_cycle es dist
    else if rd dist e.u + e.w < rd dist e.v then true
    else has_negative_cycle es dist

/-! ## Dijkstra (dijkstra_seq_parallel.c) -/

/-- Vector read `used[v]`. -/
def ud (used : List Bool) (v : Nat) : Bool := used.getD v false

/-- Body of the selection scan, acting on `(u, best)` with `u = none` for `-1`:
`if (!used[v] && dist[v] < best) { best = dist[v]; u = v; }`. -/
def scanStep (dist : List Int) (used : List Bool) (st : Option Nat × Int) (v : Nat) :
    Option Nat × Int :=
  if ud used v = false ∧ rd dist v < st.2 then (some v, rd dist v) else st

/-- The selection scan of `dijkstra_seq`: `u = -1`, `best = INF`, then `v = 0 .. n-1`. -/
def select_seq (dist : List Int) (used : List Bool) (n : Nat) : Option Nat × Int :=
  (List.range n).foldl (scanStep dist used) (none, INF)

/-- Body of the relaxation loop of Dijkstra for the edge `(to, w)` out of `u`:
`if (dist[u] + w < dist[to]) dist[to] = dist[u] + w;`. -/
def relaxTo (u : Nat) (d : List Int) (edge : Nat × Int) : List Int :=
  if rd d u + edge.2 < rd d edge.1 then d.set edge.1 (rd d u + edge.2) else d

/-- The relaxation of all the edges out of `u`, in the order of `adj[u]`. -/
def relaxOut (u : Nat) (dist : List Int) (out : List (Nat × Int)) : List Int :=
  out.foldl (relaxTo u) dist

/-- The round loop of `dijkstra_seq` with `if (u == -1 || best == INF) break;`,
given the number of rounds that remain. -/
def dijkstraLoop (adj : List (List (Nat × Int))) : Nat → List Int → List Bool → List Int
  | 0, dist, _ => dist
  | k + 1, dist, used =>
    match (select_seq dist used adj.length).1 with
    | none => dist
    | some u =>
      if (select_seq dist used adj.length).2 = INF then dist
      else dijkstraLoop adj k (relaxOut u dist (adj.getD u [])) (used.set u true)

/-- The function `dijkstra_seq(adj, source)`. -/
def dijkstra_seq (adj : List (List (Nat × Int))) (source : Nat) : List Int :=
  dijkstraLoop adj adj.length ((List.replicate adj.length INF).set source 0)
    (List.replicate adj.length false)

/-- A round of the loop of `dijkstra_seq` that got past
`if (u == -1 || best == INF) break;`: the vectors `dist` and `used` at the start
of the round and the vertex `u` selected in it (`best` is `dist[u]`). -/
structure DRound where
  dist : List Int
  used : List Bool
  u : Nat

/-- The vector `dist` at the end of the round: after the relaxation of all the
edges out of `u`. -/
def DRound.distAfter (adj : List (List (Nat × Int))) (r : DRound) : List Int :=
  relaxOut r.u r.dist (adj.getD r.u [])

/-- The vector `used` at the end of the round: after `used[u] = 1`. -/
def DRound.usedAfter (r : DRound) : List Bool := r.used.set r.u true

/-- The round loop of `dijkstra_seq` again, recording the rounds that select a
vertex, in order, given the number of rounds that remain. -/
def dijkstraRounds (adj : List (List (Nat × Int))) : Nat → List Int → List Bool → List DRound
  | 0, _, _ => []
  | k + 1, dist, used =>
    match (select_seq dist used adj.length).1 with
    | none => []
    | some u =>
      if (select_seq dist used adj.length).2 = INF then []
      else
        ⟨dist, used, u⟩ ::
          dijkstraRounds adj k (relaxOut u dist (adj.getD u [])) (used.set u true)

/-- The round loop of `dijkstra_seq` again, returning the vectors `dist` and
`used` as they are when the loop is left. -/
def dijkstraFinal (adj : List (List (Nat × Int))) :
    Nat → List Int → List Bool → List Int × List Bool
  | 0, dist, used => (dist, used)
  | k + 1, dist, used =>
    match (select_seq dist used adj.length).1 with
    | none => (dist, used)
    | some u =>
      if (select_seq dist used adj.length).2 = INF then (dist, used)
      else dijkstraFinal adj k (relaxOut u dist (adj.getD u [])) (used.set u true)

/-- The rounds of `dijkstra_seq(adj, source)` that select a vertex. -/
def dijkstra_seq_rounds (adj : List (List (Nat × Int))) (source : Nat) : List DRound :=
  dijkstraRounds adj adj.length ((List.replicate adj.length INF).set source 0)
    (List.replicate adj.length false)

/-- The vectors `dist` and `used` of `dijkstra_seq(adj, source)` when its loop
is left. -/
def dijkstra_seq_final (adj : List (List (Nat × Int))) (source : Nat) :
    List Int × List Bool :=
  dijkstraFinal adj adj.length ((List.replicate adj.length INF).set source 0)
    (List.replicate adj.length false)

/-- The scan of one thread of `dijkstra_parallel` over its slice of the
vertices: `local_u = -1`, `local_best = INF`, then the vertices of the slice. -/
def localScan (dist : List Int) (used : List Bool) (slice : List Nat) : Option Nat × Int :=
  slice.foldl (scanStep dist used) (none, INF)

/-- The critical section of `dijkstra_parallel`:
`if (local_best < best) { best = local_best; u = local_u; }`. -/
def combine (st loc : Option Nat × Int) : Option Nat × Int :=
  if loc.2 < st.2 then (loc.1, loc.2) else st

/-- The parallel selection: every slice is scanned on its own and the local
results enter the critical section in the order of the list `slices`. -/
def select_par (dist : List Int) (used : List Bool) (slices : List (List Nat)) :
    Option Nat × Int :=
  (slices.map (localScan dist used)).foldl combine (none, INF)

/-- The round loop of `dijkstra_parallel`: round `it` uses the slicing and
combination order `sched it`. -/
def dijkstraParLoop (adj : List (List (Nat × Int))) (sched : Nat → List (List Nat)) :
    Nat → Nat → List Int → List Bool → List Int
  | _, 0, dist, _ => dist
  | it, k + 1, dist, used =>
    match (select_par dist used (sched it)).1 with
    | none => dist
    | some u =>
      if (select_par dist used (sched it)).2 = INF then dist
      else dijkstraParLoop adj sched (it + 1) k (relaxOut u dist (adj.getD u []))
        (used.set u true)

/-- The function `dijkstra_parallel(adj, source, num_threads)` under the slice
model: `sched it` lists the slices of round `it`, one per thread, in the order
in which the threads enter the critical section. -/
def dijkstra_parallel (adj : List (List (Nat × Int))) (source : Nat)
    (sched : Nat → List (List Nat)) : List Int :=
  dijkstraParLoop adj sched 0 adj.length ((List.replicate adj.length INF).set source 0)
    (List.replicate adj.length false)

/-- A slicing is admissible when in every round the slices are disjoint and
cover the vertices `0 .. n-1`. -/
def ValidSlices (n : Nat) (sched : Nat → List (List Nat)) : Prop :=
  ∀ it, (sched it).flatten.Perm (List.range n)

/-! ## Floyd-Warshall (floyd_warshall_seq_parallel.c) -/

/-- Matrix read `dist[i][j]`. -/
def mget (m : List (List Int)) (i j : Nat) : Int := rd (m.getD i []) j

/-- Matrix write `dist[i][j] = x`. -/
def mset (m : List (List Int)) (i j : Nat) (x : Int) : List (List Int) :=
  m.set i ((m.getD i []).set j x)

/-- Body of the `j` loop for the pivot `k` and the row `i`: skip when
`dist[k][j] == INF`, otherwise write `cand = dist[i][k] + dist[k][j]` when
`cand < dist[i][j]`. -/
def fwCell (k i : Nat) (d : List (List Int)) (j : Nat) : List (List Int) :=
  if mget d k j = INF_FW then d
  else if mget d i k + mget d k j < mget d i j then mset d i j (mget d i k + mget d k j)
  else d

/-- Body of the `i` loop for the pivot `k`: skip the row when
`dist[i][k] == INF`, otherwise run the `j` loop. -/
def fwRow (n k : Nat) (d : List (List Int)) (i : Nat) : List (List Int) :=
  if mget d i k = INF_FW then d else (List.range n).foldl (fwCell k i) d

/-- The pass for the pivot `k`, the rows taken in the order `rows`. -/
def fwPass (n : Nat) (rows : List Nat) (d : List (List Int)) (k : Nat) : List (List Int) :=
  rows.foldl (fwRow n k) d

/-- The function `floyd_warshall_seq(dist)`. -/
def floyd_warshall_seq (dist : List (List Int)) : List (List Int) :=
  (List.range dist.length).foldl (fun d k => fwPass dist.length (List.range dist.length) d k)
    dist

/-- The function `floyd_warshall_par(dist, threads)` under the row-order model:
in the pass for the pivot `k` the rows are processed in the order `sched k`. -/
def floyd_warshall_par (dist : List (List Int)) (sched : Nat → List Nat) : List (List Int) :=
  (List.range dist.length).foldl (fun d k => fwPass dist.length (sched k) d k) dist

/-- A row schedule is admissible when the rows of every pass are a permutation
of `0 .. n-1`. -/
def ValidRows (n : Nat) (sched : Nat → List Nat) : Prop :=
  ∀ k, (sched k).Perm (List.range n)

/-- The matrix has `n` rows of `n` entries. -/
def Square (n : Nat) (m : List (List Int)) : Prop :=
  m.length = n ∧ ∀ i, i < n → (m.getD i []).length = n

/-- The function `has_negative_cycle(dist)` of the Floyd-Warshall program
(the Bellman-Ford program has a function of the same name): true when some
`dist[i][i] < 0`, `i = 0 .. n-1`. -/
def has_negative_cycle_fw (dist : List (List Int)) : Bool :=
  (List.range dist.length).any (fun i => decide (mget dist i i < 0))

/-- The round loop of `bellman_ford_seq` with the test `if (!changed) break;`
removed: all the rounds are run. -/
def bfAllRounds (edges : List Edge) : Nat → List Int → List Int
  | 0, dist => dist
  | k + 1, dist => bfAllRounds edges k (relaxRound edges dist).1

/-- The function `bellman_ford_seq` without the early exit: `n - 1` rounds. -/
def bellman_ford_seq_nobreak (edges : List Edge) (n source : Nat) : List Int :=
  bfAllRounds edges (n - 1) ((List.replicate n INF).set source 0)

/-! ## The loaders and the summary -/

/-- The range test of the three loaders on a parsed line `u v w`:
`u < 0 || u >= n || v < 0 || v >= n`. -/
def outOfRange (n : Nat) (t : Int × Int × Int) : Bool :=
  decide (t.1 < 0 ∨ t.1 ≥ n ∨ t.2.1 < 0 ∨ t.2.1 ≥ n)

/-- The edge made of a parsed line that passed the range test. -/
def toEdge (t : Int × Int × Int) : Edge := ⟨t.1.toNat, t.2.1.toNat, t.2.2⟩

/-- The function `load_graph` of the Bellman-Ford program on the header
`(n, m)` and the `m` parsed lines: the edge list and the value left in `m`
(`m = (int)edges.size()`). -/
def load_graph_bf (n : Nat) (_m : Int) (triples : List (Int × Int × Int)) : List Edge × Int :=
  ((triples.foldl (fun es t => if outOfRange n t then es else es ++ [toEdge t]) []),
    ((triples.foldl (fun es t => if outOfRange n t then es else es ++ [toEdge t]) []).length :
      Int))

/-- The function `load_graph` of the Dijkstra program on the header `(n, m)`
and the `m` parsed lines: the adjacency list and the value left in `m`, which
this loader does not touch. -/
def load_graph_dj (n : Nat) (m : Int) (triples : List (Int × Int × Int)) :
    List (List (Nat × Int)) × Int :=
  (triples.foldl (fun adj t =>
      if outOfRange n t then adj
      else adj.set (toEdge t).u (adj.getD (toEdge t).u [] ++ [((toEdge t).v, (toEdge t).w)]))
    (List.replicate n []), m)

/-- The start of `load_matrix`: an `n × n` matrix of `INF`, then
`dist[i][i] = 0` for `i = 0 .. n-1`. -/
def initMatrix (n : Nat) : List (List Int) :=
  (List.range n).foldl (fun d i => mset d i i 0) (List.replicate n (List.replicate n INF_FW))

/-- The function `load_matrix` of the Floyd-Warshall program on the header
`(n, m)` and the `m` parsed lines: `dist[u][v] = min(dist[u][v], w)` for every
line that passes the range test; the value left in `m` is not touched. -/
def load_matrix (n : Nat) (m : Int) (triples : List (Int × Int × Int)) :
    List (List Int) × Int :=
  (triples.foldl (fun d t =>
      if outOfRange n t then d
      else mset d (toEdge t).u (toEdge t).v (min (mget d (toEdge t).u (toEdge t).v) (toEdge t).w))
    (initMatrix n), m)

/-- The write of `load_matrix` for an edge that passed the range test:
`dist[u][v] = min(dist[u][v], ww)`. -/
def minWrite (d : List (List Int)) (e : Edge) : List (List Int) :=
  mset d e.u e.v (min (mget d e.u e.v) e.w)

/-- The parsed lines that pass the range test, as edges, in input order. -/
def keptEdges (n : Nat) (triples : List (Int × Int × Int)) : List Edge :=
  (triples.filter (fun t => !outOfRange n t)).map toEdge

/-- The function `summarize(dist)` of the Bellman-Ford and Dijkstra programs:
the pair `(reached, maxd)` that it prints. -/
def summarize (dist : List Int) : Nat × Int :=
  (List.range dist.length).foldl (fun st i =>
    if rd dist i < INF then (st.1 + 1, if rd dist i > st.2 then rd dist i else st.2) else st)
    (0, 0)

/-! ## One round of `bellman_ford_par` as interleaved steps -/

/-- Where a worker thread stands in the body of the parallel edge loop. -/
inductive PC where
  /-- Between two iterations. -/
  | idle
  /-- Before `long long dist_u = dist[e.u];`. -/
  | readU (e : Edge)
  /-- Before the quick check `if (cand >= dist[e.v]) continue;`. -/
  | check (e : Edge) (cand : Int)
  /-- Before `omp_set_lock(&locks[e.v]);`. -/
  | lock (e : Edge) (cand : Int)
  /-- Lock acquired, before `if (cand < dist[e.v])`. -/
  | recheck (e : Edge) (cand : Int)
  /-- Before `omp_unset_lock(&locks[e.v]);`. -/
  | unlock (e : Edge)

/-- State of a round of `bellman_ford_par`: the shared vector, the holder of
each lock, the edges no thread has taken yet, the position and the private
`updated` flag of each thread, and the number of writes made so far. -/
structure PState where
  dist : List Int
  locks : Nat → Option Nat
  todo : List Edge
  pcs : Nat → PC
  upds : Nat → Bool
  writes : Nat

/-- One atomic step of the thread `t` among `T` threads; a thread that cannot
move (no edge left, lock taken, `t ≥ T`) leaves the state as it is. -/
def stepT (T t : Nat) (s : PState) : PState :=
  if t < T then
    match s.pcs t with
    | PC.idle =>
      match s.todo with
      | [] => s
      | e :: rest => { s with todo := rest, pcs := Function.update s.pcs t (PC.readU e) }
    | PC.readU e =>
      if rd s.dist e.u = INF then { s with pcs := Function.update s.pcs t PC.idle }
      else { s with pcs := Function.update s.pcs t (PC.check e (rd s.dist e.u + e.w)) }
    | PC.check e cand =>
      if cand ≥ rd s.dist e.v then { s with pcs := Function.update s.pcs t PC.idle }
      else { s with pcs := Function.update s.pcs t (PC.lock e cand) }
    | PC.lock e cand =>
      match s.locks e.v with
      | none =>
        { s with locks := Function.update s.locks e.v (some t),
                 pcs := Function.update s.pcs t (PC.recheck e cand) }
      | some _ => s
    | PC.recheck e cand =>
      if cand < rd s.dist e.v then
        { s with dist := s.dist.set e.v cand, upds := Function.update s.upds t true,
                 writes := s.writes + 1, pcs := Function.update s.pcs t (PC.unlock e) }
      else { s with pcs := Function.update s.pcs t (PC.unlock e) }
    | PC.unlock e =>
      { s with locks := Function.update s.locks e.v none,
               pcs := Function.update s.pcs t PC.idle }
  else s

/-- The state at the start of a round: all locks free, all threads idle with
their flag down, all the edges to do. -/
def roundStart (edges : List Edge) (dist : List Int) : PState :=
  { dist := dist, locks := fun _ => none, todo := edges, pcs := fun _ => PC.idle,
    upds := fun _ => false, writes := 0 }

/-- An interleaving: the threads named in `sched` take one step each, in order. -/
def runPar (T : Nat) (sched : List Nat) (s : PState) : PState :=
  sched.foldl (fun s t => stepT T t s) s

/-- The reduction `reduction(||:updated)` at the end of the round. -/
def updatedFlag (T : Nat) (s : PState) : Bool :=
  (List.range T).any s.upds

/-- The thread `t` is between the acquisition and the release of the lock of `v`. -/
def InCritical (s : PState) (t v : Nat) : Prop :=
  ∃ e, e.v = v ∧ ((∃ c, s.pcs t = PC.recheck e c) ∨ s.pcs t = PC.unlock e)

/-- Invariant of the interleaved round: a thread in the critical section of `v`
is the holder of the lock of `v`, a flag is up only for a thread below `T`, and
some flag is up exactly when a write has been made. -/
def ParInv (T : Nat) (s : PState) : Prop :=
  (∀ t v, InCritical s t v → s.locks v = some t) ∧
    (∀ t, s.upds t = true → t < T) ∧
    ((∃ t, s.upds t = true) ↔ 0 < s.writes)

/-! ## The rounds of `bellman_ford_par` with the chunks of `schedule(dynamic, 256)` -/

/-- What a run of the generator ends with: the arguments are rejected, the
loop for the extra edges is still running when the fuel is spent, or the file
with the header `n m` and the `m` lines `edges[0 .. m-1]` is written; a line is
`none` when the slot of the array was never assigned (memory left as `malloc`
returned it). -/
inductive GenResult where
  | rejected
  | outOfFuel
  | file (n m : Nat) (lines : List (Option Edge))
deriving DecidableEq

/-- The weight of a generated edge after `r` calls of `rand()`, with the number
of calls made afterwards: `base = (rand() % maxW) + 1`, and for `negFlag != 0`
`positive = (rand() % 10) >= 2`, `w = positive ? base : -base`. -/
def genWeight (maxW : Nat) (negFlag : Int) (rand : Nat → Nat) (r : Nat) : Int × Nat :=
  if negFlag = 0 then (((rand r % maxW : Nat) : Int) + 1, r + 1)
  else
    (if rand (r + 1) % 10 ≥ 2 then ((rand r % maxW : Nat) : Int) + 1
      else -(((rand r % maxW : Nat) : Int) + 1), r + 2)

/-- Body of the spanning-tree loop for the vertex `v` (`idx = v - 1`), on the
array and the number of calls of `rand()` made so far: `u = rand() % v`. -/
def genTreeStep (maxW : Nat) (negFlag : Int) (rand : Nat → Nat)
    (st : List (Option Edge) × Nat) (v : Nat) : List (Option Edge) × Nat :=
  (st.1.set (v - 1)
      (some ⟨rand st.2 % v, v, (genWeight maxW negFlag rand (st.2 + 1)).1⟩),
    (genWeight maxW negFlag rand (st.2 + 1)).2)

/-- The loop `while (idx < m)` for the extra edges, with fuel for its
iterations; `none` when the fuel is spent before the loop ends. -/
def genExtra (n m maxW : Nat) (negFlag : Int) (rand : Nat → Nat) :
    Nat → Nat → List (Option Edge) → Nat → Option (List (Option Edge))
  | 0, idx, arr, _ => if idx < m then none else some arr
  | fuel + 1, idx, arr, r =>
    if idx < m then
      if negFlag = 0 then
        if rand r % n = rand (r + 1) % n then genExtra n m maxW negFlag rand fuel idx arr (r + 2)
        else
          genExtra n m maxW negFlag rand fuel (idx + 1)
            (arr.set idx (some ⟨rand r % n, rand (r + 1) % n,
              (genWeight maxW negFlag rand (r + 2)).1⟩))
            (genWeight maxW negFlag rand (r + 2)).2
      else
        if n < 2 then some arr
        else
          genExtra n m maxW negFlag rand fuel (idx + 1)
            (arr.set idx (some ⟨rand r % (n - 1),
              rand r % (n - 1) + 1 + rand (r + 1) % (n - rand r % (n - 1) - 1),
              (genWeight maxW negFlag rand (r + 2)).1⟩))
            (genWeight maxW negFlag rand (r + 2)).2
    else some arr

/-- The number of edges the generator announces: `n * avgDeg`, raised to
`n - 1` when smaller. -/
def genTarget (n avgDeg : Nat) : Nat :=
  if n * avgDeg < n - 1 then n - 1 else n * avgDeg

/-- The function `main` of the generator on the arguments `n avgDeg maxWeight
negFlag` (the first three as natural numbers, `0` standing for every rejected
value) and the values `rand 0, rand 1, ...` returned by `rand()`. -/
def generate (n avgDeg maxW : Nat) (negFlag : Int) (rand : Nat → Nat) (fuel : Nat) :
    GenResult :=
  if n = 0 ∨ avgDeg = 0 ∨ maxW = 0 then GenResult.rejected
  else if genTarget n avgDeg > 2000000000 then GenResult.rejected
  else
    match genExtra n (genTarget n avgDeg) maxW negFlag rand fuel (n - 1)
        (((List.range (n - 1)).map (fun i => i + 1)).foldl (genTreeStep maxW negFlag rand)
          (List.replicate (genTarget n avgDeg) none, 0)).1
        (((List.range (n - 1)).map (fun i => i + 1)).foldl (genTreeStep maxW negFlag rand)
          (List.replicate (genTarget n avgDeg) none, 0)).2 with
    | none => GenResult.outOfFuel
    | some arr => GenResult.file n (genTarget n avgDeg) arr

/-! ## Graphs, walks and weights -/

/-- Total weight of a list of edges. -/
def weight (p : List Edge) : Int := (p.map Edge.w).sum

/-- The edge list `p` is a walk from `a` to `b` made of edges of `G`. -/
def IsWalk (G : Edge → Prop) : Nat → List Edge → Nat → Prop
  | a, [], b => a = b
  | a, e :: p, b => G e ∧ e.u = a ∧ IsWalk G e.v p b

/-- Every running total of `p`, started at `acc`, satisfies `P`. -/
def AdmP (P : Int → Prop) : Int → List Edge → Prop
  | _, [] => True
  | acc, e :: p => P (acc + e.w) ∧ AdmP P (acc + e.w) p

/-- Every running total of `p`, started at `acc`, stays below the sentinel
`INF`: the walks a relaxation engine with a finite sentinel can follow. -/
def Adm (acc : Int) (p : List Edge) : Prop := AdmP (fun x => x < INF) acc p

/-- The graph of an edge list. -/
def edgeGraph (edges : List Edge) : Edge → Prop := fun e => e ∈ edges

/-- The graph of an adjacency list: `adj[u]` holds the pairs `(v, w)` of the
edges `u → v` of weight `w`. -/
def adjGraph (adj : List (List (Nat × Int))) : Edge → Prop :=
  fun e => e.u < adj.length ∧ (e.v, e.w) ∈ adj.getD e.u []

/-- All endpoints of the graph are vertices in `[0, n)`. -/
def InRange (G : Edge → Prop) (n : Nat) : Prop := ∀ e, G e → e.u < n ∧ e.v < n

/-- No negative-weight closed walk at a vertex reachable from `s`. -/
def NoNegCycleFrom (G : Edge → Prop) (s : Nat) : Prop :=
  ∀ p c x, IsWalk G s p x → IsWalk G x c x → 0 ≤ weight c

/-- No negative-weight closed walk that the engine can follow from `s`: a walk
from `s` followed by a closed walk, all running totals below `INF`. -/
def NoNegCycleAdm (G : Edge → Prop) (s : Nat) : Prop :=
  ∀ p c x, IsWalk G s p x → IsWalk G x c x → Adm 0 (p ++ c) → 0 ≤ weight c

/-- Fixpoint of relaxation: `dist[v] ≤ dist[u] + w` on every edge with
`dist[u] ≠ INF`. -/
def Fix (G : Edge → Prop) (dist : List Int) : Prop :=
  ∀ e, G e → rd dist e.u ≠ INF → rd dist e.v ≤ rd dist e.u + e.w

/-- Every entry other than `INF` is the weight of a walk from `s` whose running
totals stay below `INF`. -/
def Sound (G : Edge → Prop) (s : Nat) (dist : List Int) : Prop :=
  ∀ v, v < dist.length → rd dist v ≠ INF →
    ∃ p, IsWalk G s p v ∧ Adm 0 p ∧ weight p = rd dist v

/-- After `k` rounds the vector is below every admissible walk of at most `k` edges. -/
def Upto (G : Edge → Prop) (s : Nat) (k : Nat) (dist : List Int) : Prop :=
  ∀ p v, IsWalk G s p v → Adm 0 p → p.length ≤ k → rd dist v ≤ weight p

/-- Vertex `v` can be reached from `s` by a walk of `G`. -/
def Reachable (G : Edge → Prop) (s v : Nat) : Prop := ∃ p, IsWalk G s p v

/-- The value `x` is the minimum total weight over all walks from `s` to `v`. -/
def IsMinWalk (G : Edge → Prop) (s v : Nat) (x : Int) : Prop :=
  (∃ p, IsWalk G s p v ∧ weight p = x) ∧ ∀ p, IsWalk G s p v → x ≤ weight p

/-- The value `x` is the true shortest-path distance from `s` to `v`: the
minimum over all walks when `v` is reachable, the sentinel `inf` otherwise. -/
def IsTrueDist (inf : Int) (G : Edge → Prop) (s v : Nat) (x : Int) : Prop :=
  (Reachable G s v → IsMinWalk G s v x) ∧ (¬ Reachable G s v → x = inf)

/-- The value `x` is the minimum total weight over the walks from `s` to `v`
whose running totals stay below `INF`, and `INF` when there is no such walk. -/
def IsAdmDist (G : Edge → Prop) (s v : Nat) (x : Int) : Prop :=
  ((∃ p, IsWalk G s p v ∧ Adm 0 p ∧ weight p = x) ∧
      ∀ p, IsWalk G s p v → Adm 0 p → x ≤ weight p) ∨
    ((¬ ∃ p, IsWalk G s p v ∧ Adm 0 p) ∧ x = INF)

/-- The path `0 → 1 → ... → N` with the same weight `W` on each edge. -/
def pathEdges (N : Nat) (W : Int) : List Edge :=
  (List.range N).map (fun i => ⟨i, i + 1, W⟩)

/-- Every weight of the edge list fits the C type `int`. -/
def WeightsFitInt (edges : List Edge) : Prop :=
  ∀ e ∈ edges, -INT_MAX - 1 ≤ e.w ∧ e.w ≤ INT_MAX

/-- The path `0 → ... → N` followed by a self-loop of weight `-1` at `N`. -/
def lassoEdges (N : Nat) (W : Int) : List Edge :=
  pathEdges N W ++ [⟨N, N, -1⟩]

/-- The closed walk `c` repeated `k` times. -/
def repWalk (c : List Edge) : Nat → List Edge
  | 0 => []
  | k + 1 => c ++ repWalk c k

/-- The graph `n=4, m=4` of the concrete scenario of the specification. -/
def exGraph : List Edge := [⟨0, 1, 1⟩, ⟨1, 2, 2⟩, ⟨0, 2, 5⟩, ⟨2, 3, 1⟩]

/-- An acyclic graph on four vertices with a negative edge. -/
def exDag : List Edge := [⟨0, 1, 4⟩, ⟨0, 2, 5⟩, ⟨1, 2, -3⟩, ⟨2, 3, 1⟩]

/-- The two-vertex negative cycle `{0→1: -1, 1→0: -1}` of the specification. -/
def exNeg : List Edge := [⟨0, 1, -1⟩, ⟨1, 0, -1⟩]

/-- The selection state `st = (u, best)` is a right answer for the vertices that
satisfy `M`: `best` is the least tentative distance of an unvisited vertex of
`M` when that is below `INF` and `u` is a vertex attaining it, and otherwise
`best = INF`. -/
def GoodSel (dist : List Int) (used : List Bool) (M : Nat → Prop)
    (st : Option Nat × Int) : Prop :=
  st.2 ≤ INF ∧ (∀ v, M v → ud used v = false → st.2 ≤ rd dist v) ∧
    (st.1 = none → st.2 = INF) ∧
    (∀ u, st.1 = some u → M u ∧ ud used u = false ∧ st.2 = rd dist u ∧ st.2 < INF)

/-- The loop invariant of Dijkstra on non-negative weights. -/
structure DInv (G : Edge → Prop) (s n : Nat) (dist : List Int) (used : List Bool) : Prop where
  ld : dist.length = n
  lu : used.length = n
  sound : Sound G s dist
  src : rd dist s ≤ 0
  ord : ∀ a b, a < n → b < n → ud used a = true → ud used b = false →
    rd dist a ≤ rd dist b
  rel : ∀ e, G e → ud used e.u = true → rd dist e.v ≤ rd dist e.u + e.w

/-- Adjacency-list form of an edge list on `n` vertices, built the way
`load_graph` of the Dijkstra program does: `adj[u].push_back({v, w})` for the
edges in order. -/
def toAdj (n : Nat) (edges : List Edge) : List (List (Nat × Int)) :=
  edges.foldl (fun adj e => adj.set e.u (adj.getD e.u [] ++ [(e.v, e.w)]))
    (List.replicate n [])

/-- The disconnected graph `n=3, m=1` of the specification: the edge `(0,1,4)`. -/
def exDisc : List Edge := [⟨0, 1, 4⟩]

/-- Adjacency-list form of `exGraph`. -/
def exAdj : List (List (Nat × Int)) := [[(1, 1), (2, 5)], [(2, 2)], [(3, 1)], []]

/-- The graph of an `n × n` matrix: an edge `i → j` of weight `m[i][j]` for
every entry other than `INF`. -/
def matGraph (n : Nat) (m : List (List Int)) : Edge → Prop :=
  fun e => e.u < n ∧ e.v < n ∧ mget m e.u e.v ≠ INF_FW ∧ e.w = mget m e.u e.v

/-- No negative-weight closed walk anywhere in the graph. -/
def NoNegCycle (G : Edge → Prop) : Prop :=
  ∀ c x, IsWalk G x c x → 0 ≤ weight c

/-- The entry that the pass for the pivot `k` computes from the
start-of-pass matrix `d`. -/
def pivotVal (d : List (List Int)) (k i j : Nat) : Int :=
  if mget d i k = INF_FW ∨ mget d k j = INF_FW then mget d i j
  else min (mget d i j) (mget d i k + mget d k j)

/-- The matrix `d'` is a state of the pass for the pivot `k` that started
from `d`: every entry is the old one or the one the pass computes. -/
def PartOf (n k : Nat) (d d' : List (List Int)) : Prop :=
  Square n d' ∧ ∀ i j, i < n → j < n →
    mget d' i j = mget d i j ∨ mget d' i j = pivotVal d k i j

/-- Every entry other than `INF` is the weight of a walk of the graph. -/
def SoundM (G : Edge → Prop) (n : Nat) (d : List (List Int)) : Prop :=
  ∀ i j, i < n → j < n → mget d i j ≠ INF_FW → ∃ p, IsWalk G i p j ∧ weight p = mget d i j

/-- The invariant of the pivot loop: a square matrix of walk weights that is
below the input matrix. -/
def FWInv (G : Edge → Prop) (n : Nat) (m d : List (List Int)) : Prop :=
  Square n d ∧ SoundM G n d ∧ ∀ i j, i < n → j < n → mget d i j ≤ mget m i j

/-- The intermediate vertices of a walk. -/
def interm (p : List Edge) : List Nat := p.tail.map Edge.u

/-- Every contiguous part of the walk weighs less than the sentinel. -/
def Tame (p : List Edge) : Prop := ∀ q, q <:+: p → weight q < INF_FW

/-- The matrix is below every tame walk whose intermediate vertices are below `k`. -/
def CompK (G : Edge → Prop) (n k : Nat) (d : List (List Int)) : Prop :=
  ∀ i j p, i < n → j < n → IsWalk G i p j → Tame p → (∀ x ∈ interm p, x < k) →
    mget d i j ≤ weight p

/-- The matrix is below every tame walk whose intermediate vertices are
pairwise distinct and below `k`. -/
def CompS (G : Edge → Prop) (n k : Nat) (d : List (List Int)) : Prop :=
  ∀ i j p, i < n → j < n → IsWalk G i p j → Tame p → (interm p).Nodup →
    (∀ x ∈ interm p, x < k) → mget d i j ≤ weight p

/-- The invariant of the pivot loop that needs no assumption on cycles: a
square matrix of walk weights with no entry above `INF`. -/
def GInv (G : Edge → Prop) (n : Nat) (d : List (List Int)) : Prop :=
  Square n d ∧ SoundM G n d ∧ ∀ i j, i < n → j < n → mget d i j ≤ INF_FW

/-- A matrix on three vertices with the edges `0 → 2` (weight `1`), `2 → 0`
(weight `0`), `2 → 1` (weight `-3`) and `1 → 2` (weight `0`). -/
def cexM : List (List Int) := [[0, INF_FW, 1], [INF_FW, 0, 0], [0, -3, 0]]

/-- The matrix of the path `0 → 1 → ... → N` with weight `W` on each edge:
`0` on the diagonal, `W` at `[i][i+1]`, `INF` elsewhere. -/
def pathMatrix (N : Nat) (W : Int) : List (List Int) :=
  (List.range (N + 1)).map (fun i =>
    (List.range (N + 1)).map (fun j => if i = j then 0 else if j = i + 1 then W else INF_FW))

/-- The matrix of the two-vertex negative cycle `{0→1: -1, 1→0: -1}`. -/
def exNegM : List (List Int) := [[0, -1], [-1, 0]]

/-- The matrix of `exDag`. -/
def exDagM : List (List Int) :=
  [[0, 4, 5, INF_FW], [INF_FW, 0, -3, INF_FW], [INF_FW, INF_FW, 0, 1],
    [INF_FW, INF_FW, INF_FW, 0]]

/-- The matrix of a ring on the `2 * P + 1` vertices `2P → 0 → 1 → ... → 2P`:
the `P` edges from `2P` up to the vertex `P - 1` have weight `W`, the `P + 1`
edges from `P - 1` on to `2P` have weight `-W`; `0` on the diagonal, `INF`
where there is no edge. -/
def ringMatrix (P : Nat) (W : Int) : List (List Int) :=
  (List.range (2 * P + 1)).map (fun i =>
    (List.range (2 * P + 1)).map (fun j =>
      if i = j then 0
      else if j = (i + 1) % (2 * P + 1) then (if i + 1 < P ∨ i = 2 * P then W else -W)
      else INF_FW))

/-- Height of the vertex `v` of the ring above the position of the vertex `2P`
at the start of a turn, in units of `W`. -/
def ringH (P v : Nat) : Int := if v + 1 ≤ P then (v : Int) + 1 else 2 * (P : Int) - 1 - v

/-- Invariant of the pivot loop on the ring, before the pass for the pivot `k`:
the diagonal is `0`, and an entry other than `INF` off the diagonal is either
the weight of the part of the ring from `i` up to a higher vertex `j` whose
weight up to the top `P - 1`, when it goes over the top, is below `INF`, or
the weight of the part from `2P` to `j`, all of it on the way up and below
`INF`. -/
def RingInv (P : Nat) (W : Int) (k : Nat) (d : List (List Int)) : Prop :=
  Square (2 * P + 1) d ∧
  ∀ i j, i < 2 * P + 1 → j < 2 * P + 1 →
    (i = j → mget d i j = 0) ∧ mget d i j ≤ INF_FW ∧
    (i ≠ j → mget d i j ≠ INF_FW →
      (i < j ∧ (j ≤ i + 1 ∨ j ≤ k) ∧ mget d i j = (ringH P j - ringH P i) * W ∧
        (i + 1 < P → P ≤ j + 1 → ((P : Int) - 1 - i) * W < INF_FW)) ∨
      (i = 2 * P ∧ (j = 0 ∨ j ≤ k) ∧ mget d i j = ((j : Int) + 1) * W ∧
        ((j : Int) + 1) * W < INF_FW))

/-- Invariant of the rounds of `dijkstra_seq` on non-negative weights, as far as
the visited vertices go: both vectors have `n` entries, no entry is above
`INF`, and no visited vertex is farther than an unvisited one. -/
def UInv (n : Nat) (dist : List Int) (used : List Bool) : Prop :=
  dist.length = n ∧ used.length = n ∧ (∀ v, rd dist v ≤ INF) ∧
    ∀ a b, ud used a = true → b < n → ud used b = false → rd dist a ≤ rd dist b

theorem INF_pos : (0 : Int) < INF := by decide

theorem rd_set (d : List Int) (i j : Nat) (x : Int) :
    rd (d.set i x) j = if i = j ∧ i < d.length then x else rd d j := by
  unfold rd
  by_cases h : i = j
  · subst h
    by_cases hl : i < d.length
    · simp [List.getD_eq_getElem?_getD, List.getElem?_set, hl]
    · have hl2 : d.length ≤ i := by omega
      simp [List.getD_eq_getElem?_getD, List.getElem?_set, hl, List.getElem?_eq_none hl2]
  · simp [List.getD_eq_getElem?_getD, List.getElem?_set, h]

theorem rd_replicate (n : Nat) (x : Int) (i : Nat) (h : i < n) :
    rd (List.replicate n x) i = x := by
  unfold rd
  simp [List.getD_eq_getElem?_getD, List.getElem?_replicate, h]

theorem list_ext_rd (d1 d2 : List Int) (hl : d1.length = d2.length)
    (h : ∀ v, v < d1.length → rd d1 v = rd d2 v) : d1 = d2 := by
  apply List.ext_getElem hl
  intro i h1 h2
  have := h i h1
  unfold rd at this
  simpa [List.getD_eq_getElem?_getD, List.getElem?_eq_getElem h1,
    List.getElem?_eq_getElem h2] using this

/-! ## Walks -/

theorem weight_nil : weight [] = 0 := rfl

theorem weight_cons (e : Edge) (p : List Edge) : weight (e :: p) = e.w + weight p := by
  simp [weight]

theorem weight_append (p q : List Edge) : weight (p ++ q) = weight p + weight q := by
  simp [weight]

theorem IsWalk.walk_append {G : Edge → Prop} : ∀ {p : List Edge} {a b c : Nat} {q : List Edge},
    IsWalk G a p b → IsWalk G b q c → IsWalk G a (p ++ q) c
  | [], a, b, c, q, h1, h2 => by
    simp only [IsWalk] at h1
    subst h1
    simpa using h2
  | e :: p, a, b, c, q, h1, h2 => by
    simp only [IsWalk, List.cons_append] at h1 ⊢
    exact ⟨h1.1, h1.2.1, IsWalk.walk_append h1.2.2 h2⟩

theorem IsWalk.split {G : Edge → Prop} : ∀ {p : List Edge} {a c : Nat} {q : List Edge},
    IsWalk G a (p ++ q) c → ∃ b, IsWalk G a p b ∧ IsWalk G b q c
  | [], a, c, q, h => ⟨a, rfl, by simpa using h⟩
  | e :: p, a, c, q, h => by
    simp only [IsWalk, List.cons_append] at h
    obtain ⟨b, h1, h2⟩ := IsWalk.split h.2.2
    exact ⟨b, ⟨h.1, h.2.1, h1⟩, h2⟩

theorem IsWalk.walk_single {G : Edge → Prop} {e : Edge} (h : G e) : IsWalk G e.u [e] e.v :=
  ⟨h, rfl, rfl⟩

theorem IsWalk.snoc {G : Edge → Prop} {p : List Edge} {a : Nat} {e : Edge}
    (h1 : IsWalk G a p e.u) (h2 : G e) : IsWalk G a (p ++ [e]) e.v :=
  IsWalk.walk_append h1 (IsWalk.walk_single h2)

theorem IsWalk.walk_mono {G H : Edge → Prop} (hGH : ∀ e, G e → H e) :
    ∀ {p : List Edge} {a b : Nat}, IsWalk G a p b → IsWalk H a p b
  | [], _, _, h => h
  | _ :: _, _, _, h => ⟨hGH _ h.1, h.2.1, IsWalk.walk_mono hGH h.2.2⟩

theorem IsWalk.edges_mem {G : Edge → Prop} :
    ∀ {p : List Edge} {a b : Nat}, IsWalk G a p b → ∀ e ∈ p, G e
  | [], _, _, _, e, he => by simp at he
  | e' :: p, _, _, h, e, he => by
    rcases List.mem_cons.1 he with rfl | he
    · exact h.1
    · exact IsWalk.edges_mem h.2.2 e he

theorem IsWalk.verts_lt {G : Edge → Prop} {n : Nat} (hG : InRange G n) :
    ∀ {p : List Edge} {a b : Nat}, IsWalk G a p b → ∀ x ∈ p.map Edge.v, x < n
  | [], _, _, _, x, hx => by simp at hx
  | e :: p, _, _, h, x, hx => by
    simp only [List.map_cons, List.mem_cons] at hx
    rcases hx with rfl | hx
    · exact (hG e h.1).2
    · exact IsWalk.verts_lt hG h.2.2 x hx

/-! ## Running totals -/

theorem AdmP.admP_append {P : Int → Prop} : ∀ {p q : List Edge} {acc : Int},
    AdmP P acc (p ++ q) ↔ AdmP P acc p ∧ AdmP P (acc + weight p) q
  | [], q, acc => by simp [AdmP, weight_nil]
  | e :: p, q, acc => by
    have ih := @AdmP.admP_append P p q (acc + e.w)
    show (P (acc + e.w) ∧ AdmP P (acc + e.w) (p ++ q)) ↔
      (P (acc + e.w) ∧ AdmP P (acc + e.w) p) ∧ AdmP P (acc + weight (e :: p)) q
    rw [ih, weight_cons, and_assoc, add_assoc]

theorem AdmP.admP_anti {P : Int → Prop} (hP : ∀ x y, y ≤ x → P x → P y) :
    ∀ {p : List Edge} {acc acc' : Int}, acc' ≤ acc → AdmP P acc p → AdmP P acc' p
  | [], _, _, _, _ => trivial
  | e :: p, acc, acc', h, hp =>
    ⟨hP _ _ (by omega) hp.1, AdmP.admP_anti hP (by omega) hp.2⟩

/-- The last running total of a non-empty admissible list satisfies `P`. -/
theorem AdmP.total {P : Int → Prop} : ∀ {p : List Edge} {acc : Int},
    AdmP P acc p → p ≠ [] → P (acc + weight p)
  | [], _, _, h => absurd rfl h
  | [e], acc, hp, _ => by simpa [weight_cons, weight_nil] using hp.1
  | e :: e' :: p, acc, hp, _ => by
    have := AdmP.total hp.2 (List.cons_ne_nil e' p)
    rw [weight_cons, ← add_assoc]
    exact this

theorem Adm.adm_append {p q : List Edge} {acc : Int} :
    Adm acc (p ++ q) ↔ Adm acc p ∧ Adm (acc + weight p) q := AdmP.admP_append

theorem Adm.adm_anti {p : List Edge} {acc acc' : Int} (h : acc' ≤ acc) (hp : Adm acc p) :
    Adm acc' p :=
  AdmP.admP_anti (fun _ _ hxy hx => lt_of_le_of_lt hxy hx) h hp

theorem Adm.adm_single {acc : Int} {e : Edge} : Adm acc [e] ↔ acc + e.w < INF := by
  simp [Adm, AdmP]

theorem Adm.nil (acc : Int) : Adm acc [] := trivial

/-- The total weight of a walk the engine can follow is below `INF`. -/
theorem Adm.weight_lt {p : List Edge} (hp : Adm 0 p) : weight p < INF := by
  by_cases h : p = []
  · subst h
    exact INF_pos
  · have := AdmP.total hp h
    simpa using this

/-! ## Removing closed walks -/

/-- A walk can be cut at any vertex it visits. -/
theorem IsWalk.split_at {G : Edge → Prop} : ∀ {r : List Edge} {a b x : Nat},
    IsWalk G a r b → x ∈ a :: r.map Edge.v →
    ∃ r1 r2, r = r1 ++ r2 ∧ IsWalk G a r1 x ∧ IsWalk G x r2 b ∧
      (x :: r2.map Edge.v).Sublist (a :: r.map Edge.v)
  | [], a, b, x, h, hx => by
    simp only [List.map_nil, List.mem_singleton] at hx
    subst hx
    exact ⟨[], [], rfl, rfl, h, List.Sublist.refl _⟩
  | e :: r, a, b, x, h, hx => by
    by_cases hxa : x = a
    · subst hxa
      exact ⟨[], e :: r, rfl, rfl, h, List.Sublist.refl _⟩
    · have hx' : x ∈ e.v :: r.map Edge.v := by
        rcases List.mem_cons.1 hx with h1 | h1
        · exact absurd h1 hxa
        · simpa using h1
      obtain ⟨r1, r2, hr, h1, h2, hsub⟩ := IsWalk.split_at h.2.2 hx'
      refine ⟨e :: r1, r2, by rw [hr]; rfl, ⟨h.1, h.2.1, h1⟩, h2, ?_⟩
      simp only [List.map_cons]
      exact List.Sublist.cons _ hsub

/-- Cutting out closed walks: a walk that follows an admissible walk from `s`
can be replaced by one that repeats no vertex, weighs no more and is still
admissible, as long as the closed walks that can be followed from `s` are not
negative. -/
theorem shorten_aux {G : Edge → Prop} {P : Int → Prop}
    (hP : ∀ x y, y ≤ x → P x → P y) {s : Nat}
    (hc : ∀ p c x, IsWalk G s p x → IsWalk G x c x → AdmP P 0 (p ++ c) → 0 ≤ weight c) :
    ∀ (q : List Edge) (a b : Nat) (p0 : List Edge),
      IsWalk G s p0 a → IsWalk G a q b → AdmP P 0 (p0 ++ q) →
      ∃ q', IsWalk G a q' b ∧ AdmP P (weight p0) q' ∧ weight q' ≤ weight q ∧
        (a :: q'.map Edge.v).Nodup
  | [], a, b, p0, _, hq, _ => ⟨[], hq, trivial, le_refl _, by simp⟩
  | e :: r, a, b, p0, h0, hq, hadm => by
    have hu : e.u = a := hq.2.1
    have h0' : IsWalk G s (p0 ++ [e]) e.v := by
      have := IsWalk.snoc (hu ▸ h0) hq.1
      exact this
    have hadm' : AdmP P 0 ((p0 ++ [e]) ++ r) := by simpa using hadm
    obtain ⟨r', hr', ha', hw', hnd⟩ := shorten_aux hP hc r e.v b (p0 ++ [e]) h0' hq.2.2 hadm'
    have hE : P (weight p0 + e.w) := by
      have := (AdmP.admP_append.1 hadm).2
      simpa using this.1
    rw [weight_append, weight_cons, weight_nil, add_zero] at ha'
    by_cases hmem : a ∈ e.v :: r'.map Edge.v
    · obtain ⟨r1, r2, hsplit, h1, h2, hsub⟩ := IsWalk.split_at hr' hmem
      have hcyc : IsWalk G a (e :: r1) a := ⟨hq.1, hu, h1⟩
      have ha1 : AdmP P (weight p0 + e.w) r1 ∧ AdmP P (weight p0 + e.w + weight r1) r2 := by
        rw [hsplit] at ha'
        exact AdmP.admP_append.1 ha'
      have hadmc : AdmP P 0 (p0 ++ (e :: r1)) := by
        rw [AdmP.admP_append]
        refine ⟨(AdmP.admP_append.1 hadm).1, ?_⟩
        rw [zero_add]
        exact ⟨hE, ha1.1⟩
      have hnn : 0 ≤ weight (e :: r1) := hc p0 (e :: r1) a h0 hcyc hadmc
      rw [weight_cons] at hnn
      refine ⟨r2, h2, AdmP.admP_anti hP (by omega) ha1.2, ?_, hnd.sublist hsub⟩
      rw [weight_cons]
      rw [hsplit, weight_append] at hw'
      omega
    · refine ⟨e :: r', ⟨hq.1, hu, hr'⟩, ⟨hE, ha'⟩, ?_, ?_⟩
      · rw [weight_cons, weight_cons]
        omega
      · simp only [List.map_cons]
        exact List.nodup_cons.2 ⟨hmem, hnd⟩

/-- A list of distinct vertices of `[0, n)` has at most `n` entries. -/
theorem nodup_length_le {l : List Nat} {n : Nat} (hnd : l.Nodup) (hlt : ∀ x ∈ l, x < n) :
    l.length ≤ n := by
  have hsub : l ⊆ List.range n := fun x hx => List.mem_range.2 (hlt x hx)
  have := (List.subperm_of_subset hnd hsub).length_le
  simpa using this

/-- Every admissible walk from `s` can be replaced by an admissible walk with
fewer than `n` edges that weighs no more. -/
theorem shorten {G : Edge → Prop} {P : Int → Prop}
    (hP : ∀ x y, y ≤ x → P x → P y) {s n : Nat} (hG : InRange G n) (hs : s < n)
    (hc : ∀ p c x, IsWalk G s p x → IsWalk G x c x → AdmP P 0 (p ++ c) → 0 ≤ weight c)
    {p : List Edge} {v : Nat} (hw : IsWalk G s p v) (ha : AdmP P 0 p) :
    ∃ q, IsWalk G s q v ∧ AdmP P 0 q ∧ weight q ≤ weight p ∧ q.length < n := by
  obtain ⟨q, hq, haq, hwq, hnd⟩ :=
    shorten_aux hP hc p s v [] rfl hw (by simpa using ha)
  refine ⟨q, hq, by simpa [weight_nil] using haq, hwq, ?_⟩
  have hlen := nodup_length_le hnd (n := n) (by
    intro x hx
    rcases List.mem_cons.1 hx with rfl | hx
    · exact hs
    · exact IsWalk.verts_lt hG hq x hx)
  simp only [List.length_cons, List.length_map] at hlen
  omega

/-! ## Relaxation steps -/

theorem Sound.le_INF {G : Edge → Prop} {s : Nat} {d : List Int} (h : Sound G s d)
    {v : Nat} (hv : v < d.length) : rd d v ≤ INF := by
  by_cases hI : rd d v = INF
  · exact le_of_eq hI
  · obtain ⟨p, _, hp, hw⟩ := h v hv hI
    rw [← hw]
    exact le_of_lt (Adm.weight_lt hp)

theorem relaxEdge_length (st : List Int × Bool) (e : Edge) :
    (relaxEdge st e).1.length = st.1.length := by
  unfold relaxEdge
  split_ifs <;> simp

theorem relaxEdge_le (st : List Int × Bool) (e : Edge) (v : Nat) :
    rd (relaxEdge st e).1 v ≤ rd st.1 v := by
  unfold relaxEdge
  split_ifs with h1 h2
  · exact le_refl _
  · simp only [rd_set]
    split_ifs with h3
    · rw [← h3.1]
      exact le_of_lt h2
    · exact le_refl _
  · exact le_refl _

theorem relaxEdge_relaxed (st : List Int × Bool) (e : Edge) (hv : e.v < st.1.length)
    (hu : rd st.1 e.u ≠ INF) : rd (relaxEdge st e).1 e.v ≤ rd st.1 e.u + e.w := by
  unfold relaxEdge
  rw [if_neg hu]
  split_ifs with h2
  · simp [rd_set, hv]
  · exact not_lt.1 h2

theorem relaxEdge_sound {G : Edge → Prop} {s : Nat} (st : List Int × Bool) (e : Edge)
    (he : G e) (hu : e.u < st.1.length) (hs : Sound G s st.1) :
    Sound G s (relaxEdge st e).1 := by
  unfold relaxEdge
  split_ifs with h1 h2
  · exact hs
  · intro v hv hne
    rw [List.length_set] at hv
    rw [rd_set] at hne ⊢
    split_ifs with h3
    · obtain ⟨p, hp, ha, hw⟩ := hs e.u hu h1
      refine ⟨p ++ [e], ?_, ?_, ?_⟩
      · rw [← h3.1]
        exact IsWalk.snoc hp he
      · rw [Adm.adm_append]
        refine ⟨ha, ?_⟩
        rw [Adm.adm_single, zero_add, hw]
        exact lt_of_lt_of_le h2 (hs.le_INF h3.2)
      · rw [weight_append, weight_cons, weight_nil, hw]
        omega
    · rw [if_neg h3] at hne
      exact hs v hv hne
  · exact hs

theorem foldl_relax_length (l : List Edge) : ∀ (st : List Int × Bool),
    (l.foldl relaxEdge st).1.length = st.1.length := by
  induction l with
  | nil => intro st; rfl
  | cons e l ih =>
    intro st
    rw [List.foldl_cons, ih, relaxEdge_length]

theorem foldl_relax_le (l : List Edge) : ∀ (st : List Int × Bool) (v : Nat),
    rd (l.foldl relaxEdge st).1 v ≤ rd st.1 v := by
  induction l with
  | nil => intro st v; exact le_refl _
  | cons e l ih =>
    intro st v
    rw [List.foldl_cons]
    exact le_trans (ih _ v) (relaxEdge_le st e v)

theorem foldl_relax_sound {G : Edge → Prop} {s n : Nat} (hG : InRange G n) (l : List Edge) :
    ∀ (st : List Int × Bool), (∀ e ∈ l, G e) → st.1.length = n → Sound G s st.1 →
      Sound G s (l.foldl relaxEdge st).1 := by
  induction l with
  | nil => intro st _ _ h; exact h
  | cons e l ih =>
    intro st hl hn hs
    rw [List.foldl_cons]
    have he : G e := hl e (List.mem_cons_self _ _)
    refine ih _ (fun e' he' => hl e' (List.mem_cons_of_mem _ he')) ?_ ?_
    · rw [relaxEdge_length, hn]
    · exact relaxEdge_sound st e he (by rw [hn]; exact (hG e he).1) hs

/-- A scan that ends with the flag down started with the flag down, wrote
nothing, and found every edge of the scan relaxed. -/
theorem foldl_relax_false (l : List Edge) : ∀ (st : List Int × Bool),
    (l.foldl relaxEdge st).2 = false →
      st.2 = false ∧ (l.foldl relaxEdge st).1 = st.1 ∧
        ∀ e ∈ l, rd st.1 e.u ≠ INF → rd st.1 e.v ≤ rd st.1 e.u + e.w := by
  induction l with
  | nil => intro st h; exact ⟨h, rfl, by simp⟩
  | cons e l ih =>
    intro st h
    rw [List.foldl_cons] at h ⊢
    obtain ⟨h1, h2, h3⟩ := ih _ h
    have key : relaxEdge st e = st ∧
        (rd st.1 e.u ≠ INF → rd st.1 e.v ≤ rd st.1 e.u + e.w) := by
      by_cases h4 : rd st.1 e.u = INF
      · exact ⟨by unfold relaxEdge; rw [if_pos h4], fun hne => absurd h4 hne⟩
      · by_cases h5 : rd st.1 e.u + e.w < rd st.1 e.v
        · exfalso
          have : (relaxEdge st e).2 = true := by
            unfold relaxEdge
            rw [if_neg h4, if_pos h5]
          rw [h1] at this
          exact Bool.false_ne_true this
        · exact ⟨by unfold relaxEdge; rw [if_neg h4, if_neg h5], fun _ => not_lt.1 h5⟩
    rw [key.1] at h1 h2 h3 ⊢
    refine ⟨h1, h2, ?_⟩
    intro e' he'
    rcases List.mem_cons.1 he' with rfl | he'
    · exact key.2
    · exact h3 e' he'

/-! ## One round -/

theorem relaxRound_length (order : List Edge) (d : List Int) :
    (relaxRound order d).1.length = d.length :=
  foldl_relax_length order (d, false)

theorem relaxRound_le (order : List Edge) (d : List Int) (v : Nat) :
    rd (relaxRound order d).1 v ≤ rd d v :=
  foldl_relax_le order (d, false) v

theorem relaxRound_sound {G : Edge → Prop} {s n : Nat} (hG : InRange G n)
    {order : List Edge} (ho : ∀ e ∈ order, G e) {d : List Int} (hn : d.length = n)
    (hs : Sound G s d) : Sound G s (relaxRound order d).1 :=
  foldl_relax_sound hG order (d, false) ho hn hs

theorem relaxRound_false {order : List Edge} {d : List Int}
    (h : (relaxRound order d).2 = false) :
    (relaxRound order d).1 = d ∧
      ∀ e ∈ order, rd d e.u ≠ INF → rd d e.v ≤ rd d e.u + e.w :=
  (foldl_relax_false order (d, false) h).2

/-- A round extends the reach of the vector by one edge. -/
theorem relaxRound_upto {G : Edge → Prop} {s n k : Nat} (hG : InRange G n)
    {order : List Edge} (ho : ∀ e, G e → e ∈ order) {d : List Int} (hn : d.length = n)
    (hk : Upto G s k d) : Upto G s (k + 1) (relaxRound order d).1 := by
  intro p v hp ha hlen
  by_cases hshort : p.length ≤ k
  · exact le_trans (relaxRound_le order d v) (hk p v hp ha hshort)
  · have hne : p ≠ [] := by
      intro h
      rw [h] at hshort
      simp at hshort
    have hdec := List.dropLast_append_getLast hne
    set q := p.dropLast with hq
    set e := p.getLast hne with he
    have hqlen : q.length ≤ k := by
      have : p.length = q.length + 1 := by rw [← hdec]; simp
      omega
    rw [← hdec] at hp ha ⊢
    obtain ⟨b, hpq, hpe⟩ := IsWalk.split hp
    obtain ⟨hGe, hub, hvv⟩ := hpe
    simp only [IsWalk] at hvv
    subst hvv
    subst hub
    obtain ⟨haq, hae⟩ := Adm.adm_append.1 ha
    rw [Adm.adm_single, zero_add] at hae
    have hdu : rd d e.u ≤ weight q := hk q e.u hpq haq hqlen
    obtain ⟨l1, l2, hl⟩ := List.append_of_mem (ho e hGe)
    unfold relaxRound
    rw [hl, List.foldl_append, List.foldl_cons]
    have h1 : rd (l1.foldl relaxEdge (d, false)).1 e.u ≤ rd d e.u :=
      foldl_relax_le l1 (d, false) e.u
    have hql : weight q < INF := Adm.weight_lt haq
    have h2 := relaxEdge_relaxed (l1.foldl relaxEdge (d, false)) e
      (by rw [foldl_relax_length]; show e.v < d.length; rw [hn]; exact (hG e hGe).2)
      (by omega)
    have h3 := foldl_relax_le l2 (relaxEdge (l1.foldl relaxEdge (d, false)) e) e.v
    rw [weight_append, weight_cons, weight_nil]
    omega

/-! ## Fixpoints -/

/-- A fixpoint is below every admissible continuation of a value it is below. -/
theorem Fix.le_walk_aux {G : Edge → Prop} {d : List Int} (hF : Fix G d) :
    ∀ (q : List Edge) (a b : Nat) (acc : Int), IsWalk G a q b → rd d a ≤ acc → acc < INF →
      Adm acc q → rd d b ≤ acc + weight q
  | [], a, b, acc, hq, ha, _, _ => by
    simp only [IsWalk] at hq
    subst hq
    simpa [weight_nil] using ha
  | e :: r, a, b, acc, hq, ha, hlt, hadm => by
    obtain ⟨hGe, hu, hr⟩ := hq
    subst hu
    have h1 : rd d e.v ≤ rd d e.u + e.w := hF e hGe (by omega)
    have := Fix.le_walk_aux hF r e.v b (acc + e.w) hr (by omega) hadm.1 hadm.2
    rw [weight_cons]
    omega

/-- A fixpoint with `dist[s] ≤ 0` is below every admissible walk from `s`. -/
theorem Fix.le_walk {G : Edge → Prop} {d : List Int} {s : Nat} (hF : Fix G d)
    (hs : rd d s ≤ 0) {p : List Edge} {v : Nat} (hp : IsWalk G s p v) (ha : Adm 0 p) :
    rd d v ≤ weight p := by
  have := hF.le_walk_aux p s v 0 hp hs INF_pos ha
  simpa using this

/-- Two sound fixpoints of the same graph and source are the same vector. -/
theorem sound_fix_unique {G : Edge → Prop} {s : Nat} {d1 d2 : List Int}
    (hl : d1.length = d2.length)
    (hS1 : Sound G s d1) (hF1 : Fix G d1) (h01 : rd d1 s ≤ 0)
    (hS2 : Sound G s d2) (hF2 : Fix G d2) (h02 : rd d2 s ≤ 0) : d1 = d2 := by
  have key : ∀ (a b : List Int), a.length = b.length → Sound G s a → Fix G a → rd a s ≤ 0 →
      Sound G s b → ∀ v, v < a.length → rd a v ≤ rd b v := by
    intro a b hab hSa hFa h0a hSb v hv
    by_cases hI : rd b v = INF
    · rw [hI]
      exact hSa.le_INF hv
    · obtain ⟨p, hp, hadm, hw⟩ := hSb v (hab ▸ hv) hI
      rw [← hw]
      exact hFa.le_walk h0a hp hadm
  apply list_ext_rd d1 d2 hl
  intro v hv
  exact le_antisymm (key d1 d2 hl hS1 hF1 h01 hS2 v hv)
    (key d2 d1 hl.symm hS2 hF2 h02 hS1 v (hl ▸ hv))

/-! ## The round loop -/

theorem Upto.source_le {G : Edge → Prop} {s k : Nat} {d : List Int} (h : Upto G s k d) :
    rd d s ≤ 0 := by
  have := h [] s rfl (Adm.nil 0) (Nat.zero_le _)
  simpa [weight_nil] using this

theorem NoNegCycleFrom.adm {G : Edge → Prop} {s : Nat} (h : NoNegCycleFrom G s) :
    NoNegCycleAdm G s :=
  fun p c x hp hc _ => h p c x hp hc

/-- The initial vector: `INF` everywhere, `0` at the source. -/
theorem init_length (n s : Nat) : ((List.replicate n INF).set s 0).length = n := by
  simp

theorem rd_init (n s v : Nat) (hv : v < n) :
    rd ((List.replicate n INF).set s 0) v = if s = v then 0 else INF := by
  rw [rd_set]
  by_cases h : s = v
  · subst h
    simp [hv]
  · simp [h, rd_replicate n INF v hv]

theorem init_sound (G : Edge → Prop) (n s : Nat) :
    Sound G s ((List.replicate n INF).set s 0) := by
  intro v hv hne
  rw [init_length] at hv
  rw [rd_init n s v hv] at hne ⊢
  by_cases h : s = v
  · subst h
    exact ⟨[], rfl, Adm.nil 0, by simp [weight_nil]⟩
  · simp [h] at hne

theorem init_upto (G : Edge → Prop) (n s : Nat) (hs : s < n) :
    Upto G s 0 ((List.replicate n INF).set s 0) := by
  intro p v hp _ hl
  have hp0 : p = [] := List.length_eq_zero.1 (Nat.le_zero.1 hl)
  subst hp0
  simp only [IsWalk] at hp
  subst hp
  rw [rd_init n s s hs]
  simp [weight_nil]

/-- What the round loop establishes when every round relaxes a list that
covers the edges of the graph: the result is sound, and it is a fixpoint (early
exit) or all the rounds were run. -/
theorem bfOrdLoop_spec {G : Edge → Prop} {s n : Nat} (hG : InRange G n)
    {sched : Nat → List Edge} (h1 : ∀ it, ∀ e ∈ sched it, G e)
    (h2 : ∀ it e, G e → e ∈ sched it) :
    ∀ (k it j : Nat) (d : List Int), d.length = n → Sound G s d → Upto G s j d →
      (bfOrdLoop sched it k d).length = n ∧ Sound G s (bfOrdLoop sched it k d) ∧
        rd (bfOrdLoop sched it k d) s ≤ 0 ∧
        (Fix G (bfOrdLoop sched it k d) ∨ Upto G s (j + k) (bfOrdLoop sched it k d)) := by
  intro k
  induction k with
  | zero =>
    intro it j d hn hS hU
    exact ⟨hn, hS, hU.source_le, Or.inr hU⟩
  | succ k ih =>
    intro it j d hn hS hU
    unfold bfOrdLoop
    by_cases hflag : (relaxRound (sched it) d).2 = true
    · rw [if_pos hflag]
      have hU' := relaxRound_upto hG (h2 it) hn hU
      have hS' := relaxRound_sound hG (h1 it) hn hS
      have hn' : (relaxRound (sched it) d).1.length = n := by rw [relaxRound_length, hn]
      have := ih (it + 1) (j + 1) _ hn' hS' hU'
      rw [show j + 1 + k = j + (k + 1) by omega] at this
      exact this
    · rw [if_neg hflag]
      have hf : (relaxRound (sched it) d).2 = false := by simpa using hflag
      obtain ⟨heq, hfix⟩ := relaxRound_false hf
      rw [heq]
      exact ⟨hn, hS, hU.source_le, Or.inl (fun e he hne => hfix e (h2 it e he) hne)⟩

/-- Once every round has been run, the absence of negative closed walks the
engine can follow makes the vector a fixpoint. -/
theorem fix_of_upto {G : Edge → Prop} {s n : Nat} (hG : InRange G n) (hs : s < n)
    (hc : NoNegCycleAdm G s) {d : List Int} (hn : d.length = n) (hS : Sound G s d)
    (hU : Upto G s (n - 1) d) : Fix G d := by
  intro e he hne
  have hu := (hG e he).1
  have hv := (hG e he).2
  obtain ⟨p, hp, ha, hw⟩ := hS e.u (hn ▸ hu) hne
  by_cases hlt : rd d e.u + e.w < INF
  · have hp' : IsWalk G s (p ++ [e]) e.v := IsWalk.snoc hp he
    have ha' : Adm 0 (p ++ [e]) := by
      rw [Adm.adm_append]
      refine ⟨ha, ?_⟩
      rw [Adm.adm_single, zero_add, hw]
      exact hlt
    obtain ⟨q, hq, haq, hwq, hlen⟩ :=
      shorten (P := fun x => x < INF) (fun _ _ hxy hx => lt_of_le_of_lt hxy hx) hG hs hc hp' ha'
    have := hU q e.v hq haq (by omega)
    rw [weight_append, weight_cons, weight_nil, hw] at hwq
    omega
  · have := hS.le_INF (hn ▸ hv)
    omega

/-- The round loop with any lists that cover the edges: the result is a sound
fixpoint with `dist[source] ≤ 0`. -/
theorem bellman_ford_ord_spec {G : Edge → Prop} {s n : Nat} (hG : InRange G n) (hs : s < n)
    (hc : NoNegCycleAdm G s) {sched : Nat → List Edge} (h1 : ∀ it, ∀ e ∈ sched it, G e)
    (h2 : ∀ it e, G e → e ∈ sched it) :
    (bellman_ford_ord sched n s).length = n ∧ Sound G s (bellman_ford_ord sched n s) ∧
      rd (bellman_ford_ord sched n s) s ≤ 0 ∧ Fix G (bellman_ford_ord sched n s) := by
  obtain ⟨hn, hS, h0, hF⟩ := bfOrdLoop_spec hG h1 h2 (n - 1) 0 0 _ (init_length n s)
    (init_sound G n s) (init_upto G n s hs)
  refine ⟨hn, hS, h0, ?_⟩
  rcases hF with hF | hU
  · exact hF
  · rw [zero_add] at hU
    exact fix_of_upto hG hs hc hn hS hU

/-- The sequential loop is the generalised loop with the input order in every round. -/
theorem bfLoop_eq_ord (edges : List Edge) : ∀ (k it : Nat) (d : List Int),
    bfLoop edges k d = bfOrdLoop (fun _ => edges) it k d := by
  intro k
  induction k with
  | zero => intro it d; rfl
  | succ k ih =>
    intro it d
    unfold bfLoop bfOrdLoop
    split_ifs
    · exact ih (it + 1) _
    · rfl

theorem bellman_ford_seq_eq_ord (edges : List Edge) (n s : Nat) :
    bellman_ford_seq edges n s = bellman_ford_ord (fun _ => edges) n s :=
  bfLoop_eq_ord edges (n - 1) 0 _

theorem bellman_ford_seq_spec {edges : List Edge} {s n : Nat}
    (hG : InRange (edgeGraph edges) n) (hs : s < n) (hc : NoNegCycleAdm (edgeGraph edges) s) :
    (bellman_ford_seq edges n s).length = n ∧
      Sound (edgeGraph edges) s (bellman_ford_seq edges n s) ∧
      rd (bellman_ford_seq edges n s) s ≤ 0 ∧
      Fix (edgeGraph edges) (bellman_ford_seq edges n s) := by
  rw [bellman_ford_seq_eq_ord]
  exact bellman_ford_ord_spec hG hs hc (fun _ _ he => he) (fun _ _ he => he)

theorem validSched_mem {edges : List Edge} {sched : Nat → List Edge}
    (h : ValidSched edges sched) (it : Nat) (e : Edge) :
    e ∈ sched it ↔ edgeGraph edges e :=
  (h it).mem_iff

/-- Walks over non-negative edges have non-negative weight. -/
theorem weight_nonneg {G : Edge → Prop} (hG : ∀ e, G e → 0 ≤ e.w) :
    ∀ {p : List Edge} {a b : Nat}, IsWalk G a p b → 0 ≤ weight p
  | [], _, _, _ => le_refl _
  | e :: p, _, _, h => by
    have := weight_nonneg hG h.2.2
    have := hG e h.1
    rw [weight_cons]
    omega

theorem noNegCycleFrom_of_nonneg {G : Edge → Prop} (hG : ∀ e, G e → 0 ≤ e.w) (s : Nat) :
    NoNegCycleFrom G s :=
  fun _ _ _ _ hc => weight_nonneg hG hc

/-! ## The negative-cycle check -/

theorem has_negative_cycle_iff (edges : List Edge) (dist : List Int) :
    has_negative_cycle edges dist = true ↔
      ∃ e ∈ edges, rd dist e.u ≠ INF ∧ rd dist e.u + e.w < rd dist e.v := by
  induction edges with
  | nil => simp [has_negative_cycle]
  | cons e es ih =>
    unfold has_negative_cycle
    split_ifs with h1 h2
    · rw [ih]
      constructor
      · rintro ⟨e', he', h⟩
        exact ⟨e', List.mem_cons_of_mem _ he', h⟩
      · rintro ⟨e', he', h⟩
        rcases List.mem_cons.1 he' with rfl | he'
        · exact absurd h1 h.1
        · exact ⟨e', he', h⟩
    · simp only [true_iff]
      exact ⟨e, List.mem_cons_self _ _, h1, h2⟩
    · rw [ih]
      constructor
      · rintro ⟨e', he', h⟩
        exact ⟨e', List.mem_cons_of_mem _ he', h⟩
      · rintro ⟨e', he', h⟩
        rcases List.mem_cons.1 he' with rfl | he'
        · exact absurd h.2 h2
        · exact ⟨e', he', h⟩

theorem has_negative_cycle_false_iff (edges : List Edge) (dist : List Int) :
    has_negative_cycle edges dist = false ↔ Fix (edgeGraph edges) dist := by
  rw [← Bool.not_eq_true, has_negative_cycle_iff]
  unfold Fix edgeGraph
  constructor
  · intro h e he hne
    by_contra hlt
    exact h ⟨e, he, hne, not_le.1 hlt⟩
  · rintro h ⟨e, he, hne, hlt⟩
    have := h e he hne
    omega

/-! ## Sound fixpoints are distances -/

theorem admDist_of_sound_fix {G : Edge → Prop} {s : Nat} {d : List Int}
    (hS : Sound G s d) (hF : Fix G d) (h0 : rd d s ≤ 0) {v : Nat} (hv : v < d.length) :
    IsAdmDist G s v (rd d v) := by
  by_cases hI : rd d v = INF
  · by_cases hex : ∃ p, IsWalk G s p v ∧ Adm 0 p
    · obtain ⟨p, hp, ha⟩ := hex
      have h1 := hF.le_walk h0 hp ha
      have h2 := Adm.weight_lt ha
      omega
    · exact Or.inr ⟨hex, hI⟩
  · exact Or.inl ⟨hS v hv hI, fun p hp ha => hF.le_walk h0 hp ha⟩

/-- A walk all of whose prefixes weigh less than `INF` can be followed. -/
theorem adm_of_prefix_bound {G : Edge → Prop} {s : Nat} :
    ∀ (q : List Edge) (a b : Nat) (p0 : List Edge), IsWalk G s p0 a → IsWalk G a q b →
      (∀ p' v', IsWalk G s p' v' → p'.length ≤ p0.length + q.length → weight p' < INF) →
      Adm (weight p0) q
  | [], _, _, _, _, _, _ => trivial
  | e :: r, a, b, p0, h0, hq, hb => by
    have h0' : IsWalk G s (p0 ++ [e]) e.v := IsWalk.snoc (hq.2.1 ▸ h0) hq.1
    have hlt := hb (p0 ++ [e]) e.v h0' (by simp)
    have hrec := adm_of_prefix_bound r e.v b (p0 ++ [e]) h0' hq.2.2 (by
      intro p' v' hp' hl
      apply hb p' v' hp'
      simp only [List.length_append, List.length_cons, List.length_nil] at hl ⊢
      omega)
    rw [weight_append, weight_cons, weight_nil, add_zero] at hlt hrec
    exact ⟨hlt, hrec⟩

/-- When the walks with fewer than `n` edges weigh less than `INF` and no
negative closed walk is reachable, every walk from `s` is matched by a walk the
engine can follow that weighs no more. -/
theorem exists_adm_le {G : Edge → Prop} {s n : Nat} (hG : InRange G n) (hs : s < n)
    (hc : NoNegCycleFrom G s)
    (hfit : ∀ p v, IsWalk G s p v → p.length < n → weight p < INF)
    {p : List Edge} {v : Nat} (hp : IsWalk G s p v) :
    ∃ q, IsWalk G s q v ∧ Adm 0 q ∧ weight q ≤ weight p := by
  have hAll : ∀ (acc : Int) (r : List Edge), AdmP (fun _ => True) acc r := by
    intro acc r
    induction r generalizing acc with
    | nil => trivial
    | cons e r ih => exact ⟨trivial, ih _⟩
  obtain ⟨q, hq, _, hwq, hlen⟩ :=
    shorten (P := fun _ => True) (fun _ _ _ _ => trivial) hG hs
      (fun p c x hp hc' _ => hc p c x hp hc') hp (hAll 0 p)
  refine ⟨q, hq, ?_, hwq⟩
  have := adm_of_prefix_bound q s v [] rfl hq (by
    intro p' v' hp' hl
    apply hfit p' v' hp'
    simp only [List.length_nil, zero_add] at hl
    omega)
  simpa [weight_nil] using this

theorem trueDist_of_admDist {G : Edge → Prop} {s n : Nat} (hG : InRange G n) (hs : s < n)
    (hc : NoNegCycleFrom G s)
    (hfit : ∀ p v, IsWalk G s p v → p.length < n → weight p < INF)
    {v : Nat} {x : Int} (h : IsAdmDist G s v x) : IsTrueDist INF G s v x := by
  rcases h with ⟨⟨p, hp, _, hw⟩, hmin⟩ | ⟨hno, hx⟩
  · refine ⟨fun _ => ⟨⟨p, hp, hw⟩, ?_⟩, fun hnr => absurd ⟨p, hp⟩ hnr⟩
    intro p' hp'
    obtain ⟨q, hq, haq, hwq⟩ := exists_adm_le hG hs hc hfit hp'
    exact le_trans (hmin q hq haq) hwq
  · refine ⟨?_, fun _ => hx⟩
    rintro ⟨p', hp'⟩
    obtain ⟨q, hq, haq, _⟩ := exists_adm_le hG hs hc hfit hp'
    exact absurd ⟨q, hq, haq⟩ hno

/-! ## The path graph -/

theorem mem_pathEdges {N : Nat} {W : Int} {e : Edge} :
    e ∈ pathEdges N W ↔ e.u < N ∧ e.v = e.u + 1 ∧ e.w = W := by
  unfold pathEdges
  simp only [List.mem_map, List.mem_range]
  constructor
  · rintro ⟨i, hi, rfl⟩
    exact ⟨hi, rfl, rfl⟩
  · rintro ⟨h1, h2, h3⟩
    refine ⟨e.u, h1, ?_⟩
    cases e
    simp_all

theorem pathEdges_inRange (N : Nat) (W : Int) : InRange (edgeGraph (pathEdges N W)) (N + 1) := by
  intro e he
  have := mem_pathEdges.1 he
  omega

/-- In the path graph a walk from `a` to `b` weighs `(b - a) * W`. -/
theorem path_walk_weight {G : Edge → Prop} {W : Int}
    (hG : ∀ e, G e → e.v = e.u + 1 ∧ e.w = W) :
    ∀ {p : List Edge} {a b : Nat}, IsWalk G a p b → weight p = ((b : Int) - a) * W
  | [], a, b, h => by
    simp only [IsWalk] at h
    subst h
    simp [weight_nil]
  | e :: p, a, b, h => by
    have ih := path_walk_weight hG h.2.2
    have := hG e h.1
    rw [weight_cons, ih, this.1, this.2, ← h.2.1]
    push_cast
    ring

/-- The path graph walks from `a` up to `a + k`. -/
theorem path_walk_exists {G : Edge → Prop} {W : Int} :
    ∀ (k a : Nat), (∀ i, a ≤ i → i < a + k → G ⟨i, i + 1, W⟩) →
      ∃ p, IsWalk G a p (a + k)
  | 0, a, _ => ⟨[], rfl⟩
  | k + 1, a, h => by
    obtain ⟨p, hp⟩ := path_walk_exists k (a + 1) (fun i h1 h2 => h i (by omega) (by omega))
    refine ⟨⟨a, a + 1, W⟩ :: p, h a (le_refl _) (by omega), rfl, ?_⟩
    rw [show a + (k + 1) = a + 1 + k by omega]
    exact hp

theorem pathEdges_reach (N : Nat) (W : Int) :
    Reachable (edgeGraph (pathEdges N W)) 0 N := by
  have := path_walk_exists (G := edgeGraph (pathEdges N W)) (W := W) N 0 (by
    intro i _ hi
    exact mem_pathEdges.2 ⟨by simpa using hi, rfl, rfl⟩)
  simpa using this

/-! ## Acyclic and bounded graphs -/

/-- In a graph whose edges all go from a lower to a higher index, a walk ends
above its start unless it is empty. -/
theorem dag_walk {G : Edge → Prop} (hG : ∀ e, G e → e.u < e.v) :
    ∀ {p : List Edge} {a b : Nat}, IsWalk G a p b → a ≤ b ∧ (p ≠ [] → a < b)
  | [], a, b, h => by
    simp only [IsWalk] at h
    subst h
    exact ⟨le_refl _, fun h => absurd rfl h⟩
  | e :: p, a, b, h => by
    have ih := (dag_walk hG h.2.2).1
    have := hG e h.1
    have := h.2.1
    exact ⟨by omega, fun _ => by omega⟩

theorem noNegCycleFrom_of_dag {G : Edge → Prop} (hG : ∀ e, G e → e.u < e.v) (s : Nat) :
    NoNegCycleFrom G s := by
  intro p c x _ hc
  by_cases h : c = []
  · subst h
    exact le_refl _
  · have := (dag_walk hG hc).2 h
    omega

/-- A walk over edges of weight at most `B` weighs at most `length * B`. -/
theorem weight_le_of_bound {G : Edge → Prop} {B : Int} (hG : ∀ e, G e → e.w ≤ B) :
    ∀ {p : List Edge} {a b : Nat}, IsWalk G a p b → weight p ≤ (p.length : Int) * B
  | [], _, _, _ => by simp [weight_nil]
  | e :: p, _, _, h => by
    have ih := weight_le_of_bound hG h.2.2
    have := hG e h.1
    rw [weight_cons, List.length_cons]
    push_cast
    linarith

theorem weight_nonneg_of_mem : ∀ (c : List Edge), (∀ e ∈ c, 0 ≤ e.w) → 0 ≤ weight c
  | [], _ => le_refl _
  | e :: c, h => by
    have := weight_nonneg_of_mem c (fun e' he' => h e' (List.mem_cons_of_mem _ he'))
    have := h e (List.mem_cons_self _ _)
    rw [weight_cons]
    omega

/-! ## Going round a closed walk -/

theorem repWalk_isWalk {G : Edge → Prop} {c : List Edge} {x : Nat} (hc : IsWalk G x c x) :
    ∀ k, IsWalk G x (repWalk c k) x
  | 0 => rfl
  | k + 1 => IsWalk.walk_append hc (repWalk_isWalk hc k)

theorem repWalk_weight (c : List Edge) : ∀ k : Nat, weight (repWalk c k) = (k : Int) * weight c
  | 0 => by simp [repWalk, weight_nil]
  | k + 1 => by
    rw [repWalk, weight_append, repWalk_weight c k]
    push_cast
    ring

theorem repWalk_adm {c : List Edge} {acc : Int} (hc : Adm acc c) (hneg : weight c ≤ 0) :
    ∀ k, Adm acc (repWalk c k)
  | 0 => trivial
  | k + 1 => by
    rw [repWalk, Adm.adm_append]
    exact ⟨hc, Adm.adm_anti (by omega) (repWalk_adm hc hneg k)⟩

/-- A fixpoint with `dist[s] ≤ 0` excludes a negative closed walk that can be
followed from `s`. -/
theorem Fix.noNegCycleAdm {G : Edge → Prop} {s : Nat} {d : List Int} (hF : Fix G d)
    (h0 : rd d s ≤ 0) : NoNegCycleAdm G s := by
  intro p c x hp hc hadm
  by_contra hneg
  have hneg' : weight c < 0 := not_le.1 hneg
  obtain ⟨hap, hac⟩ := Adm.adm_append.1 hadm
  rw [zero_add] at hac
  set k : Nat := (weight p - rd d x).toNat + 1 with hk
  have hw : IsWalk G s (p ++ repWalk c k) x := IsWalk.walk_append hp (repWalk_isWalk hc k)
  have ha : Adm 0 (p ++ repWalk c k) := by
    rw [Adm.adm_append, zero_add]
    exact ⟨hap, repWalk_adm hac (le_of_lt hneg') k⟩
  have hle := hF.le_walk h0 hw ha
  rw [weight_append, repWalk_weight] at hle
  have hk1 : weight p - rd d x < (k : Int) := by
    rw [hk]
    push_cast
    have := Int.self_le_toNat (weight p - rd d x)
    omega
  have hk2 : (k : Int) * weight c ≤ -(k : Int) := by nlinarith
  omega

/-! ## Dijkstra: the selection step -/

theorem ud_set (used : List Bool) (i j : Nat) (x : Bool) :
    ud (used.set i x) j = if i = j ∧ i < used.length then x else ud used j := by
  unfold ud
  by_cases h : i = j
  · subst h
    by_cases hl : i < used.length
    · simp [List.getD_eq_getElem?_getD, List.getElem?_set, hl]
    · have hl2 : used.length ≤ i := by omega
      simp [List.getD_eq_getElem?_getD, List.getElem?_set, hl, List.getElem?_eq_none hl2]
  · simp [List.getD_eq_getElem?_getD, List.getElem?_set, h]

theorem ud_replicate_false (n v : Nat) : ud (List.replicate n false) v = false := by
  unfold ud
  by_cases h : v < n
  · simp [List.getD_eq_getElem?_getD, List.getElem?_replicate, h]
  · simp [List.getD_eq_getElem?_getD, List.getElem?_replicate, h]

theorem GoodSel.congr {dist : List Int} {used : List Bool} {M M' : Nat → Prop}
    {st : Option Nat × Int} (h : ∀ v, M v ↔ M' v) (hg : GoodSel dist used M st) :
    GoodSel dist used M' st :=
  ⟨hg.1, fun v hv => hg.2.1 v ((h v).2 hv), hg.2.2.1,
    fun u hu => ⟨(h u).1 (hg.2.2.2 u hu).1, (hg.2.2.2 u hu).2⟩⟩

theorem goodSel_init (dist : List Int) (used : List Bool) :
    GoodSel dist used (fun _ => False) (none, INF) :=
  ⟨le_refl _, fun _ h => absurd h id, fun _ => rfl, fun _ h => by simp at h⟩

theorem scanStep_good {dist : List Int} {used : List Bool} {M : Nat → Prop}
    {st : Option Nat × Int} (hg : GoodSel dist used M st) (v : Nat) :
    GoodSel dist used (fun x => M x ∨ x = v) (scanStep dist used st v) := by
  obtain ⟨h1, h2, h3, h4⟩ := hg
  unfold scanStep
  split_ifs with hc
  · refine ⟨by simp only; omega, ?_, by simp, ?_⟩
    · rintro x (hx | hx) hux
      · have := h2 x hx hux
        simp only
        omega
      · subst hx
        exact le_refl _
    · intro u hu
      simp only [Option.some.injEq] at hu
      subst hu
      exact ⟨Or.inr rfl, hc.1, rfl, by simp only; omega⟩
  · refine ⟨h1, ?_, h3, fun u hu => ⟨Or.inl (h4 u hu).1, (h4 u hu).2⟩⟩
    rintro x (hx | hx) hux
    · exact h2 x hx hux
    · subst hx
      by_contra hlt
      exact hc ⟨hux, not_le.1 hlt⟩

theorem scan_good {dist : List Int} {used : List Bool} (l : List Nat) :
    ∀ (M : Nat → Prop) (st : Option Nat × Int), GoodSel dist used M st →
      GoodSel dist used (fun x => M x ∨ x ∈ l) (l.foldl (scanStep dist used) st) := by
  induction l with
  | nil =>
    intro M st hg
    exact hg.congr (fun v => by simp)
  | cons a l ih =>
    intro M st hg
    rw [List.foldl_cons]
    refine (ih _ _ (scanStep_good hg a)).congr (fun v => ?_)
    simp only [List.mem_cons]
    tauto

theorem localScan_good (dist : List Int) (used : List Bool) (slice : List Nat) :
    GoodSel dist used (fun x => x ∈ slice) (localScan dist used slice) :=
  (scan_good slice _ _ (goodSel_init dist used)).congr (fun v => by simp)

theorem combine_good {dist : List Int} {used : List Bool} {M M' : Nat → Prop}
    {st loc : Option Nat × Int} (hs : GoodSel dist used M st)
    (hl : GoodSel dist used M' loc) :
    GoodSel dist used (fun x => M x ∨ M' x) (combine st loc) := by
  obtain ⟨h1, h2, h3, h4⟩ := hs
  obtain ⟨l1, l2, l3, l4⟩ := hl
  unfold combine
  split_ifs with hc
  · refine ⟨l1, ?_, ?_, fun u hu => ⟨Or.inr (l4 u hu).1, (l4 u hu).2⟩⟩
    · rintro x (hx | hx) hux
      · have := h2 x hx hux
        simp only
        omega
      · exact l2 x hx hux
    · intro hn
      have := l3 hn
      simp only at this
      omega
  · refine ⟨h1, ?_, h3, fun u hu => ⟨Or.inl (h4 u hu).1, (h4 u hu).2⟩⟩
    rintro x (hx | hx) hux
    · exact h2 x hx hux
    · have := l2 x hx hux
      omega

theorem combine_fold_good {dist : List Int} {used : List Bool} (slices : List (List Nat)) :
    ∀ (M : Nat → Prop) (st : Option Nat × Int), GoodSel dist used M st →
      GoodSel dist used (fun x => M x ∨ x ∈ slices.flatten)
        ((slices.map (localScan dist used)).foldl combine st) := by
  induction slices with
  | nil =>
    intro M st hg
    exact hg.congr (fun v => by simp)
  | cons a l ih =>
    intro M st hg
    rw [List.map_cons, List.foldl_cons]
    refine (ih _ _ (combine_good hg (localScan_good dist used a))).congr (fun v => ?_)
    simp only [List.flatten_cons, List.mem_append]
    tauto

theorem select_par_good (dist : List Int) (used : List Bool) (slices : List (List Nat)) :
    GoodSel dist used (fun x => x ∈ slices.flatten) (select_par dist used slices) :=
  (combine_fold_good slices _ _ (goodSel_init dist used)).congr (fun v => by simp)

theorem select_seq_good (dist : List Int) (used : List Bool) (n : Nat) :
    GoodSel dist used (fun x => x < n) (select_seq dist used n) :=
  (scan_good (List.range n) _ _ (goodSel_init dist used)).congr (fun v => by simp)

/-- The sequential selection is the parallel selection with a single slice. -/
theorem select_seq_eq_par (dist : List Int) (used : List Bool) (n : Nat) :
    select_seq dist used n = select_par dist used [List.range n] := by
  have hg := select_seq_good dist used n
  unfold select_par
  simp only [List.map_cons, List.map_nil, List.foldl_cons, List.foldl_nil]
  unfold combine
  have hloc : localScan dist used (List.range n) = select_seq dist used n := rfl
  rw [hloc]
  split_ifs with hc
  · rfl
  · simp only at hc
    have h2 : (select_seq dist used n).2 = INF := le_antisymm hg.1 (not_lt.1 hc)
    have h1 : (select_seq dist used n).1 = none := by
      cases hu : (select_seq dist used n).1 with
      | none => rfl
      | some u =>
        have := (hg.2.2.2 u hu).2.2.2
        omega
    exact Prod.ext h1 h2

/-! ## Dijkstra: the relaxation step -/

theorem relaxTo_length (u : Nat) (d : List Int) (edge : Nat × Int) :
    (relaxTo u d edge).length = d.length := by
  unfold relaxTo
  split_ifs <;> simp

theorem relaxTo_le (u : Nat) (d : List Int) (edge : Nat × Int) (v : Nat) :
    rd (relaxTo u d edge) v ≤ rd d v := by
  unfold relaxTo
  split_ifs with h
  · rw [rd_set]
    split_ifs with h3
    · rw [← h3.1]
      exact le_of_lt h
    · exact le_refl _
  · exact le_refl _

/-- A step over a non-negative edge leaves an entry alone or writes a value
that is at least `dist[u]`. -/
theorem relaxTo_cases (u : Nat) (d : List Int) (edge : Nat × Int) (hw : 0 ≤ edge.2) (v : Nat) :
    rd (relaxTo u d edge) v = rd d v ∨ rd d u ≤ rd (relaxTo u d edge) v := by
  unfold relaxTo
  split_ifs with h
  · rw [rd_set]
    split_ifs with h3
    · right
      omega
    · left
      rfl
  · left
    rfl

theorem relaxTo_src (u : Nat) (d : List Int) (edge : Nat × Int) (hw : 0 ≤ edge.2) :
    rd (relaxTo u d edge) u = rd d u := by
  rcases relaxTo_cases u d edge hw u with h | h
  · exact h
  · exact le_antisymm (relaxTo_le u d edge u) h

theorem relaxTo_relaxed (u : Nat) (d : List Int) (edge : Nat × Int) (ht : edge.1 < d.length) :
    rd (relaxTo u d edge) edge.1 ≤ rd d u + edge.2 := by
  unfold relaxTo
  split_ifs with h
  · simp [rd_set, ht]
  · exact not_lt.1 h

theorem relaxTo_sound {G : Edge → Prop} {s : Nat} (u : Nat) (d : List Int) (edge : Nat × Int)
    (he : G ⟨u, edge.1, edge.2⟩) (hu : u < d.length) (hI : rd d u < INF)
    (hS : Sound G s d) : Sound G s (relaxTo u d edge) := by
  unfold relaxTo
  split_ifs with h
  · intro v hv hne
    rw [List.length_set] at hv
    rw [rd_set] at hne ⊢
    split_ifs with h3
    · obtain ⟨p, hp, ha, hw⟩ := hS u hu (by omega)
      refine ⟨p ++ [⟨u, edge.1, edge.2⟩], ?_, ?_, ?_⟩
      · rw [← h3.1]
        exact IsWalk.snoc (e := ⟨u, edge.1, edge.2⟩) hp he
      · rw [Adm.adm_append]
        refine ⟨ha, ?_⟩
        rw [Adm.adm_single, zero_add, hw]
        exact lt_of_lt_of_le h (hS.le_INF h3.2)
      · rw [weight_append, weight_cons, weight_nil, hw]
        simp
    · rw [if_neg h3] at hne
      exact hS v hv hne
  · exact hS

theorem relaxOut_length (u : Nat) (out : List (Nat × Int)) : ∀ (d : List Int),
    (relaxOut u d out).length = d.length := by
  induction out with
  | nil => intro d; rfl
  | cons a l ih =>
    intro d
    unfold relaxOut at ih ⊢
    rw [List.foldl_cons, ih, relaxTo_length]

theorem relaxOut_le (u : Nat) (out : List (Nat × Int)) : ∀ (d : List Int) (v : Nat),
    rd (relaxOut u d out) v ≤ rd d v := by
  induction out with
  | nil => intro d v; exact le_refl _
  | cons a l ih =>
    intro d v
    unfold relaxOut at ih ⊢
    rw [List.foldl_cons]
    exact le_trans (ih _ v) (relaxTo_le u d a v)

theorem relaxOut_cases (u : Nat) (out : List (Nat × Int)) (hw : ∀ edge ∈ out, 0 ≤ edge.2) :
    ∀ (d : List Int) (v : Nat),
      rd (relaxOut u d out) v = rd d v ∨ rd d u ≤ rd (relaxOut u d out) v := by
  induction out with
  | nil => intro d v; left; rfl
  | cons a l ih =>
    intro d v
    have ha : 0 ≤ a.2 := hw a (List.mem_cons_self _ _)
    have ih' := ih (fun e he => hw e (List.mem_cons_of_mem _ he)) (relaxTo u d a) v
    unfold relaxOut at ih' ⊢
    rw [List.foldl_cons]
    rw [relaxTo_src u d a ha] at ih'
    rcases ih' with h | h
    · rcases relaxTo_cases u d a ha v with h' | h'
      · left
        rw [h, h']
      · right
        rw [h]
        exact h'
    · right
      exact h

theorem relaxOut_src (u : Nat) (out : List (Nat × Int)) (hw : ∀ edge ∈ out, 0 ≤ edge.2)
    (d : List Int) : rd (relaxOut u d out) u = rd d u := by
  rcases relaxOut_cases u out hw d u with h | h
  · exact h
  · exact le_antisymm (relaxOut_le u out d u) h

theorem relaxOut_relaxed (u : Nat) (out : List (Nat × Int)) (hw : ∀ edge ∈ out, 0 ≤ edge.2) :
    ∀ (d : List Int), (∀ edge ∈ out, edge.1 < d.length) →
      ∀ edge ∈ out, rd (relaxOut u d out) edge.1 ≤ rd d u + edge.2 := by
  induction out with
  | nil => intro d _ edge he; simp at he
  | cons a l ih =>
    intro d ht edge he
    have ha : 0 ≤ a.2 := hw a (List.mem_cons_self _ _)
    have hstep : relaxOut u d (a :: l) = relaxOut u (relaxTo u d a) l := rfl
    rw [hstep]
    rcases List.mem_cons.1 he with rfl | he
    · exact le_trans (relaxOut_le u l _ _) (relaxTo_relaxed u d edge (ht edge (List.mem_cons_self _ _)))
    · have := ih (fun e he => hw e (List.mem_cons_of_mem _ he)) (relaxTo u d a)
        (fun e he' => by rw [relaxTo_length]; exact ht e (List.mem_cons_of_mem _ he')) edge he
      rw [relaxTo_src u d a ha] at this
      exact this

theorem relaxOut_sound {G : Edge → Prop} {s : Nat} (u : Nat) (out : List (Nat × Int))
    (hw : ∀ edge ∈ out, 0 ≤ edge.2) (hG : ∀ edge ∈ out, G ⟨u, edge.1, edge.2⟩) :
    ∀ (d : List Int), u < d.length → rd d u < INF → Sound G s d →
      Sound G s (relaxOut u d out) := by
  induction out with
  | nil => intro d _ _ hS; exact hS
  | cons a l ih =>
    intro d hu hI hS
    have ha : 0 ≤ a.2 := hw a (List.mem_cons_self _ _)
    have hstep : relaxOut u d (a :: l) = relaxOut u (relaxTo u d a) l := rfl
    rw [hstep]
    refine ih (fun e he => hw e (List.mem_cons_of_mem _ he))
      (fun e he => hG e (List.mem_cons_of_mem _ he)) _ ?_ ?_ ?_
    · rw [relaxTo_length]
      exact hu
    · rw [relaxTo_src u d a ha]
      exact hI
    · exact relaxTo_sound u d a (hG a (List.mem_cons_self _ _)) hu hI hS

/-! ## Dijkstra: the round loop -/

theorem adjGraph_out {adj : List (List (Nat × Int))} {u : Nat} (hu : u < adj.length)
    {edge : Nat × Int} (he : edge ∈ adj.getD u []) : adjGraph adj ⟨u, edge.1, edge.2⟩ :=
  ⟨hu, he⟩

theorem count_set_true : ∀ (l : List Bool) (i : Nat), i < l.length → ud l i = false →
    (l.set i true).count true = l.count true + 1
  | [], i, h, _ => by simp at h
  | b :: t, 0, _, h0 => by
    have hb : b = false := by simpa [ud] using h0
    subst hb
    simp
  | b :: t, i + 1, h, h0 => by
    have ih := count_set_true t i (by simpa using h) (by simpa [ud] using h0)
    simp only [List.set_cons_succ, List.count_cons, ih]
    omega

theorem all_used_of_count {used : List Bool} (h : used.count true = used.length) (v : Nat)
    (hv : v < used.length) : ud used v = true := by
  have hall := List.count_eq_length.1 h
  unfold ud
  rw [List.getD_eq_getElem?_getD, List.getElem?_eq_getElem hv]
  exact (hall _ (List.getElem_mem hv)).symm

/-- Selecting an unvisited vertex of least tentative distance and relaxing its
edges keeps the invariant. -/
theorem DInv.step {adj : List (List (Nat × Int))} {s n : Nat} {dist : List Int}
    {used : List Bool} (hadj : adj.length = n) (hR : InRange (adjGraph adj) n)
    (hW : ∀ e, adjGraph adj e → 0 ≤ e.w) (h : DInv (adjGraph adj) s n dist used)
    {u : Nat} (hu : u < n) (hun : ud used u = false) (hI : rd dist u < INF)
    (hmin : ∀ v, v < n → ud used v = false → rd dist u ≤ rd dist v) :
    DInv (adjGraph adj) s n (relaxOut u dist (adj.getD u [])) (used.set u true) := by
  have hout : ∀ edge ∈ adj.getD u [], adjGraph adj ⟨u, edge.1, edge.2⟩ :=
    fun edge he => adjGraph_out (hadj ▸ hu) he
  have hw : ∀ edge ∈ adj.getD u [], 0 ≤ edge.2 := fun edge he => hW _ (hout edge he)
  have ht : ∀ edge ∈ adj.getD u [], edge.1 < dist.length := fun edge he => by
    rw [h.ld]
    exact (hR _ (hout edge he)).2
  have hle := relaxOut_le u (adj.getD u []) dist
  have hcs := relaxOut_cases u (adj.getD u []) hw dist
  have hsrc := relaxOut_src u (adj.getD u []) hw dist
  have hused : ∀ a, ud (used.set u true) a = true → a = u ∨ ud used a = true := by
    intro a ha
    rw [ud_set] at ha
    by_cases hc : u = a ∧ u < used.length
    · exact Or.inl hc.1.symm
    · rw [if_neg hc] at ha
      exact Or.inr ha
  have hunused : ∀ b, ud (used.set u true) b = false → b ≠ u ∧ ud used b = false := by
    intro b hb
    rw [ud_set] at hb
    by_cases hc : u = b ∧ u < used.length
    · rw [if_pos hc] at hb
      exact absurd hb (by decide)
    · rw [if_neg hc] at hb
      refine ⟨fun hbu => hc ⟨hbu.symm, by rw [h.lu]; exact hu⟩, hb⟩
  have hfinal : ∀ a, a < n → (a = u ∨ ud used a = true) →
      rd (relaxOut u dist (adj.getD u [])) a = rd dist a ∧ rd dist a ≤ rd dist u := by
    intro a han ha
    rcases ha with rfl | ha
    · exact ⟨hsrc, le_refl _⟩
    · have h1 := h.ord a u han hu ha hun
      refine ⟨?_, h1⟩
      rcases hcs a with h2 | h2
      · exact h2
      · have := hle a
        omega
  refine ⟨?_, ?_, ?_, ?_, ?_, ?_⟩
  · rw [relaxOut_length, h.ld]
  · rw [List.length_set, h.lu]
  · exact relaxOut_sound u _ hw hout dist (by rw [h.ld]; exact hu) hI h.sound
  · exact le_trans (hle s) h.src
  · intro a b han hbn ha hb
    obtain ⟨hbu, hb'⟩ := hunused b hb
    obtain ⟨ha1, ha2⟩ := hfinal a han (hused a ha)
    have hb1 : rd dist u ≤ rd (relaxOut u dist (adj.getD u [])) b := by
      rcases hcs b with h2 | h2
      · rw [h2]
        exact hmin b hbn hb'
      · exact h2
    omega
  · intro e he heu
    have heun : e.u < n := (hR e he).1
    obtain ⟨h1, _⟩ := hfinal e.u heun (hused e.u heu)
    rw [h1]
    by_cases hc : e.u = u
    · have hmem : (e.v, e.w) ∈ adj.getD u [] := hc ▸ he.2
      have := relaxOut_relaxed u (adj.getD u []) hw dist ht (e.v, e.w) hmem
      rw [hc]
      exact this
    · have hue : ud used e.u = true := by
        rcases hused e.u heu with h2 | h2
        · exact absurd h2 hc
        · exact h2
      exact le_trans (hle e.v) (h.rel e he hue)

/-- When every unvisited vertex is at `INF` the vector is a fixpoint. -/
theorem DInv.fix_of_done {G : Edge → Prop} {s n : Nat} {dist : List Int} {used : List Bool}
    (hR : InRange G n) (h : DInv G s n dist used)
    (hdone : ∀ v, v < n → ud used v = false → INF ≤ rd dist v) : Fix G dist := by
  intro e he hne
  have hu := (hR e he).1
  cases hused : ud used e.u with
  | true => exact h.rel e he hused
  | false =>
    have h1 := hdone e.u hu hused
    have h2 := h.sound.le_INF (v := e.u) (by rw [h.ld]; exact hu)
    exact absurd (le_antisymm h2 h1) hne

theorem dinv_init (G : Edge → Prop) (n s : Nat) (hs : s < n) :
    DInv G s n ((List.replicate n INF).set s 0) (List.replicate n false) := by
  refine ⟨init_length n s, by simp, init_sound G n s, ?_, ?_, ?_⟩
  · rw [rd_init n s s hs]
    simp
  · intro a b _ _ ha
    rw [ud_replicate_false] at ha
    exact absurd ha (by decide)
  · intro e _ ha
    rw [ud_replicate_false] at ha
    exact absurd ha (by decide)

/-- What the round loop of `dijkstra_parallel` establishes on non-negative
weights, for slices that cover the vertices: a sound fixpoint. -/
theorem dijkstraParLoop_spec {adj : List (List (Nat × Int))} {s n : Nat}
    {sched : Nat → List (List Nat)} (hadj : adj.length = n)
    (hR : InRange (adjGraph adj) n) (hW : ∀ e, adjGraph adj e → 0 ≤ e.w)
    (hv : ∀ it v, v ∈ (sched it).flatten ↔ v < n) :
    ∀ (k it : Nat) (dist : List Int) (used : List Bool),
      DInv (adjGraph adj) s n dist used → used.count true + k = n →
      (dijkstraParLoop adj sched it k dist used).length = n ∧
        Sound (adjGraph adj) s (dijkstraParLoop adj sched it k dist used) ∧
        rd (dijkstraParLoop adj sched it k dist used) s ≤ 0 ∧
        Fix (adjGraph adj) (dijkstraParLoop adj sched it k dist used) := by
  intro k
  induction k with
  | zero =>
    intro it dist used h hc
    refine ⟨h.ld, h.sound, h.src, h.fix_of_done hR ?_⟩
    intro v hvn hun
    have := @all_used_of_count used (by rw [h.lu]; omega) v (by rw [h.lu]; exact hvn)
    rw [this] at hun
    exact absurd hun (by decide)
  | succ k ih =>
    intro it dist used h hc
    have hg : GoodSel dist used (fun x => x < n) (select_par dist used (sched it)) :=
      (select_par_good dist used (sched it)).congr (hv it)
    obtain ⟨g1, g2, g3, g4⟩ := hg
    have hdoneINF : (select_par dist used (sched it)).2 = INF →
        Fix (adjGraph adj) dist := by
      intro hb
      refine h.fix_of_done hR ?_
      intro v hvn hun
      have := g2 v hvn hun
      omega
    unfold dijkstraParLoop
    cases hsel : (select_par dist used (sched it)).1 with
    | none =>
      simp only
      exact ⟨h.ld, h.sound, h.src, hdoneINF (g3 hsel)⟩
    | some u =>
      simp only
      split_ifs with hb
      · exact ⟨h.ld, h.sound, h.src, hdoneINF hb⟩
      · obtain ⟨hun, huu, hbu, hlt⟩ := g4 u hsel
        have hstep := DInv.step hadj hR hW h hun huu (by omega)
          (fun v hvn hvu => by have := g2 v hvn hvu; omega)
        refine ih (it + 1) _ _ hstep ?_
        rw [count_set_true used u (by rw [h.lu]; exact hun) huu]
        omega

theorem dijkstra_parallel_spec {adj : List (List (Nat × Int))} {s : Nat}
    {sched : Nat → List (List Nat)} (hs : s < adj.length)
    (hR : InRange (adjGraph adj) adj.length) (hW : ∀ e, adjGraph adj e → 0 ≤ e.w)
    (hv : ∀ it v, v ∈ (sched it).flatten ↔ v < adj.length) :
    (dijkstra_parallel adj s sched).length = adj.length ∧
      Sound (adjGraph adj) s (dijkstra_parallel adj s sched) ∧
      rd (dijkstra_parallel adj s sched) s ≤ 0 ∧
      Fix (adjGraph adj) (dijkstra_parallel adj s sched) :=
  dijkstraParLoop_spec rfl hR hW hv adj.length 0 _ _ (dinv_init _ _ s hs) (by
    rw [List.count_replicate]
    simp)

theorem dijkstraLoop_eq_par (adj : List (List (Nat × Int))) :
    ∀ (k it : Nat) (dist : List Int) (used : List Bool),
      dijkstraLoop adj k dist used =
        dijkstraParLoop adj (fun _ => [List.range adj.length]) it k dist used := by
  intro k
  induction k with
  | zero => intro it dist used; rfl
  | succ k ih =>
    intro it dist used
    unfold dijkstraLoop dijkstraParLoop
    rw [select_seq_eq_par]
    cases (select_par dist used [List.range adj.length]).1 with
    | none => rfl
    | some u =>
      simp only
      split_ifs
      · rfl
      · exact ih (it + 1) _ _

theorem dijkstra_seq_eq_par (adj : List (List (Nat × Int))) (s : Nat) :
    dijkstra_seq adj s = dijkstra_parallel adj s (fun _ => [List.range adj.length]) :=
  dijkstraLoop_eq_par adj adj.length 0 _ _

theorem dijkstra_seq_spec {adj : List (List (Nat × Int))} {s : Nat} (hs : s < adj.length)
    (hR : InRange (adjGraph adj) adj.length) (hW : ∀ e, adjGraph adj e → 0 ≤ e.w) :
    (dijkstra_seq adj s).length = adj.length ∧
      Sound (adjGraph adj) s (dijkstra_seq adj s) ∧
      rd (dijkstra_seq adj s) s ≤ 0 ∧
      Fix (adjGraph adj) (dijkstra_seq adj s) := by
  rw [dijkstra_seq_eq_par]
  exact dijkstra_parallel_spec hs hR hW (fun _ v => by simp)

theorem validSlices_mem {n : Nat} {sched : Nat → List (List Nat)} (h : ValidSlices n sched)
    (it v : Nat) : v ∈ (sched it).flatten ↔ v < n := by
  rw [(h it).mem_iff, List.mem_range]

/-! ## Matrices -/

theorem getD_set_row (m : List (List Int)) (i j : Nat) (x : List Int) :
    (m.set i x).getD j [] = if i = j ∧ i < m.length then x else m.getD j [] := by
  by_cases h : i = j
  · subst h
    by_cases hl : i < m.length
    · simp [List.getD_eq_getElem?_getD, List.getElem?_set, hl]
    · have hl2 : m.length ≤ i := by omega
      simp [List.getD_eq_getElem?_getD, List.getElem?_set, hl, List.getElem?_eq_none hl2]
  · simp [List.getD_eq_getElem?_getD, List.getElem?_set, h]

theorem mget_mset {n : Nat} {m : List (List Int)} (hm : Square n m) {i j : Nat}
    (hi : i < n) (hj : j < n) (x : Int) (i' j' : Nat) :
    mget (mset m i j x) i' j' = if i = i' ∧ j = j' then x else mget m i' j' := by
  unfold mget mset
  rw [getD_set_row]
  by_cases h : i = i'
  · subst h
    rw [if_pos ⟨rfl, by rw [hm.1]; exact hi⟩, rd_set, hm.2 i hi]
    by_cases h2 : j = j'
    · simp [h2, hj]
      intro h3
      omega
    · simp [h2]
  · simp [h]

theorem mset_square {n : Nat} {m : List (List Int)} (hm : Square n m) (i j : Nat) (x : Int) :
    Square n (mset m i j x) := by
  unfold mset
  refine ⟨by rw [List.length_set]; exact hm.1, fun i' hi' => ?_⟩
  rw [getD_set_row]
  split_ifs with h
  · rw [List.length_set, h.1]
    exact hm.2 i' hi'
  · exact hm.2 i' hi'

theorem getD_row_eq (m : List (List Int)) (i : Nat) (h : i < m.length) :
    m.getD i [] = m[i] := by
  simp [List.getD_eq_getElem?_getD, List.getElem?_eq_getElem h]

/-- Two square matrices with the same entries are the same matrix. -/
theorem matrix_ext {n : Nat} {a b : List (List Int)} (ha : Square n a) (hb : Square n b)
    (h : ∀ i j, i < n → j < n → mget a i j = mget b i j) : a = b := by
  apply List.ext_getElem (ha.1.trans hb.1.symm)
  intro i h1 h2
  have hi : i < n := by rw [← ha.1]; exact h1
  rw [← getD_row_eq a i h1, ← getD_row_eq b i h2]
  apply list_ext_rd _ _ ((ha.2 i hi).trans (hb.2 i hi).symm)
  intro j hj
  rw [ha.2 i hi] at hj
  exact h i j hi hj

/-! ## One pass of Floyd-Warshall -/

theorem pivotVal_le (d : List (List Int)) (k i j : Nat) : pivotVal d k i j ≤ mget d i j := by
  unfold pivotVal
  split_ifs
  · exact le_refl _
  · exact min_le_left _ _

/-- With `dist[k][k] ≥ 0` the pass for the pivot `k` computes the old values
on the row `k` and on the column `k`. -/
theorem pivotVal_col {d : List (List Int)} {k : Nat} (hkk : 0 ≤ mget d k k) (i : Nat) :
    pivotVal d k i k = mget d i k := by
  unfold pivotVal
  split_ifs
  · rfl
  · exact min_eq_left (by omega)

theorem pivotVal_row {d : List (List Int)} {k : Nat} (hkk : 0 ≤ mget d k k) (j : Nat) :
    pivotVal d k k j = mget d k j := by
  unfold pivotVal
  split_ifs
  · rfl
  · exact min_eq_left (by omega)

theorem PartOf.col {n k : Nat} {d d' : List (List Int)} (h : PartOf n k d d')
    (hk : k < n) (hkk : 0 ≤ mget d k k) {i : Nat} (hi : i < n) : mget d' i k = mget d i k := by
  rcases h.2 i k hi hk with h1 | h1
  · exact h1
  · rw [h1, pivotVal_col hkk]

theorem PartOf.row {n k : Nat} {d d' : List (List Int)} (h : PartOf n k d d')
    (hk : k < n) (hkk : 0 ≤ mget d k k) {j : Nat} (hj : j < n) : mget d' k j = mget d k j := by
  rcases h.2 k j hk hj with h1 | h1
  · exact h1
  · rw [h1, pivotVal_row hkk]

theorem PartOf.start {n : Nat} (k : Nat) {d : List (List Int)} (h : Square n d) :
    PartOf n k d d :=
  ⟨h, fun _ _ _ _ => Or.inl rfl⟩

/-- One step of the `j` loop in a row with `dist[i][k] ≠ INF`: the entry
`[i][j]` gets the value of the pass, nothing else changes. -/
theorem fwCell_spec {n k i j : Nat} {d d' : List (List Int)} (h : PartOf n k d d')
    (hk : k < n) (hkk : 0 ≤ mget d k k) (hi : i < n) (hj : j < n)
    (hik : mget d i k ≠ INF_FW) :
    PartOf n k d (fwCell k i d' j) ∧ mget (fwCell k i d' j) i j = pivotVal d k i j ∧
      ∀ i' j', ¬ (i = i' ∧ j = j') → mget (fwCell k i d' j) i' j' = mget d' i' j' := by
  have hc := h.col hk hkk hi
  have hr := h.row hk hkk hj
  have hold := h.2 i j hi hj
  have hpv : pivotVal d k i j = if mget d k j = INF_FW then mget d i j
      else min (mget d i j) (mget d i k + mget d k j) := by
    unfold pivotVal
    by_cases h1 : mget d k j = INF_FW
    · simp [h1]
    · simp [h1, hik]
  unfold fwCell
  rw [hc, hr]
  by_cases h1 : mget d k j = INF_FW
  · rw [if_pos h1]
    rw [if_pos h1] at hpv
    refine ⟨h, ?_, fun _ _ _ => rfl⟩
    rcases hold with h2 | h2
    · rw [h2, hpv]
    · exact h2
  · rw [if_neg h1]
    rw [if_neg h1] at hpv
    by_cases h2 : mget d i k + mget d k j < mget d' i j
    · rw [if_pos h2]
      have hval : mget d i k + mget d k j = pivotVal d k i j := by
        rw [hpv]
        rcases hold with h3 | h3
        · rw [h3] at h2
          exact (min_eq_right (le_of_lt h2)).symm
        · rw [h3, hpv] at h2
          exact absurd (lt_of_lt_of_le h2 (min_le_right _ _)) (lt_irrefl _)
      refine ⟨⟨mset_square h.1 i j _, fun a b ha hb => ?_⟩, ?_, fun a b hab => ?_⟩
      · rw [mget_mset h.1 hi hj]
        split_ifs with h4
        · right
          rw [hval, h4.1, h4.2]
        · exact h.2 a b ha hb
      · rw [mget_mset h.1 hi hj, if_pos ⟨rfl, rfl⟩, hval]
      · rw [mget_mset h.1 hi hj, if_neg hab]
    · rw [if_neg h2]
      refine ⟨h, ?_, fun _ _ _ => rfl⟩
      rcases hold with h3 | h3
      · rw [h3] at h2 ⊢
        rw [hpv]
        exact (min_eq_left (not_lt.1 h2)).symm
      · exact h3

/-- The `j` loop of a row with `dist[i][k] ≠ INF`, over any columns. -/
theorem fwCells_spec {n k i : Nat} {d : List (List Int)} (hk : k < n)
    (hkk : 0 ≤ mget d k k) (hi : i < n) (hik : mget d i k ≠ INF_FW) (js : List Nat) :
    ∀ (d' : List (List Int)), PartOf n k d d' → (∀ j ∈ js, j < n) →
      PartOf n k d (js.foldl (fwCell k i) d') ∧
      (∀ i' j', i' ≠ i → mget (js.foldl (fwCell k i) d') i' j' = mget d' i' j') ∧
      (∀ j', j' < n → (j' ∈ js ∨ mget d' i j' = pivotVal d k i j') →
        mget (js.foldl (fwCell k i) d') i j' = pivotVal d k i j') := by
  induction js with
  | nil =>
    intro d' h _
    refine ⟨h, fun _ _ _ => rfl, fun j' _ hj' => ?_⟩
    rcases hj' with hj' | hj'
    · simp at hj'
    · exact hj'
  | cons j js ih =>
    intro d' h hjs
    have hj : j < n := hjs j (List.mem_cons_self _ _)
    obtain ⟨c1, c2, c3⟩ := fwCell_spec h hk hkk hi hj hik
    obtain ⟨r1, r2, r3⟩ := ih (fwCell k i d' j) c1 (fun x hx => hjs x (List.mem_cons_of_mem _ hx))
    rw [List.foldl_cons]
    refine ⟨r1, fun i' j' hne => ?_, fun j' hj' hcase => ?_⟩
    · rw [r2 i' j' hne]
      exact c3 i' j' (fun hh => hne hh.1.symm)
    · apply r3 j' hj'
      by_cases hjj : j = j'
      · right
        rw [← hjj]
        exact c2
      · rcases hcase with hm | hm
        · left
          rcases List.mem_cons.1 hm with hm | hm
          · exact absurd hm.symm hjj
          · exact hm
        · right
          rw [c3 i j' (fun hh => hjj hh.2)]
          exact hm

/-- The body of the `i` loop: the row `i` gets the values of the pass and the
other rows do not change. -/
theorem fwRow_spec {n k i : Nat} {d d' : List (List Int)} (h : PartOf n k d d')
    (hk : k < n) (hkk : 0 ≤ mget d k k) (hi : i < n) :
    PartOf n k d (fwRow n k d' i) ∧
      (∀ i' j', i' ≠ i → mget (fwRow n k d' i) i' j' = mget d' i' j') ∧
      (∀ j', j' < n → mget (fwRow n k d' i) i j' = pivotVal d k i j') := by
  unfold fwRow
  rw [h.col hk hkk hi]
  by_cases hik : mget d i k = INF_FW
  · rw [if_pos hik]
    refine ⟨h, fun _ _ _ => rfl, fun j' hj' => ?_⟩
    have hpv : pivotVal d k i j' = mget d i j' := by
      unfold pivotVal
      rw [if_pos (Or.inl hik)]
    rcases h.2 i j' hi hj' with h1 | h1
    · rw [h1, hpv]
    · exact h1
  · rw [if_neg hik]
    obtain ⟨r1, r2, r3⟩ := fwCells_spec hk hkk hi hik (List.range n) d' h
      (fun j hj => List.mem_range.1 hj)
    exact ⟨r1, r2, fun j' hj' => r3 j' hj' (Or.inl (List.mem_range.2 hj'))⟩

/-- The `i` loop over any rows: the rows taken get the values of the pass. -/
theorem fwRows_spec {n k : Nat} {d : List (List Int)} (hk : k < n) (hkk : 0 ≤ mget d k k)
    (rows : List Nat) :
    ∀ (d' : List (List Int)), PartOf n k d d' → (∀ i ∈ rows, i < n) →
      PartOf n k d (rows.foldl (fwRow n k) d') ∧
      (∀ i j, i < n → j < n → (i ∈ rows ∨ mget d' i j = pivotVal d k i j) →
        mget (rows.foldl (fwRow n k) d') i j = pivotVal d k i j) := by
  induction rows with
  | nil =>
    intro d' h _
    refine ⟨h, fun i j _ _ hc => ?_⟩
    rcases hc with hc | hc
    · simp at hc
    · exact hc
  | cons a rows ih =>
    intro d' h hrows
    have ha : a < n := hrows a (List.mem_cons_self _ _)
    obtain ⟨c1, c2, c3⟩ := fwRow_spec h hk hkk ha
    obtain ⟨r1, r2⟩ := ih (fwRow n k d' a) c1 (fun x hx => hrows x (List.mem_cons_of_mem _ hx))
    rw [List.foldl_cons]
    refine ⟨r1, fun i j hi hj hcase => ?_⟩
    apply r2 i j hi hj
    by_cases hia : i = a
    · right
      rw [hia]
      exact c3 j hj
    · rcases hcase with hm | hm
      · left
        rcases List.mem_cons.1 hm with hm | hm
        · exact absurd hm hia
        · exact hm
      · right
        rw [c2 i j hia]
        exact hm

/-- The pass for the pivot `k` with `dist[k][k] ≥ 0`, the rows taken in any
order that covers them: a square matrix with the entries `pivotVal`. -/
theorem fwPass_spec {n k : Nat} {d : List (List Int)} (hd : Square n d) (hk : k < n)
    (hkk : 0 ≤ mget d k k) {rows : List Nat} (hr : ∀ i, i ∈ rows ↔ i < n) :
    Square n (fwPass n rows d k) ∧
      ∀ i j, i < n → j < n → mget (fwPass n rows d k) i j = pivotVal d k i j := by
  obtain ⟨h1, h2⟩ := fwRows_spec hk hkk rows d (PartOf.start k hd) (fun i hi => (hr i).1 hi)
  exact ⟨h1.1, fun i j hi hj => h2 i j hi hj (Or.inl ((hr i).2 hi))⟩

/-- With `dist[k][k] ≥ 0` the pass does not depend on the order of the rows. -/
theorem fwPass_order {n k : Nat} {d : List (List Int)} (hd : Square n d) (hk : k < n)
    (hkk : 0 ≤ mget d k k) {rows rows' : List Nat} (hr : ∀ i, i ∈ rows ↔ i < n)
    (hr' : ∀ i, i ∈ rows' ↔ i < n) : fwPass n rows d k = fwPass n rows' d k := by
  obtain ⟨s1, e1⟩ := fwPass_spec hd hk hkk hr
  obtain ⟨s2, e2⟩ := fwPass_spec hd hk hkk hr'
  exact matrix_ext s1 s2 (fun i j hi hj => by rw [e1 i j hi hj, e2 i j hi hj])

/-! ## The pivot loop -/

theorem matGraph_inRange (n : Nat) (m : List (List Int)) : InRange (matGraph n m) n :=
  fun _ he => ⟨he.1, he.2.1⟩

theorem FWInv.init {n : Nat} {m : List (List Int)} (hm : Square n m) :
    FWInv (matGraph n m) n m m := by
  refine ⟨hm, ?_, fun _ _ _ _ => le_refl _⟩
  intro i j hi hj hne
  exact ⟨[⟨i, j, mget m i j⟩], ⟨⟨hi, hj, hne, rfl⟩, rfl, rfl⟩, by simp [weight]⟩

/-- Without negative closed walks the diagonal of a matrix of walk weights is
not negative. -/
theorem SoundM.diag_nonneg {G : Edge → Prop} {n : Nat} {d : List (List Int)}
    (h : SoundM G n d) (hc : NoNegCycle G) {k : Nat} (hk : k < n) : 0 ≤ mget d k k := by
  by_cases hI : mget d k k = INF_FW
  · rw [hI]
    decide
  · obtain ⟨p, hp, hw⟩ := h k k hk hk hI
    rw [← hw]
    exact hc p k hp

theorem pivotVal_sound {G : Edge → Prop} {n : Nat} {d : List (List Int)} (h : SoundM G n d)
    {k i j : Nat} (hk : k < n) (hi : i < n) (hj : j < n) (hne : pivotVal d k i j ≠ INF_FW) :
    ∃ p, IsWalk G i p j ∧ weight p = pivotVal d k i j := by
  unfold pivotVal at hne ⊢
  split_ifs at hne ⊢ with h1
  · exact h i j hi hj hne
  · rw [not_or] at h1
    rcases min_choice (mget d i j) (mget d i k + mget d k j) with h2 | h2
    · rw [h2] at hne ⊢
      exact h i j hi hj hne
    · rw [h2]
      obtain ⟨p1, hp1, hw1⟩ := h i k hi hk h1.1
      obtain ⟨p2, hp2, hw2⟩ := h k j hk hj h1.2
      exact ⟨p1 ++ p2, IsWalk.walk_append hp1 hp2, by rw [weight_append, hw1, hw2]⟩

/-- A pass keeps the invariant of the pivot loop. -/
theorem FWInv.pass {G : Edge → Prop} {n : Nat} {m d : List (List Int)} (h : FWInv G n m d)
    (hc : NoNegCycle G) {k : Nat} (hk : k < n) {rows : List Nat} (hr : ∀ i, i ∈ rows ↔ i < n) :
    FWInv G n m (fwPass n rows d k) := by
  obtain ⟨h1, h2, h3⟩ := h
  obtain ⟨s1, e1⟩ := fwPass_spec h1 hk (h2.diag_nonneg hc hk) hr
  refine ⟨s1, fun i j hi hj hne => ?_, fun i j hi hj => ?_⟩
  · rw [e1 i j hi hj] at hne ⊢
    exact pivotVal_sound h2 hk hi hj hne
  · rw [e1 i j hi hj]
    exact le_trans (pivotVal_le d k i j) (h3 i j hi hj)

/-- The pivot loop over any list of pivots keeps the invariant. -/
theorem fw_fold_inv {G : Edge → Prop} {n : Nat} {m : List (List Int)} (hc : NoNegCycle G)
    {sched : Nat → List Nat} (hs : ∀ k i, i ∈ sched k ↔ i < n) (ks : List Nat) :
    ∀ (d : List (List Int)), (∀ k ∈ ks, k < n) → FWInv G n m d →
      FWInv G n m (ks.foldl (fun d k => fwPass n (sched k) d k) d) := by
  induction ks with
  | nil => intro d _ h; exact h
  | cons k ks ih =>
    intro d hks h
    rw [List.foldl_cons]
    exact ih _ (fun x hx => hks x (List.mem_cons_of_mem _ hx))
      (h.pass hc (hks k (List.mem_cons_self _ _)) (hs k))

/-- Without negative closed walks the pivot loop does not depend on the order
of the rows in the passes. -/
theorem fw_fold_order {G : Edge → Prop} {n : Nat} {m : List (List Int)} (hc : NoNegCycle G)
    {sched sched' : Nat → List Nat} (hs : ∀ k i, i ∈ sched k ↔ i < n)
    (hs' : ∀ k i, i ∈ sched' k ↔ i < n) (ks : List Nat) :
    ∀ (d : List (List Int)), (∀ k ∈ ks, k < n) → FWInv G n m d →
      ks.foldl (fun d k => fwPass n (sched k) d k) d =
        ks.foldl (fun d k => fwPass n (sched' k) d k) d := by
  induction ks with
  | nil => intro d _ _; rfl
  | cons k ks ih =>
    intro d hks h
    have hk : k < n := hks k (List.mem_cons_self _ _)
    rw [List.foldl_cons, List.foldl_cons,
      fwPass_order h.1 hk (h.2.1.diag_nonneg hc hk) (hs k) (hs' k)]
    exact ih _ (fun x hx => hks x (List.mem_cons_of_mem _ hx)) (h.pass hc hk (hs' k))

theorem validRows_mem {n : Nat} {sched : Nat → List Nat} (h : ValidRows n sched) (k i : Nat) :
    i ∈ sched k ↔ i < n := by
  rw [(h k).mem_iff, List.mem_range]

theorem floyd_warshall_seq_eq_par (m : List (List Int)) :
    floyd_warshall_seq m = floyd_warshall_par m (fun _ => List.range m.length) := rfl

/-- Without negative closed walks any two admissible row schedules give the
same matrix. -/
theorem floyd_warshall_par_order {n : Nat} {m : List (List Int)} (hm : Square n m)
    (hc : NoNegCycle (matGraph n m)) {sched sched' : Nat → List Nat}
    (hs : ValidRows n sched) (hs' : ValidRows n sched') :
    floyd_warshall_par m sched = floyd_warshall_par m sched' := by
  unfold floyd_warshall_par
  rw [hm.1]
  exact fw_fold_order hc (validRows_mem hs) (validRows_mem hs') (List.range n) m
    (fun k hk => List.mem_range.1 hk) (FWInv.init hm)

theorem floyd_warshall_seq_inv {n : Nat} {m : List (List Int)} (hm : Square n m)
    (hc : NoNegCycle (matGraph n m)) : FWInv (matGraph n m) n m (floyd_warshall_seq m) := by
  unfold floyd_warshall_seq
  rw [hm.1]
  exact @fw_fold_inv (matGraph n m) n m hc (fun _ => List.range n)
    (fun _ i => List.mem_range) (List.range n) m
    (fun k hk => List.mem_range.1 hk) (FWInv.init hm)

/-! ## Walks through a pivot -/

theorem map_u_of_walk {G : Edge → Prop} : ∀ {q : List Edge} {a b : Nat},
    IsWalk G a q b → q ≠ [] → q.map Edge.u = a :: interm q
  | [], _, _, _, h => absurd rfl h
  | e :: q, a, b, hq, _ => by
    simp only [List.map_cons, interm, List.tail_cons]
    rw [hq.2.1]

theorem interm_cons_nonempty {G : Edge → Prop} {e : Edge} {q : List Edge} {b : Nat}
    (hq : IsWalk G e.v q b) (hne : q ≠ []) : interm (e :: q) = e.v :: interm q := by
  have := map_u_of_walk hq hne
  simpa [interm] using this

/-- A walk whose intermediate vertices are at most `k` either avoids `k` or
goes to `k`, round a closed walk at `k`, and on from `k`, the first and the
last part with intermediate vertices below `k`. -/
theorem walk_pivot_split {G : Edge → Prop} {k : Nat} : ∀ (p : List Edge) (a b : Nat),
    IsWalk G a p b → (∀ x ∈ interm p, x < k + 1) →
    (∀ x ∈ interm p, x < k) ∨
      ∃ p1 c p2, p = p1 ++ c ++ p2 ∧ IsWalk G a p1 k ∧ IsWalk G k c k ∧ IsWalk G k p2 b ∧
        (∀ x ∈ interm p1, x < k) ∧ (∀ x ∈ interm p2, x < k)
  | [], _, _, _, _ => Or.inl (by simp [interm])
  | e :: q, a, b, hp, hint => by
    by_cases hq : q = []
    · subst hq
      exact Or.inl (by simp [interm])
    · have hqw : IsWalk G e.v q b := hp.2.2
      have hic := interm_cons_nonempty hqw hq
      rw [hic] at hint ⊢
      have hev : e.v < k + 1 := hint e.v (List.mem_cons_self _ _)
      have hint' : ∀ x ∈ interm q, x < k + 1 := fun x hx => hint x (List.mem_cons_of_mem _ hx)
      rcases walk_pivot_split q e.v b hqw hint' with hl | ⟨q1, c, q2, hdec, h1, h2, h3, h4, h5⟩
      · by_cases hek : e.v = k
        · right
          refine ⟨[e], [], q, by simp, ⟨hp.1, hp.2.1, hek⟩, rfl, hek ▸ hqw, by simp [interm], hl⟩
        · left
          intro x hx
          rcases List.mem_cons.1 hx with rfl | hx
          · omega
          · exact hl x hx
      · right
        by_cases hek : e.v = k
        · refine ⟨[e], q1 ++ c, q2, ?_, ⟨hp.1, hp.2.1, hek⟩, ?_, h3, by simp [interm], h5⟩
          · rw [hdec]
            simp
          · exact IsWalk.walk_append (hek ▸ h1) h2
        · refine ⟨e :: q1, c, q2, ?_, ⟨hp.1, hp.2.1, h1⟩, h2, h3, ?_, h5⟩
          · rw [hdec]
            simp
          · have hq1 : q1 ≠ [] := by
              intro hnil
              subst hnil
              simp only [IsWalk] at h1
              exact hek h1
            rw [interm_cons_nonempty h1 hq1]
            intro x hx
            rcases List.mem_cons.1 hx with rfl | hx
            · omega
            · exact h4 x hx

theorem tame_part {p q : List Edge} (hp : Tame p) (hq : q <:+: p) : Tame q :=
  fun r hr => hp r (hr.trans hq)

theorem tame_total_lt {p : List Edge} (hp : Tame p) : weight p < INF_FW :=
  hp p (List.infix_refl p)

/-- A contiguous part of a walk is a walk. -/
theorem walk_part {G : Edge → Prop} {p q : List Edge} {a b : Nat} (hp : IsWalk G a p b)
    (hq : q <:+: p) : ∃ x y, IsWalk G x q y := by
  obtain ⟨s, t, hst⟩ := hq
  rw [← hst] at hp
  obtain ⟨y, h1, _⟩ := IsWalk.split hp
  obtain ⟨x, _, h3⟩ := IsWalk.split h1
  exact ⟨x, y, h3⟩

/-- The input matrix is below the walks without intermediate vertices. -/
theorem compK_zero {n : Nat} {m : List (List Int)} (hdiag : ∀ i, i < n → mget m i i ≤ 0) :
    CompK (matGraph n m) n 0 m := by
  intro i j p hi _ hp _ hint
  match p, hp, hint with
  | [], hp, _ =>
    simp only [IsWalk] at hp
    subst hp
    simpa [weight_nil] using hdiag i hi
  | [e], hp, _ =>
    obtain ⟨hG, hu, hv⟩ := hp
    simp only [IsWalk] at hv
    rw [← hu, ← hv, weight_cons, weight_nil, hG.2.2.2]
    simp
  | e :: e' :: q, _, hint =>
    have := hint e'.u (by simp [interm])
    omega

/-- The pass for the pivot `k` extends the reach of the matrix to the walks
through `k`. -/
theorem compK_succ {G : Edge → Prop} {n k : Nat} {d d' : List (List Int)} (hk : k < n)
    (hc : NoNegCycle G) (hK : CompK G n k d)
    (hd' : ∀ i j, i < n → j < n → mget d' i j = pivotVal d k i j) :
    CompK G n (k + 1) d' := by
  intro i j p hi hj hp ht hint
  rw [hd' i j hi hj]
  rcases walk_pivot_split p i j hp hint with hl | ⟨p1, c, p2, hdec, h1, h2, h3, h4, h5⟩
  · exact le_trans (pivotVal_le d k i j) (hK i j p hi hj hp ht hl)
  · have hi1 : p1 <:+: p := by
      rw [hdec, List.append_assoc]
      exact (List.prefix_append p1 (c ++ p2)).isInfix
    have hi2 : p2 <:+: p := by
      rw [hdec]
      exact (List.suffix_append (p1 ++ c) p2).isInfix
    have hw1 := hK i k p1 hi hk h1 (tame_part ht hi1) h4
    have hw2 := hK k j p2 hk hj h3 (tame_part ht hi2) h5
    have hl1 := tame_total_lt (tame_part ht hi1)
    have hl2 := tame_total_lt (tame_part ht hi2)
    have hcw := hc c k h2
    have hpv : pivotVal d k i j ≤ mget d i k + mget d k j := by
      unfold pivotVal
      rw [if_neg (by
        rw [not_or]
        constructor <;> omega)]
      exact min_le_right _ _
    rw [hdec, weight_append, weight_append]
    omega

/-- After the pivots `0 .. k-1` the matrix is below every tame walk with
intermediate vertices below `k`. -/
theorem fw_seq_compK {n : Nat} {m : List (List Int)} (hm : Square n m)
    (hdiag : ∀ i, i < n → mget m i i ≤ 0) (hc : NoNegCycle (matGraph n m)) :
    ∀ k, k ≤ n →
      FWInv (matGraph n m) n m
          ((List.range k).foldl (fun d k => fwPass n (List.range n) d k) m) ∧
        CompK (matGraph n m) n k
          ((List.range k).foldl (fun d k => fwPass n (List.range n) d k) m) := by
  intro k
  induction k with
  | zero =>
    intro _
    exact ⟨FWInv.init hm, compK_zero hdiag⟩
  | succ k ih =>
    intro hk
    obtain ⟨hI, hK⟩ := ih (by omega)
    rw [List.range_succ, List.foldl_append, List.foldl_cons, List.foldl_nil]
    have hr : ∀ i, i ∈ List.range n ↔ i < n := fun i => List.mem_range
    refine ⟨hI.pass hc (by omega) hr, ?_⟩
    obtain ⟨_, e1⟩ := fwPass_spec hI.1 (show k < n by omega)
      (hI.2.1.diag_nonneg hc (by omega)) hr
    exact compK_succ (by omega) hc hK e1

/-- A short walk is tame when the walks with fewer than `n` edges weigh less
than the sentinel. -/
theorem tame_of_fit {G : Edge → Prop} {n : Nat}
    (hfit : ∀ a b p, IsWalk G a p b → p.length < n → weight p < INF_FW)
    {p : List Edge} {a b : Nat} (hp : IsWalk G a p b) (hl : p.length < n) : Tame p := by
  intro q hq
  obtain ⟨x, y, hxy⟩ := walk_part hp hq
  exact hfit x y q hxy (lt_of_le_of_lt hq.length_le hl)

theorem interm_lt {G : Edge → Prop} {n : Nat} (hG : InRange G n) {p : List Edge} {a b : Nat}
    (hp : IsWalk G a p b) : ∀ x ∈ interm p, x < n := by
  intro x hx
  unfold interm at hx
  obtain ⟨e, he, rfl⟩ := List.mem_map.1 hx
  exact (hG e (hp.edges_mem e (List.mem_of_mem_tail he))).1

/-- The matrix returned by `floyd_warshall_seq` holds the true distances when
the graph has no negative closed walk and its short walks weigh less than the
sentinel. -/
theorem floyd_warshall_seq_trueDist {n : Nat} {m : List (List Int)} (hm : Square n m)
    (hdiag : ∀ i, i < n → mget m i i ≤ 0) (hc : NoNegCycle (matGraph n m))
    (hfit : ∀ a b p, IsWalk (matGraph n m) a p b → p.length < n → weight p < INF_FW)
    {i j : Nat} (hi : i < n) (hj : j < n) :
    IsTrueDist INF_FW (matGraph n m) i j (mget (floyd_warshall_seq m) i j) := by
  obtain ⟨hI, hK⟩ := fw_seq_compK hm hdiag hc n (le_refl n)
  have hfw : floyd_warshall_seq m =
      (List.range n).foldl (fun d k => fwPass n (List.range n) d k) m := by
    unfold floyd_warshall_seq
    rw [hm.1]
  rw [hfw]
  have hAll : ∀ (acc : Int) (r : List Edge), AdmP (fun _ => True) acc r := by
    intro acc r
    induction r generalizing acc with
    | nil => trivial
    | cons e r ih => exact ⟨trivial, ih _⟩
  have hbelow : ∀ p, IsWalk (matGraph n m) i p j →
      ∃ q, IsWalk (matGraph n m) i q j ∧ weight q ≤ weight p ∧ weight q < INF_FW ∧
        mget ((List.range n).foldl (fun d k => fwPass n (List.range n) d k) m) i j ≤
          weight q := by
    intro p hp
    obtain ⟨q, hq, _, hwq, hlen⟩ :=
      shorten (P := fun _ => True) (fun _ _ _ _ => trivial) (matGraph_inRange n m) hi
        (fun _ c x _ hcw _ => hc c x hcw) hp (hAll 0 p)
    have ht := tame_of_fit hfit hq hlen
    exact ⟨q, hq, hwq, tame_total_lt ht,
      hK i j q hi hj hq ht (interm_lt (matGraph_inRange n m) hq)⟩
  constructor
  · rintro ⟨p, hp⟩
    obtain ⟨q, _, _, hlt, hle⟩ := hbelow p hp
    obtain ⟨r, hr, hwr⟩ := hI.2.1 i j hi hj (by omega)
    refine ⟨⟨r, hr, hwr⟩, fun p' hp' => ?_⟩
    obtain ⟨q', _, hwq', _, hle'⟩ := hbelow p' hp'
    omega
  · intro hno
    by_contra hne
    obtain ⟨r, hr, _⟩ := hI.2.1 i j hi hj hne
    exact hno ⟨r, hr⟩

/-! ## Bellman-Ford: results -/

theorem pathEdges_nonneg {N : Nat} {W : Int} (hW : 0 ≤ W) :
    ∀ e, edgeGraph (pathEdges N W) e → 0 ≤ e.w := by
  intro e he
  rw [(mem_pathEdges.1 he).2.2]
  exact hW

theorem pathEdges_fit (N : Nat) {W : Int} (h1 : -INT_MAX - 1 ≤ W) (h2 : W ≤ INT_MAX) :
    WeightsFitInt (pathEdges N W) := by
  intro e he
  rw [(mem_pathEdges.1 he).2.2]
  exact ⟨h1, h2⟩

theorem bellman_ford_seq_sound {edges : List Edge} {s n : Nat}
    (hG : InRange (edgeGraph edges) n) (hs : s < n) :
    (bellman_ford_seq edges n s).length = n ∧
      Sound (edgeGraph edges) s (bellman_ford_seq edges n s) ∧
      rd (bellman_ford_seq edges n s) s ≤ 0 := by
  rw [bellman_ford_seq_eq_ord]
  obtain ⟨h1, h2, h3, _⟩ := @bfOrdLoop_spec (edgeGraph edges) s n hG
    (fun _ => edges) (fun _ _ he => he) (fun _ _ he => he) (n - 1) 0 0 _
    (init_length n s) (init_sound _ n s) (init_upto _ n s hs)
  exact ⟨h1, h2, h3⟩

/-- With the edges in range, the check on the result of `bellman_ford_seq`
fires exactly when a negative closed walk can be followed from the source. -/
theorem bf_detect_iff {edges : List Edge} {s n : Nat}
    (hG : InRange (edgeGraph edges) n) (hs : s < n) :
    has_negative_cycle edges (bellman_ford_seq edges n s) = true ↔
      ∃ p c x, IsWalk (edgeGraph edges) s p x ∧ IsWalk (edgeGraph edges) x c x ∧
        Adm 0 (p ++ c) ∧ weight c < 0 := by
  constructor
  · intro h
    by_contra hno
    have hc : NoNegCycleAdm (edgeGraph edges) s := by
      intro p c x hp hcw hadm
      by_contra hneg
      exact hno ⟨p, c, x, hp, hcw, hadm, not_le.1 hneg⟩
    have hF := (bellman_ford_seq_spec hG hs hc).2.2.2
    rw [← has_negative_cycle_false_iff] at hF
    rw [hF] at h
    exact Bool.false_ne_true h
  · rintro ⟨p, c, x, hp, hcw, hadm, hneg⟩
    by_contra h
    have hf : has_negative_cycle edges (bellman_ford_seq edges n s) = false := by
      simpa using h
    rw [has_negative_cycle_false_iff] at hf
    have := hf.noNegCycleAdm (bellman_ford_seq_sound hG hs).2.2 p c x hp hcw hadm
    omega

theorem mem_lassoEdges {N : Nat} {W : Int} {e : Edge} :
    e ∈ lassoEdges N W ↔ e ∈ pathEdges N W ∨ e = ⟨N, N, -1⟩ := by
  unfold lassoEdges
  simp

theorem lassoEdges_inRange (N : Nat) (W : Int) :
    InRange (edgeGraph (lassoEdges N W)) (N + 1) := by
  intro e he
  rcases mem_lassoEdges.1 he with h | h
  · exact pathEdges_inRange N W e h
  · subst h
    exact ⟨Nat.lt_succ_self N, Nat.lt_succ_self N⟩

/-- A walk of the lasso graph that can be followed from vertex `a` with running
total `a * W` never takes the self-loop when `N * W` is above the sentinel. -/
theorem lasso_adm_path {N : Nat} {W : Int} (hbig : INF < (N : Int) * W) :
    ∀ (q : List Edge) (a b : Nat), IsWalk (edgeGraph (lassoEdges N W)) a q b →
      Adm ((a : Int) * W) q → ∀ e ∈ q, e ∈ pathEdges N W
  | [], _, _, _, _ => by simp
  | e :: r, a, b, hq, hadm => by
    obtain ⟨hGe, hu, hr⟩ := hq
    obtain ⟨h1, h2⟩ := hadm
    rcases mem_lassoEdges.1 hGe with hp | hl
    · have hm := mem_pathEdges.1 hp
      have hacc : (a : Int) * W + e.w = ((e.v : Nat) : Int) * W := by
        rw [hm.2.1, hm.2.2, hu]
        push_cast
        ring
      rw [hacc] at h2
      have ih := lasso_adm_path hbig r e.v b hr h2
      intro e' he'
      rcases List.mem_cons.1 he' with rfl | he'
      · exact hp
      · exact ih e' he'
    · exfalso
      subst hl
      simp only at hu h1
      subst hu
      omega

theorem lasso_noNegCycleAdm {N : Nat} {W : Int} (hW : 0 ≤ W) (hbig : INF < (N : Int) * W) :
    NoNegCycleAdm (edgeGraph (lassoEdges N W)) 0 := by
  intro p c x hp hc hadm
  have hall := lasso_adm_path hbig (p ++ c) 0 x (IsWalk.walk_append hp hc) (by simpa using hadm)
  apply weight_nonneg_of_mem
  intro e he
  rw [(mem_pathEdges.1 (hall e (List.mem_append_right _ he))).2.2]
  exact hW

theorem lasso_reachable_neg (N : Nat) (W : Int) :
    ∃ p c x, IsWalk (edgeGraph (lassoEdges N W)) 0 p x ∧
      IsWalk (edgeGraph (lassoEdges N W)) x c x ∧ weight c < 0 := by
  obtain ⟨p, hp⟩ := pathEdges_reach N W
  refine ⟨p, [⟨N, N, -1⟩], N, ?_, ?_, ?_⟩
  · exact IsWalk.walk_mono (fun e he => mem_lassoEdges.2 (Or.inl he)) hp
  · exact ⟨mem_lassoEdges.2 (Or.inr rfl), rfl, rfl⟩
  · simp [weight]

theorem lassoEdges_fit (N : Nat) {W : Int} (h1 : -INT_MAX - 1 ≤ W) (h2 : W ≤ INT_MAX) :
    WeightsFitInt (lassoEdges N W) := by
  intro e he
  rcases mem_lassoEdges.1 he with h | h
  · exact pathEdges_fit N h1 h2 e h
  · subst h
    simp [INT_MAX]

theorem exDag_dag : ∀ e, edgeGraph exDag e → e.u < e.v := by
  intro e he
  have : ∀ e ∈ exDag, e.u < e.v := by decide
  exact this e he

theorem exDag_inRange : InRange (edgeGraph exDag) 4 := by
  intro e he
  have : ∀ e ∈ exDag, e.u < 4 ∧ e.v < 4 := by decide
  exact this e he

theorem exDag_fit : ∀ p v, IsWalk (edgeGraph exDag) 0 p v → p.length < 4 → weight p < INF := by
  intro p v hp hl
  have hb : ∀ e, edgeGraph exDag e → e.w ≤ 5 := by
    intro e he
    have : ∀ e ∈ exDag, e.w ≤ 5 := by decide
    exact this e he
  have h1 := weight_le_of_bound hb hp
  have h2 : ((p.length : Nat) : Int) < 4 := by exact_mod_cast hl
  have h3 : INF = 1000000000000000000 := rfl
  omega

/-- On a long enough path the last vertex is reachable, its true distance is
above the sentinel, and the engine leaves a value that is not that distance. -/
theorem bf_path_not_trueDist (N : Nat) (W : Int) (hW : 0 ≤ W) (hbig : INF < (N : Int) * W) :
    ¬ IsTrueDist INF (edgeGraph (pathEdges N W)) 0 N
        (rd (bellman_ford_seq (pathEdges N W) (N + 1) 0) N) := by
  intro h
  obtain ⟨⟨p, hp, hw⟩, _⟩ := h.1 (pathEdges_reach N W)
  have hpw := path_walk_weight (G := edgeGraph (pathEdges N W)) (W := W)
    (fun e he => (mem_pathEdges.1 he).2) hp
  obtain ⟨hlen, hS, _, _⟩ := bellman_ford_seq_spec (pathEdges_inRange N W) (Nat.succ_pos N)
    (noNegCycleFrom_of_nonneg (pathEdges_nonneg hW) 0).adm
  have hle := hS.le_INF (v := N) (by rw [hlen]; omega)
  rw [← hw, hpw] at hle
  simp only [Nat.cast_zero, sub_zero] at hle
  omega

/-- C1: for every n >= 1, source in [0,n) and in-range edge list without a
negative-weight cycle reachable from the source, the vector returned by
`bellman_ford_seq` is a fixpoint of relaxation: `dist[v] ≤ dist[u] + w` on
every edge `(u,v,w)` with `dist[u] ≠ INF`. -/
theorem C1_bellman_ford_seq_fixpoint (edges : List Edge) (n source : Nat)
    (hs : source < n) (hE : InRange (edgeGraph edges) n)
    (hc : NoNegCycleFrom (edgeGraph edges) source) :
    Fix (edgeGraph edges) (bellman_ford_seq edges n source) :=
  (bellman_ford_seq_spec hE hs hc.adm).2.2.2

/-- C1 at the acyclic graph `exDag` (one negative edge), `n = 4`, source `0`. -/
theorem C1_bellman_ford_seq_fixpoint_witness :
    Fix (edgeGraph exDag) (bellman_ford_seq exDag 4 0) ∧
      bellman_ford_seq exDag 4 0 = [0, 4, 1, 2] :=
  ⟨C1_bellman_ford_seq_fixpoint exDag 4 0 (by decide) exDag_inRange
    (noNegCycleFrom_of_dag exDag_dag 0), by decide⟩

/-- C2 as stated fails: on the path `0 → 1 → ... → 465661288` with every weight
`2147483647` (an `int`), the last vertex is reachable with true distance
`1000000001020957336 > INF`, and `bellman_ford_seq` does not return it. -/
theorem C2_counterexample :
    (0 : Nat) < 465661289 ∧
    InRange (edgeGraph (pathEdges 465661288 2147483647)) 465661289 ∧
    WeightsFitInt (pathEdges 465661288 2147483647) ∧
    NoNegCycleFrom (edgeGraph (pathEdges 465661288 2147483647)) 0 ∧
    Reachable (edgeGraph (pathEdges 465661288 2147483647)) 0 465661288 ∧
    ¬ IsTrueDist INF (edgeGraph (pathEdges 465661288 2147483647)) 0 465661288
        (rd (bellman_ford_seq (pathEdges 465661288 2147483647) 465661289 0) 465661288) :=
  ⟨Nat.succ_pos _, pathEdges_inRange _ _, pathEdges_fit _ (by decide) (by decide),
    noNegCycleFrom_of_nonneg (pathEdges_nonneg (by decide)) 0, pathEdges_reach _ _,
    bf_path_not_trueDist 465661288 2147483647 (by decide) (by decide)⟩

/-- C2 (amended): for every n >= 1, source in [0,n) and in-range edge list with
no negative cycle reachable from the source, in which every walk from the
source with fewer than n edges weighs less than `INF`, `bellman_ford_seq`
returns the true shortest-path distances: the minimum total weight over all
walks to `v` when `v` is reachable, `INF` otherwise. -/
theorem C2_bellman_ford_seq_distances (edges : List Edge) (n source : Nat)
    (hs : source < n) (hE : InRange (edgeGraph edges) n)
    (hc : NoNegCycleFrom (edgeGraph edges) source)
    (hfit : ∀ p v, IsWalk (edgeGraph edges) source p v → p.length < n → weight p < INF)
    (v : Nat) (hv : v < n) :
    IsTrueDist INF (edgeGraph edges) source v (rd (bellman_ford_seq edges n source) v) := by
  obtain ⟨hlen, hS, h0, hF⟩ := bellman_ford_seq_spec hE hs hc.adm
  exact trueDist_of_admDist hE hs hc hfit (admDist_of_sound_fix hS hF h0 (by omega))

/-- C2 (amended) at `exDag`, `n = 4`, source `0`, vertex `3`. -/
theorem C2_bellman_ford_seq_distances_witness :
    IsTrueDist INF (edgeGraph exDag) 0 3 (rd (bellman_ford_seq exDag 4 0) 3) ∧
      rd (bellman_ford_seq exDag 4 0) 3 = 2 :=
  ⟨C2_bellman_ford_seq_distances exDag 4 0 (by decide) exDag_inRange
    (noNegCycleFrom_of_dag exDag_dag 0) exDag_fit 3 (by decide), by decide⟩

/-- The order model: when every round relaxes a permutation of the edge list,
each check-and-write atomic, and no negative cycle is reachable from the
source, the round loop returns the vector of `bellman_ford_seq`. -/
theorem bellman_ford_ord_eq_seq (edges : List Edge) (n source : Nat)
    (sched : Nat → List Edge) (hs : source < n) (hE : InRange (edgeGraph edges) n)
    (hc : NoNegCycleFrom (edgeGraph edges) source) (hv : ValidSched edges sched) :
    bellman_ford_ord sched n source = bellman_ford_seq edges n source := by
  obtain ⟨hl1, hS1, h01, hF1⟩ := bellman_ford_ord_spec hE hs hc.adm
    (fun it e he => (validSched_mem hv it e).1 he) (fun it e he => (validSched_mem hv it e).2 he)
  obtain ⟨hl2, hS2, h02, hF2⟩ := bellman_ford_seq_spec hE hs hc.adm
  exact sound_fix_unique (hl1.trans hl2.symm) hS1 hF1 h01 hS2 hF2 h02

/-- C10 as stated fails: the path `0 → ... → 465661288` with weights
`2147483647` followed by a self-loop of weight `-1` has a negative cycle
reachable from the source, and the check on the result of `bellman_ford_seq`
returns false. -/
theorem C10_counterexample :
    (0 : Nat) < 465661289 ∧
    InRange (edgeGraph (lassoEdges 465661288 2147483647)) 465661289 ∧
    WeightsFitInt (lassoEdges 465661288 2147483647) ∧
    (∃ p c x, IsWalk (edgeGraph (lassoEdges 465661288 2147483647)) 0 p x ∧
      IsWalk (edgeGraph (lassoEdges 465661288 2147483647)) x c x ∧ weight c < 0) ∧
    has_negative_cycle (lassoEdges 465661288 2147483647)
      (bellman_ford_seq (lassoEdges 465661288 2147483647) 465661289 0) = false :=
  ⟨Nat.succ_pos _, lassoEdges_inRange _ _, lassoEdges_fit _ (by decide) (by decide),
    lasso_reachable_neg _ _,
    (has_negative_cycle_false_iff _ _).2
      (bellman_ford_seq_spec (lassoEdges_inRange _ _) (Nat.succ_pos _)
        (lasso_noNegCycleAdm (by decide) (by decide))).2.2.2⟩

/-- C10 (amended): for every n >= 1, source in [0,n) and in-range edge list,
`has_negative_cycle(edges, bellman_ford_seq(edges, n, source))` is true exactly
when a negative-weight closed walk can be followed from the source: a walk from
the source continued round the closed walk with every running total below
`INF`; and `has_negative_cycle` is true exactly when some edge `(u,v,w)` has
`dist[u] ≠ INF` and `dist[u] + w < dist[v]`. -/
theorem C10_negative_cycle_detection (edges : List Edge) (n source : Nat)
    (hs : source < n) (hE : InRange (edgeGraph edges) n) :
    (has_negative_cycle edges (bellman_ford_seq edges n source) = true ↔
      ∃ p c x, IsWalk (edgeGraph edges) source p x ∧ IsWalk (edgeGraph edges) x c x ∧
        Adm 0 (p ++ c) ∧ weight c < 0) ∧
    (∀ dist, has_negative_cycle edges dist = true ↔
      ∃ e ∈ edges, rd dist e.u ≠ INF ∧ rd dist e.u + e.w < rd dist e.v) :=
  ⟨bf_detect_iff hE hs, has_negative_cycle_iff edges⟩

/-- C10 (amended) at the two-vertex negative cycle: the check reports true. -/
theorem C10_negative_cycle_detection_witness :
    has_negative_cycle exNeg (bellman_ford_seq exNeg 2 0) = true ∧
      ∃ p c x, IsWalk (edgeGraph exNeg) 0 p x ∧ IsWalk (edgeGraph exNeg) x c x ∧
        Adm 0 (p ++ c) ∧ weight c < 0 :=
  ⟨by decide,
    (C10_negative_cycle_detection exNeg 2 0 (by decide) (by
      intro e he
      have : ∀ e ∈ exNeg, e.u < 2 ∧ e.v < 2 := by decide
      exact this e he)).1.1 (by decide)⟩

/-! ## Dijkstra: results -/

theorem getD_set_adj (adj : List (List (Nat × Int))) (i j : Nat) (x : List (Nat × Int)) :
    (adj.set i x).getD j [] = if i = j ∧ i < adj.length then x else adj.getD j [] := by
  by_cases h : i = j
  · subst h
    by_cases hl : i < adj.length
    · simp [List.getD_eq_getElem?_getD, List.getElem?_set, hl]
    · have hl2 : adj.length ≤ i := by omega
      simp [List.getD_eq_getElem?_getD, List.getElem?_set, hl, List.getElem?_eq_none hl2]
  · simp [List.getD_eq_getElem?_getD, List.getElem?_set, h]

theorem toAdj_fold (n : Nat) (edges : List Edge) :
    ∀ (acc : List (List (Nat × Int))), acc.length = n → (∀ e ∈ edges, e.u < n) →
      (edges.foldl (fun adj e => adj.set e.u (adj.getD e.u [] ++ [(e.v, e.w)])) acc).length = n ∧
      ∀ u v w, (v, w) ∈ (edges.foldl (fun adj e =>
          adj.set e.u (adj.getD e.u [] ++ [(e.v, e.w)])) acc).getD u [] ↔
        ((v, w) ∈ acc.getD u [] ∨ (⟨u, v, w⟩ : Edge) ∈ edges) := by
  induction edges with
  | nil => intro acc h _; exact ⟨h, fun u v w => by simp⟩
  | cons e es ih =>
    intro acc h hr
    rw [List.foldl_cons]
    have hu : e.u < n := hr e (List.mem_cons_self _ _)
    obtain ⟨h1, h2⟩ := ih (acc.set e.u (acc.getD e.u [] ++ [(e.v, e.w)])) (by simpa using h)
      (fun e' he' => hr e' (List.mem_cons_of_mem _ he'))
    refine ⟨h1, fun u v w => ?_⟩
    rw [h2, getD_set_adj]
    by_cases hc : e.u = u
    · subst hc
      rw [if_pos ⟨rfl, by rw [h]; exact hu⟩]
      have key : ((v, w) = (e.v, e.w)) ↔ (⟨e.u, v, w⟩ : Edge) = e := by
        cases e
        simp
      simp only [List.mem_append, List.mem_singleton, List.mem_cons, key]
      tauto
    · rw [if_neg (fun hh => hc hh.1)]
      have key : ¬ (⟨u, v, w⟩ : Edge) = e := by
        intro hh
        apply hc
        rw [← hh]
      simp only [List.mem_cons, key, false_or]

theorem toAdj_length {n : Nat} {edges : List Edge} (hr : ∀ e ∈ edges, e.u < n) :
    (toAdj n edges).length = n :=
  (toAdj_fold n edges _ (by simp) hr).1

/-- The adjacency-list form has the edges of the edge list. -/
theorem adjGraph_toAdj {n : Nat} {edges : List Edge} (hr : ∀ e ∈ edges, e.u < n) (e : Edge) :
    adjGraph (toAdj n edges) e ↔ edgeGraph edges e := by
  have h := (toAdj_fold n edges (List.replicate n []) (by simp) hr).2 e.u e.v e.w
  unfold adjGraph edgeGraph
  rw [toAdj_length hr]
  unfold toAdj
  rw [h]
  have hnil : (List.replicate n ([] : List (Nat × Int))).getD e.u [] = [] := by
    by_cases hl : e.u < n
    · simp [List.getD_eq_getElem?_getD, List.getElem?_replicate, hl]
    · simp [List.getD_eq_getElem?_getD, List.getElem?_replicate, hl]
  rw [hnil]
  constructor
  · rintro ⟨_, h1 | h1⟩
    · simp at h1
    · exact h1
  · intro h1
    exact ⟨hr e h1, Or.inr h1⟩

/-- Over non-negative edges a walk whose total stays below `INF` can be followed. -/
theorem adm_of_nonneg {G : Edge → Prop} (hG : ∀ e, G e → 0 ≤ e.w) :
    ∀ {p : List Edge} {a b : Nat} {acc : Int}, IsWalk G a p b → acc + weight p < INF →
      Adm acc p
  | [], _, _, _, _, _ => trivial
  | e :: p, _, _, acc, h, hlt => by
    rw [weight_cons] at hlt
    have h1 := weight_nonneg hG h.2.2
    exact ⟨by show acc + e.w < INF; omega, adm_of_nonneg hG h.2.2 (by omega)⟩

/-- Over non-negative edges a sound fixpoint holds the distances capped at `INF`. -/
theorem cappedDist_of_sound_fix {G : Edge → Prop} {s : Nat} {d : List Int}
    (hG : ∀ e, G e → 0 ≤ e.w) (hS : Sound G s d) (hF : Fix G d) (h0 : rd d s ≤ 0)
    {v : Nat} (hv : v < d.length) :
    ((∃ p, IsWalk G s p v ∧ weight p < INF) → IsMinWalk G s v (rd d v)) ∧
      ((¬ ∃ p, IsWalk G s p v ∧ weight p < INF) → rd d v = INF) := by
  have hle := hS.le_INF hv
  constructor
  · rintro ⟨p, hp, hlt⟩
    have hadm : Adm 0 p := adm_of_nonneg hG hp (by simpa using hlt)
    have hdp := hF.le_walk h0 hp hadm
    obtain ⟨q, hq, _, hwq⟩ := hS v hv (by omega)
    refine ⟨⟨q, hq, hwq⟩, fun p' hp' => ?_⟩
    by_cases hlt' : weight p' < INF
    · exact hF.le_walk h0 hp' (adm_of_nonneg hG hp' (by simpa using hlt'))
    · omega
  · intro hno
    by_contra hne
    obtain ⟨q, hq, haq, hwq⟩ := hS v hv hne
    exact hno ⟨q, hq, Adm.weight_lt haq⟩

theorem exGraph_inRange : InRange (edgeGraph exGraph) 4 := by
  intro e he
  have : ∀ e ∈ exGraph, e.u < 4 ∧ e.v < 4 := by decide
  exact this e he

theorem exGraph_nonneg : ∀ e ∈ exGraph, 0 ≤ e.w := by decide

theorem exAdj_graph (e : Edge) : adjGraph exAdj e ↔ edgeGraph exGraph e := by
  have h : toAdj 4 exGraph = exAdj := by decide
  rw [← h]
  exact adjGraph_toAdj (fun e he => (exGraph_inRange e he).1) e

theorem exAdj_inRange : InRange (adjGraph exAdj) exAdj.length :=
  fun e he => exGraph_inRange e ((exAdj_graph e).1 he)

theorem exAdj_nonneg : ∀ e, adjGraph exAdj e → 0 ≤ e.w :=
  fun e he => exGraph_nonneg e ((exAdj_graph e).1 he)

/-- C3 as stated fails: on the adjacency list of the path
`0 → 1 → ... → 465661288` with every weight `2147483647`, the last vertex is
reachable with true distance `1000000001020957336 > INF`, and `dijkstra_seq`
does not return it. -/
theorem C3_counterexample :
    (0 : Nat) < (toAdj 465661289 (pathEdges 465661288 2147483647)).length ∧
    InRange (adjGraph (toAdj 465661289 (pathEdges 465661288 2147483647)))
      (toAdj 465661289 (pathEdges 465661288 2147483647)).length ∧
    (∀ e, adjGraph (toAdj 465661289 (pathEdges 465661288 2147483647)) e →
      0 ≤ e.w ∧ e.w ≤ INT_MAX) ∧
    Reachable (adjGraph (toAdj 465661289 (pathEdges 465661288 2147483647))) 0 465661288 ∧
    ¬ IsTrueDist INF (adjGraph (toAdj 465661289 (pathEdges 465661288 2147483647))) 0
        465661288
        (rd (dijkstra_seq (toAdj 465661289 (pathEdges 465661288 2147483647)) 0)
          465661288) := by
  have hr : ∀ e ∈ pathEdges 465661288 2147483647, e.u < 465661289 :=
    fun e he => (pathEdges_inRange _ _ e he).1
  have hlen := toAdj_length hr
  have hG : adjGraph (toAdj 465661289 (pathEdges 465661288 2147483647)) =
      edgeGraph (pathEdges 465661288 2147483647) :=
    funext (fun e => propext (adjGraph_toAdj hr e))
  have hW : ∀ e, edgeGraph (pathEdges 465661288 2147483647) e → 0 ≤ e.w ∧ e.w ≤ INT_MAX := by
    intro e he
    rw [(mem_pathEdges.1 he).2.2]
    decide
  rw [hG, hlen]
  refine ⟨Nat.succ_pos _, pathEdges_inRange _ _, hW, pathEdges_reach _ _, ?_⟩
  intro h
  obtain ⟨⟨p, hp, hw⟩, _⟩ := h.1 (pathEdges_reach _ _)
  have hpw := path_walk_weight (G := edgeGraph (pathEdges 465661288 2147483647))
    (W := 2147483647) (fun e he => (mem_pathEdges.1 he).2) hp
  have hspec := @dijkstra_seq_spec
    (toAdj 465661289 (pathEdges 465661288 2147483647)) 0
    (by rw [hlen]; exact Nat.succ_pos _)
    (by rw [hG, hlen]; exact pathEdges_inRange _ _)
    (by rw [hG]; exact fun e he => (hW e he).1)
  have hle := hspec.2.1.le_INF (v := 465661288) (by rw [hspec.1, hlen]; exact Nat.lt_succ_self _)
  rw [← hw, hpw] at hle
  have hI : INF = 1000000000000000000 := rfl
  rw [hI] at hle
  norm_num at hle

/-- C3 (amended): for every adjacency list with n >= 1 vertices, in-range
targets and non-negative weights, and every source in [0,n), `dijkstra_seq`
returns for every vertex the minimum total weight of a path from the source
when some path to the vertex weighs less than `INF`, and `INF` otherwise. -/
theorem C3_dijkstra_seq_distances (adj : List (List (Nat × Int))) (source v : Nat)
    (hs : source < adj.length) (hR : InRange (adjGraph adj) adj.length)
    (hW : ∀ e, adjGraph adj e → 0 ≤ e.w) (hv : v < adj.length) :
    ((∃ p, IsWalk (adjGraph adj) source p v ∧ weight p < INF) →
        IsMinWalk (adjGraph adj) source v (rd (dijkstra_seq adj source) v)) ∧
      ((¬ ∃ p, IsWalk (adjGraph adj) source p v ∧ weight p < INF) →
        rd (dijkstra_seq adj source) v = INF) := by
  obtain ⟨hl, hS, h0, hF⟩ := dijkstra_seq_spec hs hR hW
  exact cappedDist_of_sound_fix hW hS hF h0 (by rw [hl]; exact hv)

/-- C3 (amended) at the scenario graph, source `0`, vertex `3`. -/
theorem C3_dijkstra_seq_distances_witness :
    (((∃ p, IsWalk (adjGraph exAdj) 0 p 3 ∧ weight p < INF) →
        IsMinWalk (adjGraph exAdj) 0 3 (rd (dijkstra_seq exAdj 0) 3)) ∧
      ((¬ ∃ p, IsWalk (adjGraph exAdj) 0 p 3 ∧ weight p < INF) →
        rd (dijkstra_seq exAdj 0) 3 = INF)) ∧
      dijkstra_seq exAdj 0 = [0, 1, 3, 4] :=
  ⟨C3_dijkstra_seq_distances exAdj 0 3 (by decide) exAdj_inRange exAdj_nonneg (by decide),
    by decide⟩

/-- C5: for every graph with n >= 1 vertices and only non-negative weights, and
every source, `dijkstra_seq` on an adjacency list of the graph returns the
vector that `bellman_ford_seq` returns on an edge list of the same graph. -/
theorem C5_dijkstra_eq_bellman_ford (adj : List (List (Nat × Int))) (edges : List Edge)
    (n source : Nat) (hn : adj.length = n) (hs : source < n)
    (hsame : ∀ e, adjGraph adj e ↔ edgeGraph edges e)
    (hE : InRange (edgeGraph edges) n) (hW : ∀ e ∈ edges, 0 ≤ e.w) :
    dijkstra_seq adj source = bellman_ford_seq edges n source := by
  have hG : adjGraph adj = edgeGraph edges := funext (fun e => propext (hsame e))
  subst hn
  obtain ⟨hl1, hS1, h01, hF1⟩ := @dijkstra_seq_spec adj source hs
    (by rw [hG]; exact hE) (by rw [hG]; exact hW)
  obtain ⟨hl2, hS2, h02, hF2⟩ := bellman_ford_seq_spec hE hs
    (noNegCycleFrom_of_nonneg (G := edgeGraph edges) hW source).adm
  rw [hG] at hS1 hF1
  exact sound_fix_unique (hl1.trans hl2.symm) hS1 hF1 h01 hS2 hF2 h02

/-- C5 at the scenario `n=4`, edges `(0,1,1),(1,2,2),(0,2,5),(2,3,1)`, source
`0`: both engines return `[0,1,3,4]`. -/
theorem C5_dijkstra_eq_bellman_ford_witness :
    dijkstra_seq exAdj 0 = bellman_ford_seq exGraph 4 0 ∧
      dijkstra_seq exAdj 0 = [0, 1, 3, 4] ∧ bellman_ford_seq exGraph 4 0 = [0, 1, 3, 4] :=
  ⟨C5_dijkstra_eq_bellman_ford exAdj exGraph 4 0 rfl (by decide) exAdj_graph
    exGraph_inRange exGraph_nonneg, by decide, by decide⟩

/-- C8: for every graph with only non-negative weights, `dijkstra_parallel`
returns the vector of `dijkstra_seq` whatever the slicing of the vertices and
the order in which the slice minima are combined. -/
theorem C8_dijkstra_parallel_eq_seq (adj : List (List (Nat × Int))) (source : Nat)
    (sched : Nat → List (List Nat)) (hs : source < adj.length)
    (hR : InRange (adjGraph adj) adj.length) (hW : ∀ e, adjGraph adj e → 0 ≤ e.w)
    (hv : ValidSlices adj.length sched) :
    dijkstra_parallel adj source sched = dijkstra_seq adj source := by
  obtain ⟨hl1, hS1, h01, hF1⟩ := dijkstra_parallel_spec hs hR hW (validSlices_mem hv)
  obtain ⟨hl2, hS2, h02, hF2⟩ := dijkstra_seq_spec hs hR hW
  exact sound_fix_unique (hl1.trans hl2.symm) hS1 hF1 h01 hS2 hF2 h02

/-- C8 at the scenario graph with the slices `{2,3}` and `{0,1}` combined in
that order in every round. -/
theorem C8_dijkstra_parallel_eq_seq_witness :
    dijkstra_parallel exAdj 0 (fun _ => [[2, 3], [0, 1]]) = dijkstra_seq exAdj 0 :=
  C8_dijkstra_parallel_eq_seq exAdj 0 (fun _ => [[2, 3], [0, 1]]) (by decide) exAdj_inRange
    exAdj_nonneg
    (fun _ => (by decide : [[2, 3], [0, 1]].flatten.Perm (List.range 4)))

/-! ## Floyd-Warshall: results -/

theorem pathMatrix_row (N : Nat) (W : Int) (i : Nat) (hi : i < N + 1) :
    (pathMatrix N W).getD i [] =
      (List.range (N + 1)).map (fun j => if i = j then 0 else if j = i + 1 then W else INF_FW) := by
  unfold pathMatrix
  simp [List.getD_eq_getElem?_getD, List.getElem?_map, List.getElem?_range, hi]

theorem pathMatrix_square (N : Nat) (W : Int) : Square (N + 1) (pathMatrix N W) := by
  refine ⟨by simp [pathMatrix], fun i hi => ?_⟩
  rw [pathMatrix_row N W i hi]
  simp

theorem mget_pathMatrix (N : Nat) (W : Int) {i j : Nat} (hi : i < N + 1) (hj : j < N + 1) :
    mget (pathMatrix N W) i j = if i = j then 0 else if j = i + 1 then W else INF_FW := by
  unfold mget rd
  rw [pathMatrix_row N W i hi]
  simp [List.getD_eq_getElem?_getD, List.getElem?_map, List.getElem?_range, hj]

theorem pathMatrix_edge {N : Nat} {W : Int} {e : Edge}
    (he : matGraph (N + 1) (pathMatrix N W) e) :
    (e.v = e.u ∧ e.w = 0) ∨ (e.v = e.u + 1 ∧ e.w = W) := by
  obtain ⟨hu, hv, hne, hw⟩ := he
  rw [mget_pathMatrix N W hu hv] at hne hw
  by_cases h1 : e.u = e.v
  · left
    rw [if_pos h1] at hw
    exact ⟨h1.symm, hw⟩
  · rw [if_neg h1] at hne hw
    by_cases h2 : e.v = e.u + 1
    · right
      rw [if_pos h2] at hw
      exact ⟨h2, hw⟩
    · rw [if_neg h2] at hne
      exact absurd rfl hne

/-- A walk over edges of weight `(v - u) * W` from `a` to `b` weighs `(b - a) * W`. -/
theorem telescope_walk_weight {G : Edge → Prop} {W : Int}
    (hG : ∀ e, G e → e.w = ((e.v : Int) - e.u) * W) :
    ∀ {p : List Edge} {a b : Nat}, IsWalk G a p b → weight p = ((b : Int) - a) * W
  | [], a, b, h => by
    simp only [IsWalk] at h
    subst h
    simp [weight_nil]
  | e :: p, a, b, h => by
    have ih := telescope_walk_weight hG h.2.2
    rw [weight_cons, ih, hG e h.1, ← h.2.1]
    ring

theorem pathMatrix_walk_weight {N : Nat} {W : Int} {p : List Edge} {a b : Nat}
    (hp : IsWalk (matGraph (N + 1) (pathMatrix N W)) a p b) :
    weight p = ((b : Int) - a) * W := by
  apply telescope_walk_weight _ hp
  intro e he
  rcases pathMatrix_edge he with ⟨h1, h2⟩ | ⟨h1, h2⟩
  · rw [h1, h2]
    ring
  · rw [h1, h2]
    push_cast
    ring

theorem pathMatrix_reach (N : Nat) {W : Int} (hW : W ≠ INF_FW) :
    Reachable (matGraph (N + 1) (pathMatrix N W)) 0 N := by
  have := path_walk_exists (G := matGraph (N + 1) (pathMatrix N W)) (W := W) N 0 (by
    intro i _ hi
    have hi1 : i < N + 1 := by omega
    have hi2 : i + 1 < N + 1 := by omega
    refine ⟨hi1, hi2, ?_, ?_⟩
    · show mget (pathMatrix N W) i (i + 1) ≠ INF_FW
      rw [mget_pathMatrix N W hi1 hi2]
      simpa using hW
    · show W = mget (pathMatrix N W) i (i + 1)
      rw [mget_pathMatrix N W hi1 hi2]
      simp)
  simpa using this

theorem pathMatrix_nonneg {N : Nat} {W : Int} (hW : 0 ≤ W) :
    ∀ e, matGraph (N + 1) (pathMatrix N W) e → 0 ≤ e.w := by
  intro e he
  rcases pathMatrix_edge he with ⟨_, h2⟩ | ⟨_, h2⟩
  · rw [h2]
  · rw [h2]
    exact hW

theorem noNegCycle_of_nonneg {G : Edge → Prop} (hG : ∀ e, G e → 0 ≤ e.w) : NoNegCycle G :=
  fun _ _ hc => weight_nonneg hG hc

/-- On a long enough path the far corner of the matrix is reachable, its true
distance is above the sentinel, and the engine leaves a value that is not
that distance. -/
theorem fw_path_not_trueDist (N : Nat) (W : Int) (hN : 2 ≤ N) (hW : 0 ≤ W)
    (hW' : W ≠ INF_FW) (hbig : INF_FW < (N : Int) * W) :
    ¬ IsTrueDist INF_FW (matGraph (N + 1) (pathMatrix N W)) 0 N
        (mget (floyd_warshall_seq (pathMatrix N W)) 0 N) := by
  intro h
  obtain ⟨⟨p, hp, hw⟩, _⟩ := h.1 (pathMatrix_reach N hW')
  have hpw := pathMatrix_walk_weight hp
  have hI := floyd_warshall_seq_inv (pathMatrix_square N W)
    (noNegCycle_of_nonneg (pathMatrix_nonneg hW))
  have hle := hI.2.2 0 N (Nat.succ_pos N) (Nat.lt_succ_self N)
  rw [mget_pathMatrix N W (Nat.succ_pos N) (Nat.lt_succ_self N)] at hle
  rw [if_neg (by omega), if_neg (by omega), ← hw, hpw] at hle
  simp only [Nat.cast_zero, sub_zero] at hle
  omega

/-- In a graph whose edges never go down and whose self-loops are not
negative, no closed walk is negative. -/
theorem up_walk {G : Edge → Prop} (hG : ∀ e, G e → e.u ≤ e.v ∧ (e.u = e.v → 0 ≤ e.w)) :
    ∀ {p : List Edge} {a b : Nat}, IsWalk G a p b → a ≤ b ∧ (a = b → 0 ≤ weight p)
  | [], a, b, h => by
    simp only [IsWalk] at h
    subst h
    exact ⟨le_refl _, fun _ => le_refl _⟩
  | e :: p, a, b, h => by
    obtain ⟨h1, h2⟩ := up_walk hG h.2.2
    obtain ⟨g1, g2⟩ := hG e h.1
    have hu := h.2.1
    refine ⟨by omega, fun hab => ?_⟩
    have hev : e.u = e.v := by omega
    have := g2 hev
    have := h2 (by omega)
    rw [weight_cons]
    omega

theorem noNegCycle_of_up {G : Edge → Prop}
    (hG : ∀ e, G e → e.u ≤ e.v ∧ (e.u = e.v → 0 ≤ e.w)) : NoNegCycle G :=
  fun _ _ hc => (up_walk hG hc).2 rfl

theorem exDagM_square : Square 4 exDagM := by
  refine ⟨rfl, ?_⟩
  decide

theorem exDagM_entries : ∀ i, i < 4 → ∀ j, j < 4 → mget exDagM i j ≠ INF_FW →
    mget exDagM i j ≤ 5 ∧ i ≤ j ∧ (i = j → 0 ≤ mget exDagM i j) := by
  decide

theorem exDagM_noNeg : NoNegCycle (matGraph 4 exDagM) := by
  apply noNegCycle_of_up
  intro e he
  have := exDagM_entries e.u he.1 e.v he.2.1 he.2.2.1
  rw [he.2.2.2]
  exact this.2

theorem exDagM_fit : ∀ a b p, IsWalk (matGraph 4 exDagM) a p b → p.length < 4 →
    weight p < INF_FW := by
  intro a b p hp hl
  have hb : ∀ e, matGraph 4 exDagM e → e.w ≤ 5 := by
    intro e he
    rw [he.2.2.2]
    exact (exDagM_entries e.u he.1 e.v he.2.1 he.2.2.1).1
  have h1 := weight_le_of_bound hb hp
  have h2 : ((p.length : Nat) : Int) < 4 := by exact_mod_cast hl
  have h3 : INF_FW = 1000000000000000 := rfl
  omega

/-- C4 as stated fails: on the matrix of the path `0 → 1 → ... → 465662` with
every weight `2147483647` (an `int`), the vertex `465662` is reachable from `0`
with true distance `1000001530029314 > INF`, and `floyd_warshall_seq` does not
return it at `[0][465662]`. -/
theorem C4_counterexample :
    Square 465663 (pathMatrix 465662 2147483647) ∧
    (∀ i, i < 465663 → mget (pathMatrix 465662 2147483647) i i = 0) ∧
    NoNegCycle (matGraph 465663 (pathMatrix 465662 2147483647)) ∧
    (∀ e, matGraph 465663 (pathMatrix 465662 2147483647) e → 0 ≤ e.w ∧ e.w ≤ INT_MAX) ∧
    Reachable (matGraph 465663 (pathMatrix 465662 2147483647)) 0 465662 ∧
    ¬ IsTrueDist INF_FW (matGraph 465663 (pathMatrix 465662 2147483647)) 0 465662
        (mget (floyd_warshall_seq (pathMatrix 465662 2147483647)) 0 465662) := by
  refine ⟨pathMatrix_square _ _, fun i hi => ?_,
    noNegCycle_of_nonneg (pathMatrix_nonneg (by decide)), fun e he => ?_,
    pathMatrix_reach _ (by decide),
    fw_path_not_trueDist 465662 2147483647 (by decide) (by decide) (by decide) (by decide)⟩
  · rw [mget_pathMatrix _ _ hi hi, if_pos rfl]
  · rcases pathMatrix_edge he with ⟨_, h2⟩ | ⟨_, h2⟩
    · rw [h2]
      decide
    · rw [h2]
      decide

/-- C4 (amended): for every n x n matrix with `0` on the diagonal (`INF` where
there is no edge, the edge weight otherwise) whose graph has no negative cycle
and in which every walk with fewer than n edges weighs less than `INF`,
`floyd_warshall_seq` returns the all-pairs shortest distances: entry `[i][j]`
is the minimum total weight of a walk from `i` to `j`, or `INF` when `j` is not
reachable from `i`. -/
theorem C4_floyd_warshall_seq_distances (m : List (List Int)) (n i j : Nat)
    (hm : Square n m) (hdiag : ∀ i, i < n → mget m i i = 0)
    (hc : NoNegCycle (matGraph n m))
    (hfit : ∀ a b p, IsWalk (matGraph n m) a p b → p.length < n → weight p < INF_FW)
    (hi : i < n) (hj : j < n) :
    IsTrueDist INF_FW (matGraph n m) i j (mget (floyd_warshall_seq m) i j) :=
  floyd_warshall_seq_trueDist hm (fun i hi => le_of_eq (hdiag i hi)) hc hfit hi hj

/-- C4 (amended) at the matrix of `exDag`, entry `[0][3]`. -/
theorem C4_floyd_warshall_seq_distances_witness :
    IsTrueDist INF_FW (matGraph 4 exDagM) 0 3 (mget (floyd_warshall_seq exDagM) 0 3) ∧
      mget (floyd_warshall_seq exDagM) 0 3 = 2 :=
  ⟨C4_floyd_warshall_seq_distances exDagM 4 0 3 exDagM_square (by decide) exDagM_noNeg
    exDagM_fit (by decide) (by decide), by decide⟩

/-- C7: for every square input matrix whose graph has no negative cycle (the
diagonal entries count as self-loops, so a diagonal of `0` is allowed),
`floyd_warshall_par` returns the matrix of `floyd_warshall_seq` whatever
permutation of the rows each pass takes. -/
theorem C7_floyd_warshall_par_eq_seq (m : List (List Int)) (n : Nat) (sched : Nat → List Nat)
    (hm : Square n m) (hc : NoNegCycle (matGraph n m)) (hs : ValidRows n sched) :
    floyd_warshall_par m sched = floyd_warshall_seq m := by
  rw [floyd_warshall_seq_eq_par, hm.1]
  exact floyd_warshall_par_order hm hc hs (fun _ => List.Perm.refl _)

/-- C7 at the matrix of `exDag` with the rows of every pass in reverse order. -/
theorem C7_floyd_warshall_par_eq_seq_witness :
    floyd_warshall_par exDagM (fun _ => [3, 2, 1, 0]) = floyd_warshall_seq exDagM :=
  C7_floyd_warshall_par_eq_seq exDagM 4 (fun _ => [3, 2, 1, 0]) exDagM_square exDagM_noNeg
    (fun _ => (by decide : [3, 2, 1, 0].Perm (List.range 4)))

/-! ## Monotonicity of the Floyd-Warshall steps -/

theorem mget_mset_gen (m : List (List Int)) (i j : Nat) (x : Int) (a b : Nat) :
    mget (mset m i j x) a b =
      if i = a ∧ j = b ∧ i < m.length ∧ j < (m.getD i []).length then x else mget m a b := by
  unfold mget mset
  rw [getD_set_row]
  by_cases h : i = a
  · subst h
    by_cases hl : i < m.length
    · rw [if_pos ⟨rfl, hl⟩, rd_set]
      by_cases h2 : j = b ∧ j < (m.getD i []).length
      · rw [if_pos h2, if_pos ⟨rfl, h2.1, hl, h2.2⟩]
      · rw [if_neg h2, if_neg (fun hh => h2 ⟨hh.2.1, hh.2.2.2⟩)]
    · rw [if_neg (fun hh => hl hh.2), if_neg (fun hh => hl hh.2.2.1)]
  · rw [if_neg (fun hh => h hh.1), if_neg (fun hh => h hh.1)]

theorem fwCell_le (k i : Nat) (d : List (List Int)) (j a b : Nat) :
    mget (fwCell k i d j) a b ≤ mget d a b := by
  unfold fwCell
  split_ifs with h1 h2
  · exact le_refl _
  · rw [mget_mset_gen]
    split_ifs with h3
    · rw [← h3.1, ← h3.2.1]
      exact le_of_lt h2
    · exact le_refl _
  · exact le_refl _

theorem fwCells_le (k i : Nat) (js : List Nat) : ∀ (d : List (List Int)) (a b : Nat),
    mget (js.foldl (fwCell k i) d) a b ≤ mget d a b := by
  induction js with
  | nil => intro d a b; exact le_refl _
  | cons j js ih =>
    intro d a b
    rw [List.foldl_cons]
    exact le_trans (ih _ a b) (fwCell_le k i d j a b)

theorem fwRow_le (n k : Nat) (d : List (List Int)) (i a b : Nat) :
    mget (fwRow n k d i) a b ≤ mget d a b := by
  unfold fwRow
  split_ifs
  · exact le_refl _
  · exact fwCells_le k i _ d a b

theorem fwRows_le (n k : Nat) (rows : List Nat) : ∀ (d : List (List Int)) (a b : Nat),
    mget (rows.foldl (fwRow n k) d) a b ≤ mget d a b := by
  induction rows with
  | nil => intro d a b; exact le_refl _
  | cons i rows ih =>
    intro d a b
    rw [List.foldl_cons]
    exact le_trans (ih _ a b) (fwRow_le n k d i a b)

theorem fwPass_le (n : Nat) (rows : List Nat) (d : List (List Int)) (k a b : Nat) :
    mget (fwPass n rows d k) a b ≤ mget d a b :=
  fwRows_le n k rows d a b

/-! ## The early exit of Bellman-Ford -/

/-- Once a round changes nothing, every later round changes nothing. -/
theorem bfAllRounds_fixed {edges : List Edge} {d : List Int}
    (h : (relaxRound edges d).2 = false) : ∀ k, bfAllRounds edges k d = d := by
  intro k
  induction k with
  | zero => rfl
  | succ k ih =>
    unfold bfAllRounds
    rw [(relaxRound_false h).1]
    exact ih

theorem bfLoop_eq_allRounds (edges : List Edge) : ∀ (k : Nat) (d : List Int),
    bfLoop edges k d = bfAllRounds edges k d := by
  intro k
  induction k with
  | zero => intro d; rfl
  | succ k ih =>
    intro d
    unfold bfLoop
    by_cases hflag : (relaxRound edges d).2 = true
    · rw [if_pos hflag]
      unfold bfAllRounds
      exact ih _
    · rw [if_neg hflag]
      have hf : (relaxRound edges d).2 = false := by simpa using hflag
      rw [bfAllRounds_fixed hf (k + 1)]
      exact (relaxRound_false hf).1

/-! ## A single vertex -/

theorem relaxOut_single_nonneg : ∀ (out : List (Nat × Int)),
    (∀ edge ∈ out, edge.1 = 0 ∧ 0 ≤ edge.2) → relaxOut 0 [0] out = [0]
  | [], _ => rfl
  | edge :: out, h => by
    have he := h edge (List.mem_cons_self _ _)
    have hstep : relaxOut 0 [0] (edge :: out) = relaxOut 0 (relaxTo 0 [0] edge) out := rfl
    have hto : relaxTo 0 [0] edge = [0] := by
      unfold relaxTo
      rw [he.1]
      have : ¬ (rd [0] 0 + edge.2 < rd [0] 0) := by
        have h0 : rd [0] 0 = 0 := rfl
        rw [h0]
        omega
      rw [if_neg this]
    rw [hstep, hto]
    exact relaxOut_single_nonneg out (fun e he' => h e (List.mem_cons_of_mem _ he'))

/-! ## Boundary, monotonicity, early exit and frame results -/

theorem dijkstra_single_nonneg (out : List (Nat × Int))
    (h : ∀ edge ∈ out, edge.1 = 0 ∧ 0 ≤ edge.2) : dijkstra_seq [out] 0 = [0] := by
  have hsel : select_seq [0] [false] 1 = (some 0, 0) := by decide
  have hINF : (0 : Int) ≠ INF := by decide
  show dijkstraLoop [out] 1 [0] [false] = [0]
  unfold dijkstraLoop
  simp only [List.length_singleton, hsel, if_neg hINF]
  unfold dijkstraLoop
  exact relaxOut_single_nonneg out h

/-- C13 as stated fails for Dijkstra: with `n = 1` and the self-loop `0 → 0` of
weight `-1`, `dijkstra_seq` relaxes the self-loop and returns `dist[0] = -1`. -/
theorem C13_counterexample : dijkstra_seq [[(0, -1)]] 0 = [-1] := by decide

/-- C13 (amended): for every graph with `n = 1`, `bellman_ford_seq` with source
`0` returns the one-element vector `[0]` whatever the edge list is (it runs no
round), and `dijkstra_seq` with source `0` returns `[0]` when no self-loop has a
negative weight (it relaxes the self-loops, which write nothing). -/
theorem C13_single_vertex (edges : List Edge) (out : List (Nat × Int))
    (h : ∀ edge ∈ out, edge.1 = 0 ∧ 0 ≤ edge.2) :
    bellman_ford_seq edges 1 0 = [0] ∧ dijkstra_seq [out] 0 = [0] :=
  ⟨rfl, dijkstra_single_nonneg out h⟩

/-- C13 (amended) with the self-loops of weights `-5` and `3` for Bellman-Ford
and of weights `5` and `0` for Dijkstra. -/
theorem C13_single_vertex_witness :
    bellman_ford_seq [⟨0, 0, -5⟩, ⟨0, 0, 3⟩] 1 0 = [0] ∧
      dijkstra_seq [[(0, 5), (0, 0)]] 0 = [0] :=
  C13_single_vertex [⟨0, 0, -5⟩, ⟨0, 0, 3⟩] [(0, 5), (0, 0)] (by decide)

/-- C17: each sequential engine is monotone. Every single relaxation step, and
hence every round of `bellman_ford_seq`, every round of `dijkstra_seq` (the
relaxation of the edges out of the selected vertex) and every pivot pass of
`floyd_warshall_seq`, leaves each entry less than or equal to its value before;
so an entry below `INF` stays below `INF`. -/
theorem C17_monotone :
    (∀ (st : List Int × Bool) (e : Edge) (v : Nat), rd (relaxEdge st e).1 v ≤ rd st.1 v) ∧
    (∀ (edges : List Edge) (d : List Int) (v : Nat),
      rd (relaxRound edges d).1 v ≤ rd d v ∧
        (rd d v < INF → rd (relaxRound edges d).1 v < INF)) ∧
    (∀ (u : Nat) (d : List Int) (edge : Nat × Int) (v : Nat),
      rd (relaxTo u d edge) v ≤ rd d v) ∧
    (∀ (u : Nat) (d : List Int) (out : List (Nat × Int)) (v : Nat),
      rd (relaxOut u d out) v ≤ rd d v ∧ (rd d v < INF → rd (relaxOut u d out) v < INF)) ∧
    (∀ (k i : Nat) (d : List (List Int)) (j a b : Nat),
      mget (fwCell k i d j) a b ≤ mget d a b) ∧
    (∀ (n : Nat) (d : List (List Int)) (k a b : Nat),
      mget (fwPass n (List.range n) d k) a b ≤ mget d a b ∧
        (mget d a b < INF_FW → mget (fwPass n (List.range n) d k) a b < INF_FW)) :=
  ⟨relaxEdge_le,
    fun edges d v => ⟨relaxRound_le edges d v, fun h => lt_of_le_of_lt (relaxRound_le edges d v) h⟩,
    relaxTo_le,
    fun u d out v => ⟨relaxOut_le u out d v, fun h => lt_of_le_of_lt (relaxOut_le u out d v) h⟩,
    fwCell_le,
    fun n d k a b => ⟨fwPass_le n _ d k a b, fun h => lt_of_le_of_lt (fwPass_le n _ d k a b) h⟩⟩

/-- C18: the early exit of `bellman_ford_seq` preserves the result: for every
`n`, source and edge list (negative cycles included), `bellman_ford_seq` returns
the vector obtained by running all `n - 1` rounds without the test
`if (!changed) break;`. -/
theorem C18_early_exit (edges : List Edge) (n source : Nat) :
    bellman_ford_seq edges n source = bellman_ford_seq_nobreak edges n source :=
  bfLoop_eq_allRounds edges (n - 1) _

/-- Frame of one cell update for the pivot `k` with `dist[k][k] ≥ 0`: no entry
of the row `k` or the column `k` changes. -/
theorem fwCell_frame (k i : Nat) (d : List (List Int)) (j : Nat) (hkk : 0 ≤ mget d k k)
    (x : Nat) :
    mget (fwCell k i d j) x k = mget d x k ∧ mget (fwCell k i d j) k x = mget d k x := by
  unfold fwCell
  split_ifs with h1 h2
  · exact ⟨rfl, rfl⟩
  · rw [mget_mset_gen, mget_mset_gen]
    constructor
    · rw [if_neg]
      rintro ⟨hi, hj, -⟩
      subst hj
      omega
    · rw [if_neg]
      rintro ⟨hi, hj, -⟩
      subst hi
      omega
  · exact ⟨rfl, rfl⟩

/-- Frame of any sequence of cell updates `(i, j)` for the pivot `k`. -/
theorem fwCellSeq_frame (k : Nat) (cells : List (Nat × Nat)) :
    ∀ (d : List (List Int)), 0 ≤ mget d k k → ∀ x,
      mget (cells.foldl (fun m c => fwCell k c.1 m c.2) d) x k = mget d x k ∧
        mget (cells.foldl (fun m c => fwCell k c.1 m c.2) d) k x = mget d k x := by
  induction cells with
  | nil => exact fun _ _ _ => ⟨rfl, rfl⟩
  | cons c cs ih =>
    intro d hkk x
    rw [List.foldl_cons]
    have h0 := fwCell_frame k c.1 d c.2 hkk
    have h1 := ih (fwCell k c.1 d c.2) (by rw [(h0 k).1]; exact hkk) x
    exact ⟨h1.1.trans (h0 x).1, h1.2.trans (h0 x).2⟩

theorem fwCells_frame (k i : Nat) (js : List Nat) (d : List (List Int))
    (hkk : 0 ≤ mget d k k) (x : Nat) :
    mget (js.foldl (fwCell k i) d) x k = mget d x k ∧
      mget (js.foldl (fwCell k i) d) k x = mget d k x := by
  have h := fwCellSeq_frame k (js.map (fun j => (i, j))) d hkk x
  rw [List.foldl_map] at h
  exact h

theorem fwRow_frame (n k : Nat) (d : List (List Int)) (i : Nat) (hkk : 0 ≤ mget d k k)
    (x : Nat) :
    mget (fwRow n k d i) x k = mget d x k ∧ mget (fwRow n k d i) k x = mget d k x := by
  unfold fwRow
  split_ifs
  · exact ⟨rfl, rfl⟩
  · exact fwCells_frame k i _ d hkk x

theorem fwPass_frame (n k : Nat) (rows : List Nat) :
    ∀ (d : List (List Int)), 0 ≤ mget d k k → ∀ x,
      mget (fwPass n rows d k) x k = mget d x k ∧ mget (fwPass n rows d k) k x = mget d k x := by
  induction rows with
  | nil => exact fun _ _ _ => ⟨rfl, rfl⟩
  | cons i is ih =>
    intro d hkk x
    have h0 := fwRow_frame n k d i hkk
    have h1 := ih (fwRow n k d i) (by rw [(h0 k).1]; exact hkk) x
    exact ⟨h1.1.trans (h0 x).1, h1.2.trans (h0 x).2⟩

/-- C20: for every matrix and every pivot `k` with `dist[k][k] ≥ 0` at the start
of the pass, the pass for the pivot `k` changes no entry of the row `k` and no
entry of the column `k`: (1) after any rows processed in any order; (2) in the
middle of a row `i0`, after any columns `js` of it; (3) after any sequence of
cell updates `(i, j)` of the pass, as rows handled by several threads produce.
So every `dist[i][k]` and `dist[k][j]` read during the pass is the value at the
start of the pass. -/
theorem C20_pivot_frame (n k : Nat) (d : List (List Int)) (hkk : 0 ≤ mget d k k) :
    (∀ (rows : List Nat) (x : Nat), mget (fwPass n rows d k) x k = mget d x k ∧
        mget (fwPass n rows d k) k x = mget d k x) ∧
    (∀ (rows : List Nat) (i0 : Nat) (js : List Nat) (x : Nat),
      mget (js.foldl (fwCell k i0) (fwPass n rows d k)) x k = mget d x k ∧
        mget (js.foldl (fwCell k i0) (fwPass n rows d k)) k x = mget d k x) ∧
    (∀ (cells : List (Nat × Nat)) (x : Nat),
      mget (cells.foldl (fun m c => fwCell k c.1 m c.2) d) x k = mget d x k ∧
        mget (cells.foldl (fun m c => fwCell k c.1 m c.2) d) k x = mget d k x) := by
  refine ⟨fun rows x => fwPass_frame n k rows d hkk x, fun rows i0 js x => ?_,
    fun cells x => fwCellSeq_frame k cells d hkk x⟩
  have h1 := fwPass_frame n k rows d hkk
  have h2 := fwCells_frame k i0 js (fwPass n rows d k) (by rw [(h1 k).1]; exact hkk) x
  exact ⟨h2.1.trans (h1 x).1, h2.2.trans (h1 x).2⟩

/-- C20 at the matrix of `exDag`, pivot `1` (`dist[1][1] = 0`): the pass over
the rows `3, 0, 2, 1` leaves the row `1` and the column `1` as they were, and it
does change the matrix (`dist[0][2]` drops from 5 to 1). -/
theorem C20_pivot_frame_witness :
    (0 ≤ mget exDagM 1 1) ∧
    (∀ x, mget (fwPass 4 [3, 0, 2, 1] exDagM 1) x 1 = mget exDagM x 1 ∧
        mget (fwPass 4 [3, 0, 2, 1] exDagM 1) 1 x = mget exDagM 1 x) ∧
    mget exDagM 0 2 = 5 ∧ mget (fwPass 4 [3, 0, 2, 1] exDagM 1) 0 2 = 1 :=
  ⟨by decide, fun x => (C20_pivot_frame 4 1 exDagM (by decide)).1 [3, 0, 2, 1] x,
    by decide, by decide⟩

/-! ## The loaders -/

theorem foldl_skip {α β γ : Type} (p : α → Bool) (g : α → β) (f : γ → β → γ) :
    ∀ (l : List α) (init : γ),
      l.foldl (fun acc t => if p t then acc else f acc (g t)) init =
        ((l.filter (fun t => !p t)).map g).foldl f init
  | [], _ => rfl
  | t :: l, init => by
    rw [List.foldl_cons]
    cases hp : p t with
    | true =>
      rw [List.filter_cons_of_neg (by simp [hp])]
      simp only [if_true]
      exact foldl_skip p g f l init
    | false =>
      rw [List.filter_cons_of_pos (by simp [hp]), List.map_cons, List.foldl_cons]
      simp only [Bool.false_eq_true, if_false]
      exact foldl_skip p g f l (f init (g t))

theorem foldl_snoc_eq {β : Type} : ∀ (l init : List β),
    l.foldl (fun es e => es ++ [e]) init = init ++ l
  | [], init => by simp
  | e :: l, init => by
    rw [List.foldl_cons, foldl_snoc_eq l (init ++ [e])]
    simp

/-- The edge list of the Bellman-Ford loader is the list of the lines that pass
the range test. -/
theorem load_graph_bf_edges (n : Nat) (m : Int) (triples : List (Int × Int × Int)) :
    (load_graph_bf n m triples).1 = keptEdges n triples := by
  unfold load_graph_bf keptEdges
  simp only
  rw [foldl_skip (outOfRange n) toEdge (fun es e => es ++ [e]) triples [], foldl_snoc_eq]
  simp

/-- The Bellman-Ford loader leaves in `m` the number of lines that pass the
range test. -/
theorem load_graph_bf_count (n : Nat) (m : Int) (triples : List (Int × Int × Int)) :
    (load_graph_bf n m triples).2 =
      ((triples.filter (fun t => !outOfRange n t)).length : Int) := by
  have h := load_graph_bf_edges n m triples
  unfold load_graph_bf at h ⊢
  simp only at h ⊢
  rw [h]
  unfold keptEdges
  simp

/-- The adjacency list of the Dijkstra loader holds the lines that pass the
range test. -/
theorem load_graph_dj_adj (n : Nat) (m : Int) (triples : List (Int × Int × Int)) :
    (load_graph_dj n m triples).1 = toAdj n (keptEdges n triples) := by
  unfold load_graph_dj toAdj keptEdges
  simp only
  exact foldl_skip (outOfRange n) toEdge
    (fun (adj : List (List (Nat × Int))) (e : Edge) =>
      adj.set e.u (adj.getD e.u [] ++ [(e.v, e.w)])) triples _

/-- The matrix of the Floyd-Warshall loader is built from the lines that pass
the range test. -/
theorem load_matrix_fold (n : Nat) (m : Int) (triples : List (Int × Int × Int)) :
    (load_matrix n m triples).1 = (keptEdges n triples).foldl minWrite (initMatrix n) := by
  unfold load_matrix keptEdges
  simp only
  exact foldl_skip (outOfRange n) toEdge minWrite triples _

theorem mem_keptEdges {n : Nat} {triples : List (Int × Int × Int)} {e : Edge} :
    e ∈ keptEdges n triples ↔
      e.u < n ∧ e.v < n ∧ ((e.u : Int), (e.v : Int), e.w) ∈ triples := by
  unfold keptEdges
  simp only [List.mem_map, List.mem_filter, Bool.not_eq_true', outOfRange,
    decide_eq_false_iff_not, not_or, not_lt, not_le]
  constructor
  · rintro ⟨t, ⟨ht, h1, h2, h3, h4⟩, rfl⟩
    obtain ⟨a, b, w⟩ := t
    simp only [toEdge] at *
    refine ⟨by omega, by omega, ?_⟩
    rw [Int.toNat_of_nonneg h1, Int.toNat_of_nonneg h3]
    exact ht
  · rintro ⟨h1, h2, h3⟩
    refine ⟨((e.u : Int), (e.v : Int), e.w), ⟨h3, by simp, by simpa using h1, by simp,
      by simpa using h2⟩, ?_⟩
    cases e
    simp [toEdge]

theorem replicate_square (n : Nat) :
    Square n (List.replicate n (List.replicate n INF_FW)) := by
  refine ⟨by simp, fun i hi => ?_⟩
  simp [List.getD_eq_getElem?_getD, List.getElem?_replicate, hi]

theorem mget_replicate (n i j : Nat) (hi : i < n) (hj : j < n) :
    mget (List.replicate n (List.replicate n INF_FW)) i j = INF_FW := by
  unfold mget rd
  simp [List.getD_eq_getElem?_getD, List.getElem?_replicate, hi, hj]

theorem initMatrix_fold (n : Nat) : ∀ (l : List Nat) (d : List (List Int)), Square n d →
    (∀ i ∈ l, i < n) →
      Square n (l.foldl (fun d i => mset d i i 0) d) ∧
        ∀ i j, i < n → j < n →
          mget (l.foldl (fun d i => mset d i i 0) d) i j =
            if i = j ∧ i ∈ l then 0 else mget d i j
  | [], d, hd, _ => ⟨hd, fun i j _ _ => by simp⟩
  | a :: l, d, hd, hl => by
    have ha : a < n := hl a (List.mem_cons_self _ _)
    obtain ⟨h1, h2⟩ := initMatrix_fold n l (mset d a a 0) (mset_square hd a a 0)
      (fun i hi => hl i (List.mem_cons_of_mem _ hi))
    rw [List.foldl_cons]
    refine ⟨h1, fun i j hi hj => ?_⟩
    rw [h2 i j hi hj, mget_mset hd ha ha]
    by_cases hij : i = j
    · subst hij
      by_cases hil : i ∈ l
      · simp [hil]
      · by_cases hai : a = i
        · simp [hai]
        · have : ¬ (i = a) := fun h => hai h.symm
          simp [hil, hai, this]
    · simp [hij]
      intro h1' h2'
      omega

theorem initMatrix_square (n : Nat) : Square n (initMatrix n) :=
  (initMatrix_fold n (List.range n) _ (replicate_square n)
    (fun _ hi => List.mem_range.1 hi)).1

theorem mget_initMatrix (n : Nat) {i j : Nat} (hi : i < n) (hj : j < n) :
    mget (initMatrix n) i j = if i = j then 0 else INF_FW := by
  have := (initMatrix_fold n (List.range n) _ (replicate_square n)
    (fun _ hi => List.mem_range.1 hi)).2 i j hi hj
  unfold initMatrix
  rw [this, mget_replicate n i j hi hj]
  by_cases hij : i = j
  · simp [hij, hj]
  · simp [hij]

/-- The loop of `load_matrix` leaves in every entry the smallest of its start
value and the weights of the kept edges of that entry. -/
theorem minWrite_fold (n : Nat) : ∀ (E : List Edge) (d : List (List Int)), Square n d →
    (∀ e ∈ E, e.u < n ∧ e.v < n) →
      Square n (E.foldl minWrite d) ∧
        ∀ i j, i < n → j < n →
          mget (E.foldl minWrite d) i j ≤ mget d i j ∧
          (∀ e ∈ E, e.u = i → e.v = j → mget (E.foldl minWrite d) i j ≤ e.w) ∧
          (mget (E.foldl minWrite d) i j = mget d i j ∨
            ∃ e ∈ E, e.u = i ∧ e.v = j ∧ e.w = mget (E.foldl minWrite d) i j)
  | [], d, hd, _ => ⟨hd, fun i j _ _ => ⟨le_refl _, by simp, Or.inl rfl⟩⟩
  | e :: E, d, hd, hE => by
    have he := hE e (List.mem_cons_self _ _)
    have hsq : Square n (minWrite d e) := mset_square hd _ _ _
    obtain ⟨h1, h2⟩ := minWrite_fold n E (minWrite d e) hsq
      (fun e' he' => hE e' (List.mem_cons_of_mem _ he'))
    rw [List.foldl_cons]
    refine ⟨h1, fun i j hi hj => ?_⟩
    obtain ⟨g1, g2, g3⟩ := h2 i j hi hj
    have hstep : mget (minWrite d e) i j =
        if e.u = i ∧ e.v = j then min (mget d e.u e.v) e.w else mget d i j := by
      unfold minWrite
      rw [mget_mset hd he.1 he.2]
    by_cases hc : e.u = i ∧ e.v = j
    · rw [if_pos hc, hc.1, hc.2] at hstep
      refine ⟨?_, ?_, ?_⟩
      · rw [hstep] at g1
        exact le_trans g1 (min_le_left _ _)
      · intro e' he' hu hv
        rcases List.mem_cons.1 he' with rfl | he'
        · rw [hstep] at g1
          exact le_trans g1 (min_le_right _ _)
        · exact g2 e' he' hu hv
      · rcases g3 with g3 | ⟨e', he', g3⟩
        · rw [hstep] at g3
          rcases min_choice (mget d i j) e.w with hm | hm
          · left
            rw [g3, hm]
          · right
            exact ⟨e, List.mem_cons_self _ _, hc.1, hc.2, by rw [g3, hm]⟩
        · right
          exact ⟨e', List.mem_cons_of_mem _ he', g3⟩
    · rw [if_neg hc] at hstep
      refine ⟨?_, ?_, ?_⟩
      · rw [hstep] at g1
        exact g1
      · intro e' he' hu hv
        rcases List.mem_cons.1 he' with rfl | he'
        · exact absurd ⟨hu, hv⟩ hc
        · exact g2 e' he' hu hv
      · rcases g3 with g3 | ⟨e', he', g3⟩
        · left
          rw [g3, hstep]
        · right
          exact ⟨e', List.mem_cons_of_mem _ he', g3⟩

/-- The matrix of `load_matrix`: every entry is the smallest of its start value
(`0` on the diagonal, `INF` elsewhere) and the weights of the input lines
`i j w` that pass the range test. -/
theorem load_matrix_spec (n : Nat) (m : Int) (triples : List (Int × Int × Int)) :
    Square n (load_matrix n m triples).1 ∧
      ∀ i j, i < n → j < n →
        mget (load_matrix n m triples).1 i j ≤ (if i = j then 0 else INF_FW) ∧
        (∀ w, ((i : Int), (j : Int), w) ∈ triples → mget (load_matrix n m triples).1 i j ≤ w) ∧
        (mget (load_matrix n m triples).1 i j = (if i = j then 0 else INF_FW) ∨
          ((i : Int), (j : Int), mget (load_matrix n m triples).1 i j) ∈ triples) := by
  rw [load_matrix_fold]
  obtain ⟨h1, h2⟩ := minWrite_fold n (keptEdges n triples) (initMatrix n) (initMatrix_square n)
    (fun e he => ⟨(mem_keptEdges.1 he).1, (mem_keptEdges.1 he).2.1⟩)
  refine ⟨h1, fun i j hi hj => ?_⟩
  obtain ⟨g1, g2, g3⟩ := h2 i j hi hj
  rw [mget_initMatrix n hi hj] at g1 g3
  refine ⟨g1, fun w hw => ?_, ?_⟩
  · exact g2 ⟨i, j, w⟩ (mem_keptEdges.2 ⟨hi, hj, hw⟩) rfl rfl
  · rcases g3 with g3 | ⟨e, he, hu, hv, hw⟩
    · exact Or.inl g3
    · right
      have := (mem_keptEdges.1 he).2.2
      rw [hu, hv, hw] at this
      exact this

/-! ## Loaders: results -/

/-- C14: every line with `u` or `v` outside `[0,n)` is dropped by the three
loaders (the edge list, the adjacency list and the matrix are built from the
kept lines only) and `load_graph` of Bellman-Ford leaves in `m` the number of
kept lines; `load_graph` of Dijkstra and `load_matrix` leave the header value
in `m`: on the header `2 1` and the line `0 5 1` they report `m = 1` with no
edge kept, where Bellman-Ford reports `m = 0`. -/
theorem C14_loader_edge_count :
    (∀ (n : Nat) (m : Int) (triples : List (Int × Int × Int)),
      (load_graph_bf n m triples).1 = keptEdges n triples ∧
      (load_graph_dj n m triples).1 = toAdj n (keptEdges n triples) ∧
      (load_matrix n m triples).1 = (keptEdges n triples).foldl minWrite (initMatrix n) ∧
      (load_graph_bf n m triples).2 =
        ((triples.filter (fun t => !outOfRange n t)).length : Int) ∧
      (load_graph_dj n m triples).2 = m ∧ (load_matrix n m triples).2 = m) ∧
    (([(0, 5, 1)] : List (Int × Int × Int)).filter (fun t => !outOfRange 2 t)).length = 0 ∧
    load_graph_bf 2 1 [(0, 5, 1)] = ([], 0) ∧
    load_graph_dj 2 1 [(0, 5, 1)] = ([[], []], 1) ∧
    load_matrix 2 1 [(0, 5, 1)] = ([[0, INF_FW], [INF_FW, 0]], 1) :=
  ⟨fun n m triples => ⟨load_graph_bf_edges n m triples, load_graph_dj_adj n m triples,
      load_matrix_fold n m triples, load_graph_bf_count n m triples, rfl, rfl⟩,
    by decide, by decide, by decide, by decide⟩

/-- C19 as stated fails: on the header `1 1` and the line `0 0 -1` the matrix
returned by `load_matrix` has `dist[0][0] = -1`. -/
theorem C19_counterexample :
    (load_matrix 1 1 [(0, 0, -1)]).1 = [[-1]] ∧ mget (load_matrix 1 1 [(0, 0, -1)]).1 0 0 ≠ 0 := by
  decide

/-- C19 (amended): for every header `(n, m)` and every list of input lines
(with `int` weights), the matrix returned by `load_matrix` is square; on the
diagonal `dist[i][i]` is the smaller of `0` and the smallest weight of an input
self-loop `i → i`, so it is `0` when no input self-loop at `i` is negative; for
`i ≠ j`, `dist[i][j]` is the smallest weight among the in-range input edges
`i → j`, or `INF` when there is none. -/
theorem C19_load_matrix_invariant (n : Nat) (m : Int) (triples : List (Int × Int × Int))
    (hw : ∀ t ∈ triples, t.2.2 ≤ INT_MAX) (i j : Nat) (hi : i < n) (hj : j < n) :
    Square n (load_matrix n m triples).1 ∧
    (i = j →
      mget (load_matrix n m triples).1 i j ≤ 0 ∧
      (∀ w, ((i : Int), (j : Int), w) ∈ triples → mget (load_matrix n m triples).1 i j ≤ w) ∧
      (mget (load_matrix n m triples).1 i j = 0 ∨
        ((i : Int), (j : Int), mget (load_matrix n m triples).1 i j) ∈ triples) ∧
      ((∀ w, ((i : Int), (j : Int), w) ∈ triples → 0 ≤ w) →
        mget (load_matrix n m triples).1 i j = 0)) ∧
    (i ≠ j →
      ((∃ w, ((i : Int), (j : Int), w) ∈ triples) →
        ((i : Int), (j : Int), mget (load_matrix n m triples).1 i j) ∈ triples ∧
        ∀ w, ((i : Int), (j : Int), w) ∈ triples → mget (load_matrix n m triples).1 i j ≤ w) ∧
      ((¬ ∃ w, ((i : Int), (j : Int), w) ∈ triples) →
        mget (load_matrix n m triples).1 i j = INF_FW)) := by
  obtain ⟨hsq, hall⟩ := load_matrix_spec n m triples
  obtain ⟨g1, g2, g3⟩ := hall i j hi hj
  refine ⟨hsq, fun hij => ?_, fun hij => ?_⟩
  · rw [if_pos hij] at g1 g3
    refine ⟨g1, g2, g3, fun hnn => ?_⟩
    rcases g3 with g3 | g3
    · exact g3
    · exact le_antisymm g1 (hnn _ g3)
  · rw [if_neg hij] at g1 g3
    constructor
    · rintro ⟨w, hwm⟩
      refine ⟨?_, g2⟩
      rcases g3 with g3 | g3
      · exfalso
        have h1 := g2 w hwm
        have h2 := hw _ hwm
        have h3 : INT_MAX < INF_FW := by decide
        simp only at h2
        omega
      · exact g3
    · intro hno
      rcases g3 with g3 | g3
      · exact g3
      · exact absurd ⟨_, g3⟩ hno

/-- C19 (amended) on the header `3 4` and the lines `0 1 5`, `0 1 3`, `2 2 7`,
`1 0 -2`, at the entry `[0][1]`. -/
theorem C19_load_matrix_invariant_witness :
    (load_matrix 3 4 [(0, 1, 5), (0, 1, 3), (2, 2, 7), (1, 0, -2)]).1 =
        [[0, 3, INF_FW], [-2, 0, INF_FW], [INF_FW, INF_FW, 0]] ∧
      ∀ w, ((0 : Int), (1 : Int), w) ∈
          ([(0, 1, 5), (0, 1, 3), (2, 2, 7), (1, 0, -2)] : List (Int × Int × Int)) →
        mget (load_matrix 3 4 [(0, 1, 5), (0, 1, 3), (2, 2, 7), (1, 0, -2)]).1 0 1 ≤ w :=
  ⟨by decide,
    ((C19_load_matrix_invariant 3 4 [(0, 1, 5), (0, 1, 3), (2, 2, 7), (1, 0, -2)] (by decide)
      0 1 (by decide) (by decide)).2.2 (by decide)).1 ⟨5, by decide⟩ |>.2⟩

/-! ## Reachability and the summary -/

/-- A walk can be replaced by one between the same vertices that repeats no vertex. -/
theorem shorten_reach {G : Edge → Prop} : ∀ (q : List Edge) (a b : Nat), IsWalk G a q b →
    ∃ q', IsWalk G a q' b ∧ (a :: q'.map Edge.v).Nodup
  | [], a, b, hq => ⟨[], hq, by simp⟩
  | e :: r, a, b, hq => by
    obtain ⟨r', hr', hnd⟩ := shorten_reach r e.v b hq.2.2
    by_cases hmem : a ∈ e.v :: r'.map Edge.v
    · obtain ⟨r1, r2, _, _, h2, hsub⟩ := IsWalk.split_at hr' hmem
      exact ⟨r2, h2, hnd.sublist hsub⟩
    · refine ⟨e :: r', ⟨hq.1, hq.2.1, hr'⟩, ?_⟩
      simp only [List.map_cons]
      exact List.nodup_cons.2 ⟨hmem, hnd⟩

/-- A reachable vertex is reached by a walk with fewer than `n` edges. -/
theorem reach_short {G : Edge → Prop} {n s v : Nat} (hG : InRange G n) (hs : s < n)
    (h : Reachable G s v) : ∃ q, IsWalk G s q v ∧ q.length < n := by
  obtain ⟨p, hp⟩ := h
  obtain ⟨q, hq, hnd⟩ := shorten_reach p s v hp
  refine ⟨q, hq, ?_⟩
  have hlen := nodup_length_le hnd (n := n) (by
    intro x hx
    rcases List.mem_cons.1 hx with rfl | hx
    · exact hs
    · exact IsWalk.verts_lt hG hq x hx)
  simp only [List.length_cons, List.length_map] at hlen
  omega

/-- The result of `bellman_ford_seq` is below every walk of fewer than `n`
edges that the engine can follow. -/
theorem bellman_ford_seq_le_short {edges : List Edge} {s n : Nat}
    (hG : InRange (edgeGraph edges) n) (hs : s < n) {p : List Edge} {v : Nat}
    (hp : IsWalk (edgeGraph edges) s p v) (ha : Adm 0 p) (hl : p.length < n) :
    rd (bellman_ford_seq edges n s) v ≤ weight p := by
  rw [bellman_ford_seq_eq_ord]
  obtain ⟨_, _, h0, hF⟩ := @bfOrdLoop_spec (edgeGraph edges) s n hG
    (fun _ => edges) (fun _ _ he => he) (fun _ _ he => he) (n - 1) 0 0 _
    (init_length n s) (init_sound _ n s) (init_upto _ n s hs)
  rcases hF with hF | hU
  · exact hF.le_walk h0 hp ha
  · exact hU p v hp ha (by omega)

/-- When the walks from the source with fewer than `n` edges weigh less than
`INF`, the entries below `INF` are those of the reachable vertices. -/
theorem bellman_ford_seq_reach {edges : List Edge} {s n : Nat}
    (hG : InRange (edgeGraph edges) n) (hs : s < n)
    (hfit : ∀ p v, IsWalk (edgeGraph edges) s p v → p.length < n → weight p < INF)
    {v : Nat} (hv : v < n) :
    (rd (bellman_ford_seq edges n s) v < INF ↔ Reachable (edgeGraph edges) s v) ∧
      (¬ Reachable (edgeGraph edges) s v → rd (bellman_ford_seq edges n s) v = INF) := by
  obtain ⟨hlen, hS, _⟩ := bellman_ford_seq_sound hG hs
  have hfwd : rd (bellman_ford_seq edges n s) v ≠ INF → Reachable (edgeGraph edges) s v := by
    intro hne
    obtain ⟨p, hp, _, _⟩ := hS v (by rw [hlen]; exact hv) hne
    exact ⟨p, hp⟩
  refine ⟨⟨fun hlt => hfwd (by omega), fun hr => ?_⟩, fun hnr => ?_⟩
  · obtain ⟨q, hq, hql⟩ := reach_short hG hs hr
    have hadm : Adm 0 q := by
      have := adm_of_prefix_bound q s v [] rfl hq (by
        intro p' v' hp' hl
        apply hfit p' v' hp'
        simp only [List.length_nil, zero_add] at hl
        omega)
      simpa [weight_nil] using this
    have h1 := bellman_ford_seq_le_short hG hs hq hadm hql
    have h2 := hfit q v hq hql
    omega
  · by_contra hne
    exact hnr (hfwd hne)

/-- Without an edge out of the source every other vertex stays at `INF`. -/
theorem bellman_ford_seq_isolated {edges : List Edge} {s n : Nat}
    (hG : InRange (edgeGraph edges) n) (hs : s < n) (hout : ∀ e ∈ edges, e.u ≠ s)
    {v : Nat} (hv : v < n) (hvs : v ≠ s) : rd (bellman_ford_seq edges n s) v = INF := by
  obtain ⟨hlen, hS, _⟩ := bellman_ford_seq_sound hG hs
  by_contra hne
  obtain ⟨p, hp, _, _⟩ := hS v (by rw [hlen]; exact hv) hne
  match p, hp with
  | [], hp =>
    simp only [IsWalk] at hp
    exact hvs hp.symm
  | e :: _, hp => exact hout e hp.1 hp.2.1

theorem summarize_fold (dist : List Int) : ∀ (l : List Nat) (st : Nat × Int),
    (l.foldl (fun st i =>
      if rd dist i < INF then (st.1 + 1, if rd dist i > st.2 then rd dist i else st.2) else st)
      st).1 = st.1 + l.countP (fun i => decide (rd dist i < INF))
  | [], st => by simp
  | i :: l, st => by
    rw [List.foldl_cons, summarize_fold dist l]
    by_cases h : rd dist i < INF
    · simp [h]
      omega
    · simp [h]

/-- The count `reached` of `summarize` is the number of entries below `INF`. -/
theorem summarize_count (dist : List Int) :
    (summarize dist).1 =
      (List.range dist.length).countP (fun i => decide (rd dist i < INF)) := by
  unfold summarize
  rw [summarize_fold]
  simp

theorem countP_range_ncard (n : Nat) (p : Nat → Bool) (q : Nat → Prop)
    (h : ∀ v, v < n → (p v = true ↔ q v)) :
    (List.range n).countP p = Set.ncard {v | v < n ∧ q v} := by
  have hset : {v | v < n ∧ q v} = ↑((Finset.range n).filter (fun v => p v = true)) := by
    ext v
    simp only [Set.mem_setOf_eq, Finset.coe_filter, Finset.mem_range]
    constructor
    · rintro ⟨h1, h2⟩
      exact ⟨h1, (h v h1).2 h2⟩
    · rintro ⟨h1, h2⟩
      exact ⟨h1, (h v h1).1 h2⟩
  rw [hset, Set.ncard_coe_Finset, Finset.card_def, Finset.filter_val, Finset.range_val,
    ← Multiset.countP_eq_card_filter]
  show _ = Multiset.countP _ (↑(List.range n) : Multiset Nat)
  rw [Multiset.coe_countP]
  congr 1
  funext v
  simp

/-! ## Reachability summary: results -/

theorem exDisc_inRange : InRange (edgeGraph exDisc) 3 := by
  intro e he
  have : ∀ e ∈ exDisc, e.u < 3 ∧ e.v < 3 := by decide
  exact this e he

theorem exDisc_fit : ∀ p v, IsWalk (edgeGraph exDisc) 0 p v → p.length < 3 → weight p < INF := by
  intro p v hp hl
  have hb : ∀ e, edgeGraph exDisc e → e.w ≤ 4 := by
    intro e he
    have : ∀ e ∈ exDisc, e.w ≤ 4 := by decide
    exact this e he
  have h1 := weight_le_of_bound hb hp
  have h2 : ((p.length : Nat) : Int) < 3 := by exact_mod_cast hl
  have h3 : INF = 1000000000000000000 := rfl
  omega

/-- On a long enough path the last vertex is reachable and stays at `INF`. -/
theorem bf_path_unreached (N : Nat) (W : Int) (hbig : INF < (N : Int) * W) :
    rd (bellman_ford_seq (pathEdges N W) (N + 1) 0) N = INF := by
  obtain ⟨hlen, hS, _⟩ := bellman_ford_seq_sound (pathEdges_inRange N W) (Nat.succ_pos N)
  by_contra hne
  obtain ⟨p, hp, ha, hw⟩ := hS N (by rw [hlen]; omega) hne
  have hpw := path_walk_weight (G := edgeGraph (pathEdges N W)) (W := W)
    (fun e he => (mem_pathEdges.1 he).2) hp
  have hlt := Adm.weight_lt ha
  rw [hpw] at hlt
  simp only [Nat.cast_zero, sub_zero] at hlt
  omega

/-- C12 as stated fails: on the path `0 → 1 → ... → 465661288` with every
weight `2147483647` (an `int`), the last vertex is reachable from the source
and `bellman_ford_seq` leaves it at `INF`. -/
theorem C12_counterexample :
    (0 : Nat) < 465661289 ∧
    InRange (edgeGraph (pathEdges 465661288 2147483647)) 465661289 ∧
    WeightsFitInt (pathEdges 465661288 2147483647) ∧
    Reachable (edgeGraph (pathEdges 465661288 2147483647)) 0 465661288 ∧
    rd (bellman_ford_seq (pathEdges 465661288 2147483647) 465661289 0) 465661288 = INF :=
  ⟨Nat.succ_pos _, pathEdges_inRange _ _, pathEdges_fit _ (by decide) (by decide),
    pathEdges_reach _ _, bf_path_unreached 465661288 2147483647 (by decide)⟩

/-- C12 (amended): for every n >= 1, source in [0,n) and in-range edge list
(negative weights and cycles allowed) in which every walk from the source with
fewer than n edges weighs less than `INF`, the vector returned by
`bellman_ford_seq` has `dist[v] < INF` exactly when `v` is reachable from the
source and `dist[v] = INF` otherwise, so the count `reached` of `summarize` is
the number of vertices reachable from the source; and a source with no
outgoing edge leaves every other vertex at `INF`. -/
theorem C12_reached_count (edges : List Edge) (n source : Nat) (hs : source < n)
    (hE : InRange (edgeGraph edges) n)
    (hfit : ∀ p v, IsWalk (edgeGraph edges) source p v → p.length < n → weight p < INF) :
    (∀ v, v < n →
      (rd (bellman_ford_seq edges n source) v < INF ↔ Reachable (edgeGraph edges) source v) ∧
      (¬ Reachable (edgeGraph edges) source v → rd (bellman_ford_seq edges n source) v = INF)) ∧
    (summarize (bellman_ford_seq edges n source)).1 =
      Set.ncard {v | v < n ∧ Reachable (edgeGraph edges) source v} ∧
    ((∀ e ∈ edges, e.u ≠ source) → ∀ v, v < n → v ≠ source →
      rd (bellman_ford_seq edges n source) v = INF) := by
  refine ⟨fun v hv => bellman_ford_seq_reach hE hs hfit hv, ?_,
    fun hout v hv hvs => bellman_ford_seq_isolated hE hs hout hv hvs⟩
  rw [summarize_count, (bellman_ford_seq_sound hE hs).1]
  apply countP_range_ncard
  intro v hv
  rw [decide_eq_true_iff]
  exact (bellman_ford_seq_reach hE hs hfit hv).1

/-- C12 (amended) at `n=3`, the single edge `(0,1,4)`, source `0`: the vector
is `[0,4,INF]` and 2 of the 3 vertices are reached. -/
theorem C12_reached_count_witness :
    bellman_ford_seq exDisc 3 0 = [0, 4, INF] ∧
      (summarize (bellman_ford_seq exDisc 3 0)).1 = 2 ∧
      (summarize (bellman_ford_seq exDisc 3 0)).1 =
        Set.ncard {v | v < 3 ∧ Reachable (edgeGraph exDisc) 0 v} :=
  ⟨by decide, by decide,
    (C12_reached_count exDisc 3 0 (by decide) exDisc_inRange exDisc_fit).2.1⟩

/-! ## The pivot loop without assumptions on cycles -/

theorem fwCell_square {n : Nat} {d : List (List Int)} (hd : Square n d) (k i j : Nat) :
    Square n (fwCell k i d j) := by
  unfold fwCell
  split_ifs
  · exact hd
  · exact mset_square hd _ _ _
  · exact hd

theorem fwCells_square {n : Nat} (k i : Nat) (js : List Nat) : ∀ (d : List (List Int)),
    Square n d → Square n (js.foldl (fwCell k i) d) := by
  induction js with
  | nil => intro d hd; exact hd
  | cons j js ih => intro d hd; exact ih _ (fwCell_square hd k i j)

theorem fwRow_square {n : Nat} {d : List (List Int)} (hd : Square n d) (k i : Nat) :
    Square n (fwRow n k d i) := by
  unfold fwRow
  split_ifs
  · exact hd
  · exact fwCells_square k i _ d hd

theorem fwRows_square {n : Nat} (k : Nat) (rows : List Nat) : ∀ (d : List (List Int)),
    Square n d → Square n (rows.foldl (fwRow n k) d) := by
  induction rows with
  | nil => intro d hd; exact hd
  | cons i rows ih => intro d hd; exact ih _ (fwRow_square hd k i)

theorem fwCell_ginv {G : Edge → Prop} {n k i j : Nat} {d : List (List Int)}
    (h : GInv G n d) (hk : k < n) (hi : i < n) (hj : j < n) (hik : mget d i k ≠ INF_FW) :
    GInv G n (fwCell k i d j) := by
  obtain ⟨h1, h2, h3⟩ := h
  unfold fwCell
  split_ifs with c1 c2
  · exact ⟨h1, h2, h3⟩
  · refine ⟨mset_square h1 _ _ _, fun a b ha hb hne => ?_, fun a b ha hb => ?_⟩
    · rw [mget_mset h1 hi hj] at hne ⊢
      split_ifs at hne ⊢ with c3
      · obtain ⟨p1, hp1, hw1⟩ := h2 i k hi hk hik
        obtain ⟨p2, hp2, hw2⟩ := h2 k j hk hj c1
        rw [← c3.1, ← c3.2]
        exact ⟨p1 ++ p2, IsWalk.walk_append hp1 hp2, by rw [weight_append, hw1, hw2]⟩
      · exact h2 a b ha hb hne
    · rw [mget_mset h1 hi hj]
      split_ifs with c3
      · have := h3 i j hi hj
        omega
      · exact h3 a b ha hb
  · exact ⟨h1, h2, h3⟩

theorem fwCells_ginv {G : Edge → Prop} {n k i : Nat} (hk : k < n) (hi : i < n)
    (js : List Nat) : ∀ (d : List (List Int)), GInv G n d → (∀ j ∈ js, j < n) →
      mget d i k < INF_FW → GInv G n (js.foldl (fwCell k i) d) := by
  induction js with
  | nil => intro d h _ _; exact h
  | cons j js ih =>
    intro d h hjs hik
    rw [List.foldl_cons]
    refine ih _ (fwCell_ginv h hk hi (hjs j (List.mem_cons_self _ _)) (by omega))
      (fun x hx => hjs x (List.mem_cons_of_mem _ hx)) ?_
    exact lt_of_le_of_lt (fwCell_le k i d j i k) hik

theorem fwRow_ginv {G : Edge → Prop} {n k i : Nat} {d : List (List Int)} (h : GInv G n d)
    (hk : k < n) (hi : i < n) : GInv G n (fwRow n k d i) := by
  unfold fwRow
  split_ifs with c
  · exact h
  · have := h.2.2 i k hi hk
    exact fwCells_ginv hk hi _ d h (fun j hj => List.mem_range.1 hj) (by omega)

theorem fwPass_ginv {G : Edge → Prop} {n k : Nat} (hk : k < n) (rows : List Nat) :
    ∀ (d : List (List Int)), GInv G n d → (∀ i ∈ rows, i < n) →
      GInv G n (fwPass n rows d k) := by
  unfold fwPass
  induction rows with
  | nil => intro d h _; exact h
  | cons i rows ih =>
    intro d h hrows
    rw [List.foldl_cons]
    exact ih _ (fwRow_ginv h hk (hrows i (List.mem_cons_self _ _)))
      (fun x hx => hrows x (List.mem_cons_of_mem _ hx))

theorem ginv_start {n : Nat} {m : List (List Int)} (hm : Square n m)
    (hle : ∀ i j, i < n → j < n → mget m i j ≤ INF_FW) : GInv (matGraph n m) n m :=
  ⟨hm, (FWInv.init hm).2.1, hle⟩

/-! ## Relaxation through the pivot -/

theorem fwCell_relaxed {n k i j : Nat} {d : List (List Int)} (hd : Square n d) (hi : i < n)
    (hj : j < n) (hkj : mget d k j ≠ INF_FW) :
    mget (fwCell k i d j) i j ≤ mget d i k + mget d k j := by
  unfold fwCell
  rw [if_neg hkj]
  split_ifs with c
  · rw [mget_mset hd hi hj, if_pos ⟨rfl, rfl⟩]
  · exact not_lt.1 c

theorem fwCells_relaxed {n k i j : Nat} (hi : i < n) (hj : j < n) (js : List Nat) :
    ∀ (d : List (List Int)), Square n d → j ∈ js → mget d k j < INF_FW →
      mget (js.foldl (fwCell k i) d) i j ≤ mget d i k + mget d k j := by
  induction js with
  | nil => intro d _ hm _; simp at hm
  | cons a js ih =>
    intro d hd hm hkj
    rw [List.foldl_cons]
    by_cases haj : a = j
    · subst haj
      exact le_trans (fwCells_le k i js _ i a) (fwCell_relaxed hd hi hj (by omega))
    · have hm' : j ∈ js := by
        rcases List.mem_cons.1 hm with h | h
        · exact absurd h.symm haj
        · exact h
      have h1 := fwCell_le k i d a i k
      have h2 := fwCell_le k i d a k j
      have := ih (fwCell k i d a) (fwCell_square hd k i a) hm' (by omega)
      omega

theorem fwRow_relaxed {n k i j : Nat} {d : List (List Int)} (hd : Square n d) (hi : i < n)
    (hj : j < n) (hik : mget d i k < INF_FW) (hkj : mget d k j < INF_FW) :
    mget (fwRow n k d i) i j ≤ mget d i k + mget d k j := by
  unfold fwRow
  rw [if_neg (by omega)]
  exact fwCells_relaxed hi hj _ d hd (List.mem_range.2 hj) hkj

/-- A pass that takes the row `i` relaxes every entry of the row through the
pivot: `dist[i][j] ≤ dist[i][k] + dist[k][j]` for the start-of-pass values
below `INF`. -/
theorem fwPass_relaxed {n k i j : Nat} (hi : i < n) (hj : j < n) (rows : List Nat) :
    ∀ (d : List (List Int)), Square n d → i ∈ rows → mget d i k < INF_FW →
      mget d k j < INF_FW → mget (fwPass n rows d k) i j ≤ mget d i k + mget d k j := by
  unfold fwPass
  induction rows with
  | nil => intro d _ hm _ _; simp at hm
  | cons a rows ih =>
    intro d hd hm hik hkj
    rw [List.foldl_cons]
    by_cases hai : a = i
    · subst hai
      exact le_trans (fwRows_le n k rows _ a j) (fwRow_relaxed hd hi hj hik hkj)
    · have hm' : i ∈ rows := by
        rcases List.mem_cons.1 hm with h | h
        · exact absurd h.symm hai
        · exact h
      have h1 := fwRow_le n k d a i k
      have h2 := fwRow_le n k d a k j
      have := ih (fwRow n k d a) (fwRow_square hd k a) hm' (by omega) (by omega)
      omega

/-! ## Walks with distinct intermediate vertices -/

/-- A walk can be cut at any of its intermediate vertices. -/
theorem walk_split_interm {G : Edge → Prop} {k : Nat} : ∀ (p : List Edge) (a b : Nat),
    IsWalk G a p b → k ∈ interm p →
    ∃ p1 p2, p = p1 ++ p2 ∧ IsWalk G a p1 k ∧ IsWalk G k p2 b ∧
      interm p = interm p1 ++ k :: interm p2
  | [], _, _, _, hk => by simp [interm] at hk
  | e :: q, a, b, hp, hk => by
    by_cases hq : q = []
    · subst hq
      simp [interm] at hk
    · have hqw : IsWalk G e.v q b := hp.2.2
      have hic := interm_cons_nonempty hqw hq
      rw [hic] at hk ⊢
      by_cases hek : k = e.v
      · exact ⟨[e], q, rfl, ⟨hp.1, hp.2.1, hek.symm⟩, hek ▸ hqw, by simp [interm, hek]⟩
      · have hk' : k ∈ interm q := by
          rcases List.mem_cons.1 hk with h | h
          · exact absurd h hek
          · exact h
        obtain ⟨q1, q2, hdec, h1, h2, h3⟩ := walk_split_interm q e.v b hqw hk'
        have hq1 : q1 ≠ [] := by
          intro hnil
          subst hnil
          simp only [IsWalk] at h1
          exact hek h1.symm
        refine ⟨e :: q1, q2, by rw [hdec]; rfl, ⟨hp.1, hp.2.1, h1⟩, h2, ?_⟩
        rw [interm_cons_nonempty h1 hq1, h3]
        rfl

/-- A pass that relaxes through the pivot `k` extends the reach of the matrix
to the walks that visit `k` once. -/
theorem compS_succ {G : Edge → Prop} {n k : Nat} {d d' : List (List Int)} (hk : k < n)
    (hK : CompS G n k d)
    (hle : ∀ i j, i < n → j < n → mget d' i j ≤ mget d i j)
    (hrel : ∀ i j, i < n → j < n → mget d i k < INF_FW → mget d k j < INF_FW →
      mget d' i j ≤ mget d i k + mget d k j) :
    CompS G n (k + 1) d' := by
  intro i j p hi hj hp ht hnd hint
  by_cases hmem : k ∈ interm p
  · obtain ⟨p1, p2, hdec, h1, h2, h3⟩ := walk_split_interm p i j hp hmem
    rw [h3] at hnd hint
    have hnd1 : (interm p1).Nodup := (List.nodup_append.1 hnd).1
    have hnd2' : (k :: interm p2).Nodup := (List.nodup_append.1 hnd).2.1
    have hdisj := (List.nodup_append.1 hnd).2.2
    have hlt1 : ∀ x ∈ interm p1, x < k := by
      intro x hx
      have h4 := hint x (List.mem_append_left _ hx)
      have h5 : x ≠ k := fun hxk => hdisj hx (hxk ▸ List.mem_cons_self _ _)
      omega
    have hlt2 : ∀ x ∈ interm p2, x < k := by
      intro x hx
      have h4 := hint x (List.mem_append_right _ (List.mem_cons_of_mem _ hx))
      have h5 : x ≠ k := fun hxk => (List.nodup_cons.1 hnd2').1 (hxk ▸ hx)
      omega
    have hi1 : p1 <:+: p := by
      rw [hdec]
      exact (List.prefix_append p1 p2).isInfix
    have hi2 : p2 <:+: p := by
      rw [hdec]
      exact (List.suffix_append p1 p2).isInfix
    have hw1 := hK i k p1 hi hk h1 (tame_part ht hi1) hnd1 hlt1
    have hw2 := hK k j p2 hk hj h2 (tame_part ht hi2) (List.nodup_cons.1 hnd2').2 hlt2
    have hl1 := tame_total_lt (tame_part ht hi1)
    have hl2 := tame_total_lt (tame_part ht hi2)
    have := hrel i j hi hj (by omega) (by omega)
    rw [hdec, weight_append]
    omega
  · have hlt : ∀ x ∈ interm p, x < k := by
      intro x hx
      have h4 := hint x hx
      have h5 : x ≠ k := fun hxk => hmem (hxk ▸ hx)
      omega
    exact le_trans (hle i j hi hj) (hK i j p hi hj hp ht hnd hlt)

/-- After the pivots `0 .. k-1`, whatever the cycles of the graph, the matrix
holds walk weights and is below every tame walk with distinct intermediate
vertices below `k`. -/
theorem fw_seq_compS {n : Nat} {m : List (List Int)} (hm : Square n m)
    (hdiag : ∀ i, i < n → mget m i i ≤ 0)
    (hle : ∀ i j, i < n → j < n → mget m i j ≤ INF_FW) :
    ∀ k, k ≤ n →
      GInv (matGraph n m) n
          ((List.range k).foldl (fun d k => fwPass n (List.range n) d k) m) ∧
        CompS (matGraph n m) n k
          ((List.range k).foldl (fun d k => fwPass n (List.range n) d k) m) := by
  intro k
  induction k with
  | zero =>
    intro _
    exact ⟨ginv_start hm hle, fun i j p hi hj hp ht _ hint =>
      compK_zero hdiag i j p hi hj hp ht hint⟩
  | succ k ih =>
    intro hk
    obtain ⟨hI, hK⟩ := ih (by omega)
    rw [List.range_succ, List.foldl_append, List.foldl_cons, List.foldl_nil]
    refine ⟨fwPass_ginv (by omega) _ _ hI (fun i hi => List.mem_range.1 hi), ?_⟩
    exact compS_succ (by omega) hK (fun i j _ _ => fwPass_le n _ _ k i j)
      (fun i j hi hj h1 h2 => fwPass_relaxed hi hj _ _ hI.1 (List.mem_range.2 hi) h1 h2)

/-! ## A ring that the sentinel hides from the Floyd-Warshall detector -/

theorem ringMatrix_row (P : Nat) (W : Int) (i : Nat) (hi : i < 2 * P + 1) :
    (ringMatrix P W).getD i [] =
      (List.range (2 * P + 1)).map (fun j =>
        if i = j then 0
        else if j = (i + 1) % (2 * P + 1) then (if i + 1 < P ∨ i = 2 * P then W else -W)
        else INF_FW) := by
  unfold ringMatrix
  simp [List.getD_eq_getElem?_getD, List.getElem?_map, List.getElem?_range, hi]

theorem ringMatrix_square (P : Nat) (W : Int) : Square (2 * P + 1) (ringMatrix P W) := by
  refine ⟨by simp [ringMatrix], fun i hi => ?_⟩
  rw [ringMatrix_row P W i hi]
  simp

theorem mget_ringMatrix (P : Nat) (W : Int) {i j : Nat} (hi : i < 2 * P + 1)
    (hj : j < 2 * P + 1) :
    mget (ringMatrix P W) i j =
      if i = j then 0
      else if j = (i + 1) % (2 * P + 1) then (if i + 1 < P ∨ i = 2 * P then W else -W)
      else INF_FW := by
  unfold mget rd
  rw [ringMatrix_row P W i hi]
  simp [List.getD_eq_getElem?_getD, List.getElem?_map, List.getElem?_range, hj]

/-- A multiple of `W` below `INF` has a factor below `A` when `A * W` is not
below `INF`. -/
theorem factor_lt {W A x : Int} (hW : 0 < W) (hA : INF_FW ≤ A * W) (hx : x * W < INF_FW) :
    x < A := by
  by_contra h
  have h1 : A ≤ x := not_lt.1 h
  have h2 : A * W ≤ x * W := mul_le_mul_of_nonneg_right h1 (le_of_lt hW)
  omega

theorem ringInv_init (P : Nat) {W : Int} (hW : 0 < W) (hW' : W < INF_FW) :
    RingInv P W 0 (ringMatrix P W) := by
  refine ⟨ringMatrix_square P W, fun i j hi hj => ?_⟩
  rw [mget_ringMatrix P W hi hj]
  refine ⟨fun h => by rw [if_pos h], ?_, fun hne hI => ?_⟩
  · split_ifs <;> omega
  · rw [if_neg hne] at hI ⊢
    by_cases hj' : j = (i + 1) % (2 * P + 1)
    · rw [if_pos hj'] at hI ⊢
      by_cases hiP : i = 2 * P
      · right
        have hj0 : j = 0 := by
          rw [hj', hiP]
          exact Nat.mod_self _
        refine ⟨hiP, Or.inl hj0, ?_, ?_⟩
        · rw [if_pos (Or.inr hiP), hj0]
          simp
        · rw [hj0]
          simpa using hW'
      · left
        have hj1 : j = i + 1 := by
          rw [hj', Nat.mod_eq_of_lt (by omega)]
        refine ⟨by omega, Or.inl (by omega), ?_, fun h1 h2 => ?_⟩
        · unfold ringH
          rw [hj1]
          by_cases h1 : i + 1 < P
          · rw [if_pos (Or.inl h1), if_pos (by omega), if_pos (by omega)]
            push_cast
            ring
          · rw [if_neg (by omega), if_neg (by omega)]
            by_cases h2 : i + 1 ≤ P
            · rw [if_pos h2]
              have : (P : Int) = i + 1 := by omega
              push_cast
              rw [this]
              ring
            · rw [if_neg h2]
              push_cast
              ring
        · have : (P : Int) - 1 - i = 1 := by omega
          rw [this, one_mul]
          exact hW'
    · rw [if_neg hj'] at hI
      exact absurd rfl hI

/-- The pass for a pivot `k` below `2P` keeps the invariant of the ring. -/
theorem ringInv_step {P A : Nat} {W : Int} (hW : 0 < W) (hA : INF_FW ≤ (A : Int) * W)
    (hP : P = 2 * A) {k : Nat} (hk : k < 2 * P) {d : List (List Int)}
    (h : RingInv P W k d) :
    RingInv P W (k + 1) (fwPass (2 * P + 1) (List.range (2 * P + 1)) d k) := by
  obtain ⟨hsq, hd⟩ := h
  have hkN : k < 2 * P + 1 := by omega
  have hkk : mget d k k = 0 := (hd k k hkN hkN).1 rfl
  obtain ⟨sq', hval⟩ := @fwPass_spec (2 * P + 1) _ d hsq hkN (by rw [hkk]) (List.range (2 * P + 1))
    (fun i => List.mem_range)
  refine ⟨sq', fun i j hi hj => ?_⟩
  rw [hval i j hi hj]
  obtain ⟨o1, o2, o3⟩ := hd i j hi hj
  -- the entry is kept
  have hold : (i = j → mget d i j = 0) ∧ mget d i j ≤ INF_FW ∧
      (i ≠ j → mget d i j ≠ INF_FW →
        (i < j ∧ (j ≤ i + 1 ∨ j ≤ k + 1) ∧ mget d i j = (ringH P j - ringH P i) * W ∧
          (i + 1 < P → P ≤ j + 1 → ((P : Int) - 1 - i) * W < INF_FW)) ∨
        (i = 2 * P ∧ (j = 0 ∨ j ≤ k + 1) ∧ mget d i j = ((j : Int) + 1) * W ∧
          ((j : Int) + 1) * W < INF_FW)) := by
    refine ⟨o1, o2, fun hne hI => ?_⟩
    rcases o3 hne hI with ⟨a1, a2, a3, a4⟩ | ⟨a1, a2, a3, a4⟩
    · exact Or.inl ⟨a1, by omega, a3, a4⟩
    · exact Or.inr ⟨a1, by omega, a3, a4⟩
  unfold pivotVal
  by_cases hskip : mget d i k = INF_FW ∨ mget d k j = INF_FW
  · rw [if_pos hskip]
    exact hold
  · rw [if_neg hskip]
    have hik : mget d i k ≠ INF_FW := fun hc => hskip (Or.inl hc)
    have hkj : mget d k j ≠ INF_FW := fun hc => hskip (Or.inr hc)
    by_cases hle : mget d i j ≤ mget d i k + mget d k j
    · rw [min_eq_left hle]
      exact hold
    · have hlt : mget d i k + mget d k j < mget d i j := not_le.1 hle
      rw [min_eq_right (le_of_lt hlt)]
      have hi_ne : i ≠ k := by
        intro hc
        rw [hc, hkk, zero_add] at hlt
        exact lt_irrefl _ hlt
      have hj_ne : k ≠ j := by
        intro hc
        rw [← hc, hkk, add_zero] at hlt
        exact lt_irrefl _ hlt
      have hnew : mget d i k + mget d k j < INF_FW := lt_of_lt_of_le hlt o2
      -- the entry `[k][j]` is the edge from `k` to `k + 1`
      rcases (hd k j hkN hj).2.2 hj_ne hkj with ⟨b1, b2, b3, _⟩ | ⟨b1, _, _, _⟩
      swap
      · omega
      have hj1 : j = k + 1 := by omega
      rcases (hd i k hi hkN).2.2 hi_ne hik with ⟨a1, a2, a3, a4⟩ | ⟨a1, a2, a3, a4⟩
      · -- a part of the ring from `i` up to `k`, one edge longer
        have hvalue : mget d i k + mget d k j = (ringH P j - ringH P i) * W := by
          rw [a3, b3]
          ring
        refine ⟨fun hc => by omega, le_of_lt hnew, fun _ _ => Or.inl
          ⟨by omega, Or.inr (by omega), hvalue, fun p1 p2 => ?_⟩⟩
        by_cases hp : P ≤ k + 1
        · exact a4 p1 hp
        · have e1 : ringH P j = (P : Int) := by
            unfold ringH
            rw [if_pos (by omega)]
            omega
          have e2 : ringH P i = (i : Int) + 1 := by
            unfold ringH
            rw [if_pos (by omega)]
          rw [hvalue, e1, e2] at hnew
          have e3 : (P : Int) - 1 - i = P - (i + 1) := by ring
          rw [e3]
          exact hnew
      · -- the part of the ring from `2P` to `k`, one edge longer
        have hkA : (k : Int) + 1 < A := factor_lt hW hA a4
        have e1 : ringH P j = (k : Int) + 2 := by
          unfold ringH
          rw [if_pos (by omega), hj1]
          push_cast
          ring
        have e2 : ringH P k = (k : Int) + 1 := by
          unfold ringH
          rw [if_pos (by omega)]
        have hvalue : mget d i k + mget d k j = ((j : Int) + 1) * W := by
          rw [a3, b3, e1, e2, hj1]
          push_cast
          ring
        refine ⟨fun hc => by omega, le_of_lt hnew, fun _ _ => Or.inr
          ⟨a1, Or.inr (by omega), hvalue, ?_⟩⟩
        rw [← hvalue]
        exact hnew

theorem foldl_range_succ {α : Type} (f : α → Nat → α) (n : Nat) (m : α) :
    (List.range (n + 1)).foldl f m = f ((List.range n).foldl f m) n := by
  rw [List.range_succ, List.foldl_append]
  rfl

/-- The invariant holds before the pass for every pivot up to `2P`. -/
theorem ringInv_fold {P A : Nat} {W : Int} (hW : 0 < W) (hW' : W < INF_FW)
    (hA : INF_FW ≤ (A : Int) * W) (hP : P = 2 * A) :
    ∀ k, k ≤ 2 * P →
      RingInv P W k ((List.range k).foldl
        (fun d k => fwPass (2 * P + 1) (List.range (2 * P + 1)) d k) (ringMatrix P W)) := by
  intro k
  induction k with
  | zero =>
    intro _
    exact ringInv_init P hW hW'
  | succ k ih =>
    intro hk
    rw [foldl_range_succ]
    exact ringInv_step hW hA hP (by omega) (ih (by omega))

/-- After the last pass the diagonal of the ring is still `0`. -/
theorem ring_last_pass {P A : Nat} {W : Int} (hW : 0 < W) (hA : INF_FW ≤ (A : Int) * W)
    (hP : P = 2 * A) {d : List (List Int)} (h : RingInv P W (2 * P) d) :
    Square (2 * P + 1) (fwPass (2 * P + 1) (List.range (2 * P + 1)) d (2 * P)) ∧
      ∀ i, i < 2 * P + 1 →
        mget (fwPass (2 * P + 1) (List.range (2 * P + 1)) d (2 * P)) i i = 0 := by
  obtain ⟨hsq, hd⟩ := h
  have hkN : 2 * P < 2 * P + 1 := by omega
  have hkk : mget d (2 * P) (2 * P) = 0 := (hd _ _ hkN hkN).1 rfl
  obtain ⟨sq', hval⟩ := @fwPass_spec (2 * P + 1) _ d hsq hkN (by rw [hkk]) (List.range (2 * P + 1))
    (fun i => List.mem_range)
  refine ⟨sq', fun i hi => ?_⟩
  rw [hval i i hi hi]
  have hii : mget d i i = 0 := (hd i i hi hi).1 rfl
  unfold pivotVal
  by_cases hskip : mget d i (2 * P) = INF_FW ∨ mget d (2 * P) i = INF_FW
  · rw [if_pos hskip]
    exact hii
  · rw [if_neg hskip, hii]
    have hik : mget d i (2 * P) ≠ INF_FW := fun hc => hskip (Or.inl hc)
    have hki : mget d (2 * P) i ≠ INF_FW := fun hc => hskip (Or.inr hc)
    by_cases hi2 : i = 2 * P
    · rw [hi2, hkk]
      simp
    · exfalso
      rcases (hd (2 * P) i hkN hi).2.2 (fun hc => hi2 hc.symm) hki with
        ⟨b1, _, _, _⟩ | ⟨_, _, _, b4⟩
      · omega
      have hiA : (i : Int) + 1 < A := factor_lt hW hA b4
      rcases (hd i (2 * P) hi hkN).2.2 hi2 hik with ⟨_, _, _, a4⟩ | ⟨a1, _, _, _⟩
      · have := factor_lt hW hA (a4 (by omega) (by omega))
        omega
      · exact hi2 a1

/-- On the ring `floyd_warshall_seq` ends with the diagonal `0`: the detector
returns false. -/
theorem ring_undetected {P A : Nat} {W : Int} (hW : 0 < W) (hW' : W < INF_FW)
    (hA : INF_FW ≤ (A : Int) * W) (hP : P = 2 * A) :
    (∀ i, i < 2 * P + 1 → mget (floyd_warshall_seq (ringMatrix P W)) i i = 0) ∧
      has_negative_cycle_fw (floyd_warshall_seq (ringMatrix P W)) = false := by
  have hlen : (ringMatrix P W).length = 2 * P + 1 := (ringMatrix_square P W).1
  have hfw : floyd_warshall_seq (ringMatrix P W) =
      fwPass (2 * P + 1) (List.range (2 * P + 1))
        ((List.range (2 * P)).foldl
          (fun d k => fwPass (2 * P + 1) (List.range (2 * P + 1)) d k) (ringMatrix P W))
        (2 * P) := by
    unfold floyd_warshall_seq
    rw [hlen, foldl_range_succ]
  obtain ⟨sq, hdiag⟩ := ring_last_pass hW hA hP (ringInv_fold hW hW' hA hP (2 * P) (le_refl _))
  rw [← hfw] at sq hdiag
  refine ⟨hdiag, ?_⟩
  unfold has_negative_cycle_fw
  rw [List.any_eq_false]
  intro i hi
  rw [sq.1, List.mem_range] at hi
  rw [hdiag i hi]
  simp

/-- In a graph whose edges weigh the difference of the heights of their ends,
a walk weighs the difference of the heights of its ends. -/
theorem telescope_height {G : Edge → Prop} {W : Int} {H : Nat → Int}
    (hG : ∀ e, G e → e.w = (H e.v - H e.u) * W) :
    ∀ {p : List Edge} {a b : Nat}, IsWalk G a p b → weight p = (H b - H a) * W
  | [], a, b, h => by
    simp only [IsWalk] at h
    subst h
    simp [weight_nil]
  | e :: p, a, b, h => by
    have ih := telescope_height hG h.2.2
    rw [weight_cons, ih, hG e h.1, ← h.2.1]
    ring

/-- A walk along edges `i → i + 1` from `a` up to `a + k`, through the vertices
`a, a + 1, ...` in order. -/
theorem up_walk_exists {G : Edge → Prop} (w : Nat → Int) :
    ∀ (k a : Nat), (∀ i, a ≤ i → i < a + k → G ⟨i, i + 1, w i⟩) →
      ∃ p, IsWalk G a p (a + k) ∧ p.map Edge.u = List.range' a k
  | 0, a, _ => ⟨[], rfl, rfl⟩
  | k + 1, a, h => by
    obtain ⟨p, hp, hu⟩ := up_walk_exists w k (a + 1) (fun i h1 h2 => h i (by omega) (by omega))
    refine ⟨⟨a, a + 1, w a⟩ :: p, ⟨h a (le_refl _) (by omega), rfl, ?_⟩, ?_⟩
    · rw [show a + (k + 1) = a + 1 + k by omega]
      exact hp
    · rw [List.map_cons, hu]
      rfl

/-- The ring is a negative cycle through the vertex `2P`, whose other vertices
are all different. -/
theorem ring_cycle (P : Nat) {W : Int} (hP : 1 ≤ P) (hW : 0 < W) (hW' : W < INF_FW) :
    ∃ c, IsWalk (matGraph (2 * P + 1) (ringMatrix P W)) (2 * P) c (2 * P) ∧
      weight c = -W ∧ (interm c).Nodup ∧ c.length = 2 * P + 1 := by
  have hI := (ringInv_init P hW hW').2
  have hup : ∀ i, i < 2 * P →
      matGraph (2 * P + 1) (ringMatrix P W) ⟨i, i + 1, if i + 1 < P then W else -W⟩ := by
    intro i hi
    have h1 : i < 2 * P + 1 := by omega
    have h2 : i + 1 < 2 * P + 1 := by omega
    have hm : mget (ringMatrix P W) i (i + 1) = if i + 1 < P then W else -W := by
      rw [mget_ringMatrix P W h1 h2, if_neg (by omega),
        if_pos (by rw [Nat.mod_eq_of_lt h2])]
      by_cases h3 : i + 1 < P
      · rw [if_pos (Or.inl h3), if_pos h3]
      · rw [if_neg (by omega), if_neg h3]
    refine ⟨h1, h2, ?_, hm.symm⟩
    show mget (ringMatrix P W) i (i + 1) ≠ INF_FW
    rw [hm]
    split_ifs <;> omega
  obtain ⟨p, hp, hu⟩ := up_walk_exists
    (G := fun e => matGraph (2 * P + 1) (ringMatrix P W) e ∧ e.u < e.v)
    (fun i => if i + 1 < P then W else -W) (2 * P) 0
    (fun i _ hi => ⟨hup i (by omega), Nat.lt_succ_self i⟩)
  rw [Nat.zero_add] at hp
  have hw : weight p = (ringH P (2 * P) - ringH P 0) * W := by
    refine telescope_height (H := ringH P) ?_ hp
    rintro e ⟨⟨h1, h2, h3, h4⟩, h5⟩
    rcases (hI e.u e.v h1 h2).2.2 (by omega) h3 with ⟨_, _, a3, _⟩ | ⟨a1, _, _, _⟩
    · rw [h4, a3]
    · omega
  have h0 : matGraph (2 * P + 1) (ringMatrix P W) ⟨2 * P, 0, W⟩ := by
    have hm : mget (ringMatrix P W) (2 * P) 0 = W := by
      rw [mget_ringMatrix P W (by omega) (by omega), if_neg (by omega),
        if_pos (by rw [Nat.mod_self]), if_pos (Or.inr rfl)]
    refine ⟨by show 2 * P < 2 * P + 1; omega, by show 0 < 2 * P + 1; omega, ?_, hm.symm⟩
    show mget (ringMatrix P W) (2 * P) 0 ≠ INF_FW
    rw [hm]
    omega
  refine ⟨⟨2 * P, 0, W⟩ :: p, ⟨h0, rfl, IsWalk.walk_mono (fun e he => he.1) hp⟩, ?_, ?_, ?_⟩
  · rw [weight_cons, hw]
    show W + (ringH P (2 * P) - ringH P 0) * W = -W
    have e1 : ringH P (2 * P) = -1 := by
      unfold ringH
      rw [if_neg (by omega)]
      push_cast
      ring
    have e2 : ringH P 0 = 1 := by
      unfold ringH
      rw [if_pos (by omega)]
      simp
    rw [e1, e2]
    ring
  · show (p.map Edge.u).Nodup
    rw [hu]
    exact List.nodup_range' 0 (2 * P)
  · have : p.length = 2 * P := by
      have := congrArg List.length hu
      rw [List.length_map, List.length_range'] at this
      exact this
    rw [List.length_cons, this]

/-- The entries of the ring matrix: `0` on the diagonal, no entry above `INF`,
every entry other than `INF` is `0`, `W` or `-W`. -/
theorem ringMatrix_entries (P : Nat) {W : Int} (hW : 0 < W) (hW' : W < INF_FW) :
    (∀ i, i < 2 * P + 1 → mget (ringMatrix P W) i i = 0) ∧
    (∀ i, i < 2 * P + 1 → ∀ j, j < 2 * P + 1 → mget (ringMatrix P W) i j ≤ INF_FW) ∧
    (∀ i, i < 2 * P + 1 → ∀ j, j < 2 * P + 1 → mget (ringMatrix P W) i j = INF_FW ∨
      (-W ≤ mget (ringMatrix P W) i j ∧ mget (ringMatrix P W) i j ≤ W)) := by
  have hI := (ringInv_init P hW hW').2
  refine ⟨fun i hi => (hI i i hi hi).1 rfl, fun i hi j hj => (hI i j hi hj).2.1,
    fun i hi j hj => ?_⟩
  rw [mget_ringMatrix P W hi hj]
  split_ifs <;> first | (left; rfl) | (right; constructor <;> omega)

/-! ## The Floyd-Warshall negative-cycle check -/

theorem has_negative_cycle_fw_iff (dist : List (List Int)) :
    has_negative_cycle_fw dist = true ↔ ∃ i, i < dist.length ∧ mget dist i i < 0 := by
  unfold has_negative_cycle_fw
  simp [List.any_eq_true]

theorem split_at_mem {G : Edge → Prop} {y : Nat} : ∀ (r : List Edge) (a b : Nat),
    IsWalk G a r b → y ∈ r.map Edge.v →
    ∃ r1 r2, r = r1 ++ r2 ∧ r1 ≠ [] ∧ IsWalk G a r1 y ∧ IsWalk G y r2 b
  | [], _, _, _, hy => by simp at hy
  | e :: r, a, b, hr, hy => by
    by_cases hev : y = e.v
    · exact ⟨[e], r, rfl, by simp, ⟨hr.1, hr.2.1, hev.symm⟩, hev ▸ hr.2.2⟩
    · have hy' : y ∈ r.map Edge.v := by
        simp only [List.map_cons, List.mem_cons] at hy
        rcases hy with h | h
        · exact absurd h hev
        · exact h
      obtain ⟨r1, r2, hdec, _, h1, h2⟩ := split_at_mem r e.v b hr.2.2 hy'
      exact ⟨e :: r1, r2, by rw [hdec]; rfl, by simp, ⟨hr.1, hr.2.1, h1⟩, h2⟩

/-- A walk that repeats a vertex contains a closed walk that is neither empty
nor at the start of the walk. -/
theorem split_dup {G : Edge → Prop} : ∀ (p : List Edge) (a b : Nat),
    IsWalk G a p b → ¬ (p.map Edge.v).Nodup →
    ∃ p1 p2 p3 y, p = p1 ++ p2 ++ p3 ∧ p1 ≠ [] ∧ p2 ≠ [] ∧
      IsWalk G a p1 y ∧ IsWalk G y p2 y ∧ IsWalk G y p3 b
  | [], _, _, _, h => by simp at h
  | e :: r, a, b, hp, h => by
    simp only [List.map_cons, List.nodup_cons, not_and_or, not_not] at h
    rcases h with h | h
    · obtain ⟨r1, r2, hdec, hne, h1, h2⟩ := split_at_mem r e.v b hp.2.2 h
      exact ⟨[e], r1, r2, e.v, by rw [hdec]; simp, by simp, hne, ⟨hp.1, hp.2.1, rfl⟩, h1, h2⟩
    · obtain ⟨p1, p2, p3, y, hdec, _, hne2, h1, h2, h3⟩ := split_dup r e.v b hp.2.2 h
      exact ⟨e :: p1, p2, p3, y, by rw [hdec]; simp, by simp, hne2, ⟨hp.1, hp.2.1, h1⟩, h2, h3⟩

/-- A negative closed walk contains a negative closed walk that repeats no vertex. -/
theorem neg_simple_cycle {G : Edge → Prop} : ∀ (L : Nat) (c : List Edge) (x : Nat),
    c.length ≤ L → IsWalk G x c x → weight c < 0 →
    ∃ y c', IsWalk G y c' y ∧ weight c' < 0 ∧ (c'.map Edge.v).Nodup := by
  intro L
  induction L with
  | zero =>
    intro c x hl _ hw
    have : c = [] := List.length_eq_zero.1 (Nat.le_zero.1 hl)
    subst this
    simp [weight_nil] at hw
  | succ L ih =>
    intro c x hl hc hw
    by_cases hnd : (c.map Edge.v).Nodup
    · exact ⟨x, c, hc, hw, hnd⟩
    · obtain ⟨p1, p2, p3, y, hdec, hne1, hne2, h1, h2, h3⟩ := split_dup c x x hc hnd
      have hlen : c.length = p1.length + p2.length + p3.length := by
        rw [hdec, List.length_append, List.length_append]
      have hl1 : 0 < p1.length := List.length_pos.2 hne1
      have hl2 : 0 < p2.length := List.length_pos.2 hne2
      rw [hdec, weight_append, weight_append] at hw
      by_cases hw2 : weight p2 < 0
      · exact ih p2 y (by omega) h2 hw2
      · refine ih (p1 ++ p3) x ?_ (IsWalk.walk_append h1 h3) ?_
        · rw [List.length_append]
          omega
        · rw [weight_append]
          omega

theorem map_v_of_walk {G : Edge → Prop} : ∀ {p : List Edge} {a b : Nat},
    IsWalk G a p b → p ≠ [] → p.map Edge.v = interm p ++ [b]
  | [], _, _, _, h => absurd rfl h
  | [e], _, _, hp, _ => by
    have : e.v = _ := hp.2.2
    simp [interm, this]
  | e :: e' :: q, _, b, hp, _ => by
    have ih := map_v_of_walk hp.2.2 (List.cons_ne_nil e' q)
    rw [interm_cons_nonempty hp.2.2 (List.cons_ne_nil e' q), List.map_cons, ih]
    rfl

/-- A walk is tame when the walks that are no longer weigh less than the sentinel. -/
theorem tame_of_fit_le {G : Edge → Prop} {L : Nat}
    (hfit : ∀ a b p, IsWalk G a p b → p.length ≤ L → weight p < INF_FW)
    {p : List Edge} {a b : Nat} (hp : IsWalk G a p b) (hl : p.length ≤ L) : Tame p := by
  intro q hq
  obtain ⟨x, y, hxy⟩ := walk_part hp hq
  exact hfit x y q hxy (le_trans hq.length_le hl)

/-- The result of `floyd_warshall_seq` on a matrix with diagonal `0` and no
entry above `INF`, whatever the cycles of the graph. -/
theorem floyd_warshall_seq_general {n : Nat} {m : List (List Int)} (hm : Square n m)
    (hdiag : ∀ i, i < n → mget m i i ≤ 0)
    (hle : ∀ i j, i < n → j < n → mget m i j ≤ INF_FW) :
    GInv (matGraph n m) n (floyd_warshall_seq m) ∧
      CompS (matGraph n m) n n (floyd_warshall_seq m) := by
  have hfw : floyd_warshall_seq m =
      (List.range n).foldl (fun d k => fwPass n (List.range n) d k) m := by
    unfold floyd_warshall_seq
    rw [hm.1]
  rw [hfw]
  exact fw_seq_compS hm hdiag hle n (le_refl n)

theorem fw_diag_neg_walk {n : Nat} {m : List (List Int)} (hm : Square n m)
    (hdiag : ∀ i, i < n → mget m i i ≤ 0)
    (hle : ∀ i j, i < n → j < n → mget m i j ≤ INF_FW) {i : Nat} (hi : i < n)
    (hneg : mget (floyd_warshall_seq m) i i < 0) :
    ∃ c, IsWalk (matGraph n m) i c i ∧ weight c < 0 := by
  obtain ⟨hI, _⟩ := floyd_warshall_seq_general hm hdiag hle
  have hI0 : (0 : Int) < INF_FW := by decide
  obtain ⟨c, hc, hw⟩ := hI.2.1 i i hi hi (by omega)
  exact ⟨c, hc, by rw [hw]; exact hneg⟩

theorem fw_neg_cycle_diag {n : Nat} {m : List (List Int)} (hm : Square n m)
    (hdiag : ∀ i, i < n → mget m i i ≤ 0)
    (hle : ∀ i j, i < n → j < n → mget m i j ≤ INF_FW) {i : Nat} {c : List Edge} (hi : i < n)
    (hc : IsWalk (matGraph n m) i c i) (hnd : (interm c).Nodup) (ht : Tame c)
    (hw : weight c < 0) : mget (floyd_warshall_seq m) i i < 0 := by
  obtain ⟨_, hK⟩ := floyd_warshall_seq_general hm hdiag hle
  have := hK i i c hi hi hc ht hnd (interm_lt (matGraph_inRange n m) hc)
  omega

theorem fw_detect_iff {n : Nat} {m : List (List Int)} (hm : Square n m)
    (hdiag : ∀ i, i < n → mget m i i ≤ 0)
    (hle : ∀ i j, i < n → j < n → mget m i j ≤ INF_FW)
    (hfit : ∀ a b p, IsWalk (matGraph n m) a p b → p.length ≤ n → weight p < INF_FW) :
    has_negative_cycle_fw (floyd_warshall_seq m) = true ↔
      ∃ x c, IsWalk (matGraph n m) x c x ∧ weight c < 0 := by
  have hlen : (floyd_warshall_seq m).length = n :=
    (floyd_warshall_seq_general hm hdiag hle).1.1.1
  rw [has_negative_cycle_fw_iff, hlen]
  constructor
  · rintro ⟨i, hi, hneg⟩
    obtain ⟨c, hc, hw⟩ := fw_diag_neg_walk hm hdiag hle hi hneg
    exact ⟨i, c, hc, hw⟩
  · rintro ⟨x, c, hc, hw⟩
    obtain ⟨y, c', hc', hw', hnd⟩ := neg_simple_cycle c.length c x (le_refl _) hc hw
    have hne : c' ≠ [] := by
      intro h
      subst h
      simp [weight_nil] at hw'
    have hy : y < n := by
      have := IsWalk.verts_lt (matGraph_inRange n m) hc' y (by
        rw [map_v_of_walk hc' hne]
        simp)
      exact this
    have hlen' : c'.length ≤ n := by
      have := nodup_length_le hnd (n := n) (IsWalk.verts_lt (matGraph_inRange n m) hc')
      simpa using this
    have hnd' : (interm c').Nodup := by
      rw [map_v_of_walk hc' hne] at hnd
      exact (List.nodup_append.1 hnd).1
    exact ⟨y, hy, fw_neg_cycle_diag hm hdiag hle hy hc' hnd' (tame_of_fit_le hfit hc' hlen') hw'⟩

theorem cexM_walk :
    IsWalk (matGraph 3 cexM) 0 [⟨0, 2, 1⟩, ⟨2, 1, -3⟩, ⟨1, 2, 0⟩, ⟨2, 0, 0⟩] 0 := by
  refine ⟨?_, rfl, ?_, rfl, ?_, rfl, ?_, rfl, rfl⟩
  all_goals exact ⟨by decide, by decide, by decide, by decide⟩

/-- C11 as stated fails in both halves. (1) Per vertex: in the matrix `cexM`
(diagonal `0`) the vertex `0` lies on the closed walk `0 → 2 → 1 → 2 → 0` of
weight `-2`, and `floyd_warshall_seq` ends with `dist[0][0] = 0`. (2) The
detector: the ring `ringMatrix 931324 2147483647` on 1862649 vertices (diagonal
`0`, every weight an `int`) is a negative cycle through the vertex `1862648`
whose other vertices are all different, and `floyd_warshall_seq` ends with
every `dist[i][i] = 0`, so the detector returns false: the `931324` edges of
weight `2147483647` in a row weigh more than `INF`. -/
theorem C11_counterexample :
    (Square 3 cexM ∧ (∀ i, i < 3 → mget cexM i i = 0) ∧
      IsWalk (matGraph 3 cexM) 0 [⟨0, 2, 1⟩, ⟨2, 1, -3⟩, ⟨1, 2, 0⟩, ⟨2, 0, 0⟩] 0 ∧
      weight [⟨0, 2, 1⟩, ⟨2, 1, -3⟩, ⟨1, 2, 0⟩, ⟨2, 0, 0⟩] = -2 ∧
      floyd_warshall_seq cexM = [[0, -2, -2], [0, -3, -3], [-3, -6, -6]] ∧
      mget (floyd_warshall_seq cexM) 0 0 = 0) ∧
    (Square 1862649 (ringMatrix 931324 2147483647) ∧
      (∀ i, i < 1862649 → mget (ringMatrix 931324 2147483647) i i = 0) ∧
      (∀ i, i < 1862649 → ∀ j, j < 1862649 →
        mget (ringMatrix 931324 2147483647) i j = INF_FW ∨
          (-INT_MAX ≤ mget (ringMatrix 931324 2147483647) i j ∧
            mget (ringMatrix 931324 2147483647) i j ≤ INT_MAX)) ∧
      (∃ c, IsWalk (matGraph 1862649 (ringMatrix 931324 2147483647)) 1862648 c 1862648 ∧
        weight c < 0 ∧ (interm c).Nodup ∧ c.length = 1862649) ∧
      has_negative_cycle_fw (floyd_warshall_seq (ringMatrix 931324 2147483647)) = false ∧
      (∀ i, i < 1862649 → mget (floyd_warshall_seq (ringMatrix 931324 2147483647)) i i = 0)) := by
  have hW : (0 : Int) < 2147483647 := by decide
  have hW' : (2147483647 : Int) < INF_FW := by decide
  have hA : INF_FW ≤ ((465662 : Nat) : Int) * 2147483647 := by decide
  have hP : 931324 = 2 * 465662 := rfl
  obtain ⟨e1, _, e3⟩ := ringMatrix_entries 931324 hW hW'
  obtain ⟨c, hc, hw, hnd, hlen⟩ := ring_cycle 931324 (by decide) hW hW'
  obtain ⟨u1, u2⟩ := ring_undetected hW hW' hA hP
  exact ⟨⟨⟨rfl, by decide⟩, by decide, cexM_walk, by decide, by decide, by decide⟩,
    ringMatrix_square 931324 2147483647, e1, e3,
    ⟨c, hc, by rw [hw]; decide, hnd, hlen⟩, u2, u1⟩

/-- C11 (amended): for every n x n input matrix with diagonal `0` and no entry
above `INF`, the Floyd-Warshall detector applied to `floyd_warshall_seq(M)` is
true exactly when some final `dist[i][i] < 0`; a final `dist[i][i] < 0` implies
that `i` lies on a negative-weight closed walk; every `i` on a negative-weight
closed walk whose intermediate vertices are pairwise distinct and whose
contiguous parts all weigh less than `INF` ends with `dist[i][i] < 0`; and when
every walk with at most n edges weighs less than `INF`, the detector is true if
and only if the graph has a negative-weight cycle. -/
theorem C11_fw_negative_cycle (m : List (List Int)) (n : Nat) (hm : Square n m)
    (hdiag : ∀ i, i < n → mget m i i = 0)
    (hle' : ∀ i, i < n → ∀ j, j < n → mget m i j ≤ INF_FW) :
    (has_negative_cycle_fw (floyd_warshall_seq m) = true ↔
      ∃ i, i < n ∧ mget (floyd_warshall_seq m) i i < 0) ∧
    (∀ i, i < n → mget (floyd_warshall_seq m) i i < 0 →
      ∃ c, IsWalk (matGraph n m) i c i ∧ weight c < 0) ∧
    (∀ i c, i < n → IsWalk (matGraph n m) i c i → (interm c).Nodup → Tame c →
      weight c < 0 → mget (floyd_warshall_seq m) i i < 0) ∧
    ((∀ a b p, IsWalk (matGraph n m) a p b → p.length ≤ n → weight p < INF_FW) →
      (has_negative_cycle_fw (floyd_warshall_seq m) = true ↔
        ∃ x c, IsWalk (matGraph n m) x c x ∧ weight c < 0)) := by
  have hd : ∀ i, i < n → mget m i i ≤ 0 := fun i hi => le_of_eq (hdiag i hi)
  have hle : ∀ i j, i < n → j < n → mget m i j ≤ INF_FW := fun i j hi hj => hle' i hi j hj
  refine ⟨?_, fun i hi hneg => fw_diag_neg_walk hm hd hle hi hneg,
    fun i c hi hc hnd ht hw => fw_neg_cycle_diag hm hd hle hi hc hnd ht hw,
    fun hfit => fw_detect_iff hm hd hle hfit⟩
  rw [has_negative_cycle_fw_iff, (floyd_warshall_seq_general hm hd hle).1.1.1]

/-- C11 (amended) at `n=2` with the edges `0 → 1` and `1 → 0` of weight `-1`:
the detector is true, `dist[0][0] < 0` and `dist[1][1] < 0`. -/
theorem C11_fw_negative_cycle_witness :
    has_negative_cycle_fw (floyd_warshall_seq exNegM) = true ∧
      mget (floyd_warshall_seq exNegM) 0 0 < 0 ∧ mget (floyd_warshall_seq exNegM) 1 1 < 0 ∧
      ∃ c, IsWalk (matGraph 2 exNegM) 0 c 0 ∧ weight c < 0 :=
  ⟨by decide, by decide, by decide,
    (C11_fw_negative_cycle exNegM 2 ⟨rfl, by decide⟩ (by decide) (by decide)).2.1 0
      (by decide) (by decide)⟩

/-! ## The interleaved round of `bellman_ford_par` -/

theorem roundStart_inv (T : Nat) (edges : List Edge) (dist : List Int) :
    ParInv T (roundStart edges dist) := by
  refine ⟨?_, ?_, ?_⟩
  · rintro t v ⟨e, _, h | h⟩
    · obtain ⟨c, hc⟩ := h
      simp [roundStart] at hc
    · simp [roundStart] at h
  · intro t ht
    simp [roundStart] at ht
  · simp [roundStart]

/-- Changing the position of the thread `t` to one outside the critical
sections keeps the first part of the invariant. -/
theorem inCritical_update_out {s : PState} {t : Nat} {pc : PC}
    (hpc : ∀ e, (∀ c, pc ≠ PC.recheck e c) ∧ pc ≠ PC.unlock e) {t' v : Nat}
    (h : InCritical { s with pcs := Function.update s.pcs t pc } t' v) :
    t' ≠ t ∧ InCritical s t' v := by
  obtain ⟨e, hev, h⟩ := h
  by_cases htt : t' = t
  · subst htt
    simp only [Function.update_same] at h
    rcases h with ⟨c, hc⟩ | hc
    · exact absurd hc ((hpc e).1 c)
    · exact absurd hc (hpc e).2
  · simp only [Function.update_noteq htt] at h
    exact ⟨htt, e, hev, h⟩

theorem stepT_dist (T t : Nat) (s : PState) :
    (stepT T t s).dist = s.dist ∧ (stepT T t s).writes = s.writes ∧
        (stepT T t s).upds = s.upds ∨
      ∃ e cand, t < T ∧ s.pcs t = PC.recheck e cand ∧ cand < rd s.dist e.v ∧
        (stepT T t s).dist = s.dist.set e.v cand ∧
        (stepT T t s).writes = s.writes + 1 ∧
        (stepT T t s).upds = Function.update s.upds t true := by
  unfold stepT
  by_cases hT : t < T
  · rw [if_pos hT]
    cases hpc : s.pcs t with
    | idle =>
      cases htodo : s.todo with
      | nil => simp
      | cons e rest => simp
    | readU e =>
      by_cases h : rd s.dist e.u = INF
      · simp [h]
      · simp [h]
    | check e cand =>
      by_cases h : cand ≥ rd s.dist e.v
      · simp [h]
      · simp [h]
    | lock e cand =>
      cases hl : s.locks e.v with
      | none => simp [hl]
      | some x => simp [hl]
    | recheck e cand =>
      by_cases h : cand < rd s.dist e.v
      · right
        exact ⟨e, cand, hT, rfl, h, by simp [h], by simp [h], by simp [h]⟩
      · simp [h]
    | unlock e => simp
  · rw [if_neg hT]
    simp

/-- A step never raises an entry of the shared vector. -/
theorem stepT_le (T t : Nat) (s : PState) (v : Nat) :
    rd (stepT T t s).dist v ≤ rd s.dist v := by
  rcases stepT_dist T t s with h | ⟨e, cand, _, _, hlt, hd, _⟩
  · rw [h.1]
  · rw [hd, rd_set]
    split_ifs with hc
    · rw [← hc.1]
      exact le_of_lt hlt
    · exact le_refl _

theorem runPar_le (T : Nat) (sched : List Nat) : ∀ (s : PState) (v : Nat),
    rd (runPar T sched s).dist v ≤ rd s.dist v := by
  unfold runPar
  induction sched with
  | nil => intro s v; exact le_refl _
  | cons t sched ih =>
    intro s v
    rw [List.foldl_cons]
    exact le_trans (ih _ v) (stepT_le T t s v)

theorem stepT_inv {T : Nat} (t : Nat) {s : PState} (h : ParInv T s) :
    ParInv T (stepT T t s) := by
  obtain ⟨h1, h2, h3⟩ := h
  have hflag : ∀ s' : PState, s'.upds = s.upds → s'.writes = s.writes →
      (∀ t, s'.upds t = true → t < T) ∧ ((∃ t, s'.upds t = true) ↔ 0 < s'.writes) := by
    intro s' hu hw
    rw [hu, hw]
    exact ⟨h2, h3⟩
  have hout : ∀ (s0 : PState) (pc : PC), s0.pcs = s.pcs → s0.locks = s.locks →
      s0.upds = s.upds → s0.writes = s.writes →
      (∀ e, (∀ c, pc ≠ PC.recheck e c) ∧ pc ≠ PC.unlock e) →
      ParInv T { s0 with pcs := Function.update s0.pcs t pc } := by
    intro s0 pc hp hl hu hw hpc
    refine ⟨fun t' v hc => ?_, hflag _ hu hw⟩
    have := inCritical_update_out hpc hc
    obtain ⟨e', hev, hc'⟩ := this.2
    rw [hp] at hc'
    show s0.locks v = some t'
    rw [hl]
    exact h1 t' v ⟨e', hev, hc'⟩
  by_cases hT : t < T
  · cases hpc : s.pcs t with
    | idle =>
      cases htodo : s.todo with
      | nil =>
        have hstep : stepT T t s = s := by
          unfold stepT
          simp [hT, hpc, htodo]
        rw [hstep]
        exact ⟨h1, h2, h3⟩
      | cons e rest =>
        have hstep : stepT T t s =
            { s with todo := rest, pcs := Function.update s.pcs t (PC.readU e) } := by
          unfold stepT
          simp [hT, hpc, htodo]
        rw [hstep]
        exact hout { s with todo := rest } (PC.readU e) rfl rfl rfl rfl
          (fun _ => ⟨fun _ => by simp, by simp⟩)
    | readU e =>
      by_cases hI : rd s.dist e.u = INF
      · have hstep : stepT T t s = { s with pcs := Function.update s.pcs t PC.idle } := by
          unfold stepT
          simp [hT, hpc, hI]
        rw [hstep]
        exact hout s PC.idle rfl rfl rfl rfl (fun _ => ⟨fun _ => by simp, by simp⟩)
      · have hstep : stepT T t s =
            { s with pcs := Function.update s.pcs t (PC.check e (rd s.dist e.u + e.w)) } := by
          unfold stepT
          simp [hT, hpc, hI]
        rw [hstep]
        exact hout s _ rfl rfl rfl rfl (fun _ => ⟨fun _ => by simp, by simp⟩)
    | check e cand =>
      by_cases hI : cand ≥ rd s.dist e.v
      · have hstep : stepT T t s = { s with pcs := Function.update s.pcs t PC.idle } := by
          unfold stepT
          simp [hT, hpc, hI]
        rw [hstep]
        exact hout s PC.idle rfl rfl rfl rfl (fun _ => ⟨fun _ => by simp, by simp⟩)
      · have hstep : stepT T t s =
            { s with pcs := Function.update s.pcs t (PC.lock e cand) } := by
          unfold stepT
          simp only [hT, hpc, if_true, if_neg hI]
        rw [hstep]
        exact hout s _ rfl rfl rfl rfl (fun _ => ⟨fun _ => by simp, by simp⟩)
    | lock e cand =>
      cases hl : s.locks e.v with
      | some x =>
        have hstep : stepT T t s = s := by
          unfold stepT
          simp [hT, hpc, hl]
        rw [hstep]
        exact ⟨h1, h2, h3⟩
      | none =>
        have hstep : stepT T t s =
            { s with locks := Function.update s.locks e.v (some t),
                     pcs := Function.update s.pcs t (PC.recheck e cand) } := by
          unfold stepT
          simp [hT, hpc, hl]
        rw [hstep]
        refine ⟨fun t' v hc => ?_, hflag _ rfl rfl⟩
        obtain ⟨e', hev, hc⟩ := hc
        simp only at hc ⊢
        by_cases htt : t' = t
        · subst htt
          simp only [Function.update_same] at hc
          have he : e' = e := by
            rcases hc with ⟨c, hc⟩ | hc
            · injection hc with h4 _
              exact h4.symm
            · simp at hc
          rw [← hev, he, Function.update_same]
        · simp only [Function.update_noteq htt] at hc
          have hold := h1 t' v ⟨e', hev, hc⟩
          have hv : v ≠ e.v := by
            intro hve
            rw [hve, hl] at hold
            simp at hold
          rw [Function.update_noteq hv]
          exact hold
    | recheck e cand =>
      have hmine : s.locks e.v = some t := h1 t e.v ⟨e, rfl, Or.inl ⟨cand, hpc⟩⟩
      have hcrit : ∀ (s' : PState), s'.locks = s.locks →
          s'.pcs = Function.update s.pcs t (PC.unlock e) →
          ∀ t' v, InCritical s' t' v → s'.locks v = some t' := by
        intro s' hlk hp t' v hc
        obtain ⟨e', hev, hc⟩ := hc
        rw [hp] at hc
        rw [hlk]
        by_cases htt : t' = t
        · subst htt
          simp only [Function.update_same] at hc
          have he : e' = e := by
            rcases hc with ⟨c, hc⟩ | hc
            · simp at hc
            · injection hc with h4
              exact h4.symm
          rw [← hev, he]
          exact hmine
        · simp only [Function.update_noteq htt] at hc
          exact h1 t' v ⟨e', hev, hc⟩
      by_cases hI : cand < rd s.dist e.v
      · have hstep : stepT T t s =
            { s with dist := s.dist.set e.v cand, upds := Function.update s.upds t true,
                     writes := s.writes + 1,
                     pcs := Function.update s.pcs t (PC.unlock e) } := by
          unfold stepT
          simp [hT, hpc, hI]
        rw [hstep]
        refine ⟨hcrit _ rfl rfl, ?_, ?_⟩
        · intro t' ht'
          simp only at ht'
          by_cases htt : t' = t
          · rw [htt]
            exact hT
          · rw [Function.update_noteq htt] at ht'
            exact h2 t' ht'
        · simp only
          constructor
          · intro _
            omega
          · intro _
            exact ⟨t, by simp⟩
      · have hstep : stepT T t s =
            { s with pcs := Function.update s.pcs t (PC.unlock e) } := by
          unfold stepT
          simp [hT, hpc, hI]
        rw [hstep]
        exact ⟨hcrit _ rfl rfl, hflag _ rfl rfl⟩
    | unlock e =>
      have hmine : s.locks e.v = some t := h1 t e.v ⟨e, rfl, Or.inr hpc⟩
      have hstep : stepT T t s =
          { s with locks := Function.update s.locks e.v none,
                   pcs := Function.update s.pcs t PC.idle } := by
        unfold stepT
        simp [hT, hpc]
      rw [hstep]
      refine ⟨fun t' v hc => ?_, hflag _ rfl rfl⟩
      have := @inCritical_update_out { s with locks := Function.update s.locks e.v none } t
        PC.idle (fun _ => ⟨fun _ => by simp, by simp⟩) t' v hc
      obtain ⟨htt, e', hev, hc'⟩ := this
      have hold := h1 t' v ⟨e', hev, hc'⟩
      have hv : v ≠ e.v := by
        intro hve
        rw [hve, hmine] at hold
        injection hold with h4
        exact htt h4.symm
      simp only
      rw [Function.update_noteq hv]
      exact hold
  · have hstep : stepT T t s = s := by
      unfold stepT
      simp [hT]
    rw [hstep]
    exact ⟨h1, h2, h3⟩

theorem runPar_inv {T : Nat} (sched : List Nat) : ∀ {s : PState}, ParInv T s →
    ParInv T (runPar T sched s) := by
  unfold runPar
  induction sched with
  | nil => intro s h; exact h
  | cons t sched ih =>
    intro s h
    rw [List.foldl_cons]
    exact ih (stepT_inv t h)

theorem updatedFlag_iff {T : Nat} {s : PState} (h : ParInv T s) :
    updatedFlag T s = true ↔ 0 < s.writes := by
  rw [← h.2.2]
  unfold updatedFlag
  simp only [List.any_eq_true, List.mem_range]
  constructor
  · rintro ⟨t, _, ht⟩
    exact ⟨t, ht⟩
  · rintro ⟨t, ht⟩
    exact ⟨t, h.2.1 t ht, ht⟩

/-- Two threads are never in the critical section of the same vertex. -/
theorem parInv_mutex {T : Nat} {s : PState} (h : ParInv T s) {t t' v : Nat}
    (h1 : InCritical s t v) (h2 : InCritical s t' v) : t = t' := by
  have a := h.1 t v h1
  have b := h.1 t' v h2
  rw [a] at b
  injection b

/-! ## The lock protocol: results -/

/-- A race on one vertex, run step by step: thread 0 takes the edge `0 -> 2`
(candidate 5), thread 1 the edge `1 -> 2` (candidate 3); both pass the
unsynchronised check against `INF`, thread 1 takes the lock first (after eight
steps it holds lock 2) and writes 3, then thread 0 acquires the lock, fails the
re-check `5 < 3` and writes nothing. -/
theorem runPar_race :
    (runPar 2 [0, 1, 0, 1, 0, 1, 1, 0, 1, 1, 0, 0, 0]
        (roundStart [⟨0, 2, 5⟩, ⟨1, 2, 3⟩] [0, 0, INF])).dist = [0, 0, 3] ∧
    (runPar 2 [0, 1, 0, 1, 0, 1, 1, 0, 1, 1, 0, 0, 0]
        (roundStart [⟨0, 2, 5⟩, ⟨1, 2, 3⟩] [0, 0, INF])).writes = 1 ∧
    updatedFlag 2 (runPar 2 [0, 1, 0, 1, 0, 1, 1, 0, 1, 1, 0, 0, 0]
        (roundStart [⟨0, 2, 5⟩, ⟨1, 2, 3⟩] [0, 0, INF])) = true ∧
    (runPar 2 [0, 1, 0, 1, 0, 1, 1, 0]
        (roundStart [⟨0, 2, 5⟩, ⟨1, 2, 3⟩] [0, 0, INF])).locks 2 = some 1 :=
  ⟨by decide, by decide, by decide, by decide⟩

/-- C16: in a round of `bellman_ford_par`, under every interleaving `sched` of
the steps of `T` worker threads: (1) the next step of any thread `t` either
leaves the vector alone or is the write of a thread that stands after the
acquisition of the lock of `e.v`, holds that lock, and writes a candidate
strictly below the current `dist[e.v]`; (2) no later interleaving raises an
entry, so a smaller value is never overwritten by a larger candidate; (3) two
threads are never between acquisition and release of the same lock; (4) the
reduced flag `updated` is true exactly when a write has occurred. -/
theorem C16_lock_protocol (T : Nat) (edges : List Edge) (dist : List Int)
    (sched : List Nat) :
    (∀ t,
      ((stepT T t (runPar T sched (roundStart edges dist))).dist =
          (runPar T sched (roundStart edges dist)).dist ∧
        (stepT T t (runPar T sched (roundStart edges dist))).writes =
          (runPar T sched (roundStart edges dist)).writes) ∨
      ∃ e cand,
        (runPar T sched (roundStart edges dist)).pcs t = PC.recheck e cand ∧
        (runPar T sched (roundStart edges dist)).locks e.v = some t ∧
        cand < rd (runPar T sched (roundStart edges dist)).dist e.v ∧
        (stepT T t (runPar T sched (roundStart edges dist))).dist =
          (runPar T sched (roundStart edges dist)).dist.set e.v cand ∧
        (stepT T t (runPar T sched (roundStart edges dist))).writes =
          (runPar T sched (roundStart edges dist)).writes + 1) ∧
    (∀ later v,
      rd (runPar T later (runPar T sched (roundStart edges dist))).dist v ≤
        rd (runPar T sched (roundStart edges dist)).dist v) ∧
    (∀ t t' v, InCritical (runPar T sched (roundStart edges dist)) t v →
      InCritical (runPar T sched (roundStart edges dist)) t' v → t = t') ∧
    (updatedFlag T (runPar T sched (roundStart edges dist)) = true ↔
      0 < (runPar T sched (roundStart edges dist)).writes) := by
  have hinv := runPar_inv (T := T) sched (roundStart_inv T edges dist)
  refine ⟨fun t => ?_, fun later v => runPar_le T later _ v,
    fun t t' v h1 h2 => parInv_mutex hinv h1 h2, updatedFlag_iff hinv⟩
  rcases stepT_dist T t (runPar T sched (roundStart edges dist)) with h | ⟨e, cand, _, h1, h2, h3, h4, _⟩
  · exact Or.inl ⟨h.1, h.2.1⟩
  · exact Or.inr ⟨e, cand, h1, hinv.1 t e.v ⟨e, rfl, Or.inl ⟨cand, h1⟩⟩, h2, h3, h4⟩

/-! ## The generator: the lines it writes -/

theorem getD_set_none (arr : List (Option Edge)) (k i : Nat) (x : Option Edge) :
    (arr.set k x).getD i none = if k = i ∧ i < arr.length then x else arr.getD i none := by
  simp only [List.getD_eq_getElem?_getD, List.getElem?_set]
  by_cases h : k = i
  · subst h
    by_cases hl : k < arr.length
    · simp [hl]
    · have : arr[k]? = none := List.getElem?_eq_none (by omega)
      simp [hl, this]
  · simp [h]

/-- The spanning-tree loop over `v = 1 .. k`: the array keeps its length, slot
`i < k` holds an edge into `i + 1` from a lower vertex, and the slots from `k`
on are untouched. -/
theorem genTree_spec (maxW : Nat) (negFlag : Int) (rand : Nat → Nat) (m : Nat) :
    ∀ k, k ≤ m →
      ((((List.range k).map (fun i => i + 1)).foldl (genTreeStep maxW negFlag rand)
          (List.replicate m none, 0)).1).length = m ∧
      (∀ i, i < k → ∃ e : Edge,
        ((((List.range k).map (fun i => i + 1)).foldl (genTreeStep maxW negFlag rand)
          (List.replicate m none, 0)).1).getD i none = some e ∧ e.u < e.v ∧ e.v = i + 1) ∧
      (∀ i, k ≤ i →
        ((((List.range k).map (fun i => i + 1)).foldl (genTreeStep maxW negFlag rand)
          (List.replicate m none, 0)).1).getD i none = none) := by
  intro k
  induction k with
  | zero =>
    intro _
    refine ⟨by simp, fun i hi => absurd hi (Nat.not_lt_zero i), fun i _ => ?_⟩
    simp only [List.range_zero, List.map_nil, List.foldl_nil, List.getD_eq_getElem?_getD,
      List.getElem?_replicate]
    split <;> rfl
  | succ k ih =>
    intro hk
    obtain ⟨hlen, hlow, hhigh⟩ := ih (by omega)
    rw [List.range_succ, List.map_append, List.foldl_append]
    simp only [List.map_cons, List.map_nil, List.foldl_cons, List.foldl_nil]
    generalize (((List.range k).map (fun i => i + 1)).foldl (genTreeStep maxW negFlag rand)
          (List.replicate m none, 0)) = st at hlen hlow hhigh
    simp only [genTreeStep, Nat.add_sub_cancel]
    refine ⟨by simp [hlen], fun i hi => ?_, fun i hi => ?_⟩
    · rw [getD_set_none]
      by_cases hik : k = i
      · subst hik
        rw [if_pos ⟨rfl, by omega⟩]
        exact ⟨_, rfl, Nat.mod_lt _ (Nat.succ_pos k), rfl⟩
      · rw [if_neg (fun h => hik h.1)]
        exact hlow i (by omega)
    · rw [getD_set_none, if_neg (fun h => by omega)]
      exact hhigh i (by omega)

/-- The loop for the extra edges with `negFlag != 0` and at least two
vertices: with one unit of fuel per free slot it ends, keeps the slots below
`idx` and fills every slot from `idx` to `m - 1` with an edge `u < v < n`. -/
theorem genExtra_spec (n m maxW : Nat) (negFlag : Int) (rand : Nat → Nat)
    (hneg : negFlag ≠ 0) (hn : 2 ≤ n) :
    ∀ fuel idx (arr : List (Option Edge)) r, arr.length = m → m - idx ≤ fuel →
      ∃ out, genExtra n m maxW negFlag rand fuel idx arr r = some out ∧ out.length = m ∧
        (∀ i, i < idx → out.getD i none = arr.getD i none) ∧
        (∀ i, idx ≤ i → i < m → ∃ e : Edge, out.getD i none = some e ∧ e.u < e.v ∧ e.v < n) := by
  intro fuel
  induction fuel with
  | zero =>
    intro idx arr r hlen hf
    refine ⟨arr, ?_, hlen, fun _ _ => rfl, fun i h1 h2 => by omega⟩
    simp only [genExtra]
    rw [if_neg (by omega)]
  | succ fuel ih =>
    intro idx arr r hlen hf
    by_cases hidx : idx < m
    · obtain ⟨out, hout, hl, hkeep, hfill⟩ :=
        ih (idx + 1)
          (arr.set idx (some ⟨rand r % (n - 1),
              rand r % (n - 1) + 1 + rand (r + 1) % (n - rand r % (n - 1) - 1),
              (genWeight maxW negFlag rand (r + 2)).1⟩))
          (genWeight maxW negFlag rand (r + 2)).2 (by simp [hlen]) (by omega)
      refine ⟨out, ?_, hl, fun i hi => ?_, fun i h1 h2 => ?_⟩
      · simp only [genExtra]
        rw [if_pos hidx, if_neg hneg, if_neg (by omega)]
        exact hout
      · rw [hkeep i (by omega), getD_set_none, if_neg (fun h => by omega)]
      · by_cases hi : i = idx
        · subst hi
          rw [hkeep i (by omega), getD_set_none, if_pos ⟨rfl, by omega⟩]
          have h1 : rand r % (n - 1) < n - 1 := Nat.mod_lt _ (by omega)
          have h2 : rand (r + 1) % (n - rand r % (n - 1) - 1) < n - rand r % (n - 1) - 1 :=
            Nat.mod_lt _ (by omega)
          refine ⟨_, rfl, ?_, ?_⟩
          · show rand r % (n - 1) <
              rand r % (n - 1) + 1 + rand (r + 1) % (n - rand r % (n - 1) - 1)
            omega
          · show rand r % (n - 1) + 1 + rand (r + 1) % (n - rand r % (n - 1) - 1) < n
            omega
        · exact hfill i (by omega) h2
    · refine ⟨arr, ?_, hlen, fun _ _ => rfl, fun i h1 h2 => by omega⟩
      simp only [genExtra]
      rw [if_neg hidx]

theorem genTarget_eq (n avgDeg : Nat) (ha : 0 < avgDeg) : genTarget n avgDeg = n * avgDeg := by
  unfold genTarget
  rw [if_neg]
  have : n * 1 ≤ n * avgDeg := Nat.mul_le_mul_left n ha
  omega

theorem genTarget_max (n avgDeg : Nat) : genTarget n avgDeg = max (n * avgDeg) (n - 1) := by
  unfold genTarget
  split <;> omega

/-- The loop for the extra edges with `negFlag != 0` and a single vertex: the
first iteration leaves the loop, whatever `idx` and `m` are. -/
theorem genExtra_single (m maxW : Nat) (negFlag : Int) (rand : Nat → Nat) (hneg : negFlag ≠ 0)
    (fuel idx : Nat) (arr : List (Option Edge)) (r : Nat) :
    genExtra 1 m maxW negFlag rand (fuel + 1) idx arr r = some arr := by
  simp only [genExtra]
  by_cases h : idx < m
  · rw [if_pos h, if_neg hneg, if_pos (by omega)]
  · rw [if_neg h]

/-- C15: the generator with `negFlag != 0` (the loop for the extra edges given
at least one unit of fuel per edge). (1) With `n >= 2` vertices and accepted
arguments it writes the header `n m` with `m = max(n*avgDeg, n-1)` and `m`
lines, every line an edge with `u < v < n`, line `i < n-1` an edge into the
vertex `i+1` from a lower vertex. (2) With `n = 1` it writes the header `1 m`
with `m = avgDeg >= 1` and `m` lines none of which was ever assigned: the
loop is left at `if (n < 2) break;` with `idx = 0 < m`. -/
theorem C15_generator_dag (avgDeg maxW : Nat) (negFlag : Int) (rand : Nat → Nat)
    (ha : 0 < avgDeg) (hw : 0 < maxW) (hneg : negFlag ≠ 0) :
    (∀ n fuel, 2 ≤ n → n * avgDeg ≤ 2000000000 → n * avgDeg ≤ fuel →
      ∃ lines, generate n avgDeg maxW negFlag rand fuel =
          GenResult.file n (max (n * avgDeg) (n - 1)) lines ∧
        lines.length = max (n * avgDeg) (n - 1) ∧
        (∀ i, i < max (n * avgDeg) (n - 1) →
          ∃ e : Edge, lines.getD i none = some e ∧ e.u < e.v ∧ e.v < n) ∧
        (∀ i, i < n - 1 →
          ∃ e : Edge, lines.getD i none = some e ∧ e.u < e.v ∧ e.v = i + 1)) ∧
    (∀ fuel, avgDeg ≤ 2000000000 →
      generate 1 avgDeg maxW negFlag rand (fuel + 1) =
        GenResult.file 1 avgDeg (List.replicate avgDeg none)) := by
  constructor
  · intro n fuel hn hm hf
    have hT : genTarget n avgDeg = n * avgDeg := genTarget_eq n avgDeg ha
    have hmax : max (n * avgDeg) (n - 1) = n * avgDeg := by
      rw [← genTarget_max, hT]
    have hnm : n - 1 ≤ n * avgDeg := by
      have : n * 1 ≤ n * avgDeg := Nat.mul_le_mul_left n ha
      omega
    obtain ⟨hlen, hlow, _⟩ := genTree_spec maxW negFlag rand (n * avgDeg) (n - 1) hnm
    obtain ⟨out, hout, hl, hkeep, hfill⟩ :=
      genExtra_spec n (n * avgDeg) maxW negFlag rand hneg hn fuel (n - 1) _
        (((List.range (n - 1)).map (fun i => i + 1)).foldl (genTreeStep maxW negFlag rand)
          (List.replicate (n * avgDeg) none, 0)).2 hlen (by omega)
    have htree : ∀ i, i < n - 1 →
        ∃ e : Edge, out.getD i none = some e ∧ e.u < e.v ∧ e.v = i + 1 := by
      intro i hi
      rw [hkeep i hi]
      exact hlow i hi
    refine ⟨out, ?_, by rw [hmax]; exact hl, fun i hi => ?_, htree⟩
    · unfold generate
      rw [if_neg (by omega), hT, if_neg (by omega), hout, hmax]
    · rw [hmax] at hi
      by_cases h1 : i < n - 1
      · obtain ⟨e, he, huv, hv⟩ := htree i h1
        exact ⟨e, he, huv, by omega⟩
      · exact hfill i (by omega) hi
  · intro fuel hm
    have hT : genTarget 1 avgDeg = avgDeg := by rw [genTarget_eq 1 avgDeg ha, Nat.one_mul]
    unfold generate
    rw [if_neg (by omega), hT, if_neg (by omega), genExtra_single _ _ _ _ hneg]
    rfl

/-- C15, an instance: four vertices, `avgDeg = 2`, `maxWeight = 10`,
`negFlag = 1`, `rand()` returning `3, 10, 17, ...`; and one vertex with
`avgDeg = 1`, where the one line announced is never assigned. -/
theorem C15_generator_dag_witness :
    (0 < 2 ∧ 0 < 10 ∧ (1 : Int) ≠ 0) ∧
    (∃ lines, generate 4 2 10 1 (fun i => i * 7 + 3) 8 =
          GenResult.file 4 (max (4 * 2) (4 - 1)) lines ∧
        lines.length = max (4 * 2) (4 - 1) ∧
        (∀ i, i < max (4 * 2) (4 - 1) →
          ∃ e : Edge, lines.getD i none = some e ∧ e.u < e.v ∧ e.v < 4) ∧
        (∀ i, i < 4 - 1 →
          ∃ e : Edge, lines.getD i none = some e ∧ e.u < e.v ∧ e.v = i + 1)) ∧
    generate 4 2 10 1 (fun i => i * 7 + 3) 8 =
      GenResult.file 4 8 [some ⟨0, 1, 1⟩, some ⟨0, 2, 2⟩, some ⟨0, 3, 3⟩, some ⟨0, 2, 1⟩,
        some ⟨1, 3, 9⟩, some ⟨2, 3, 7⟩, some ⟨0, 2, -5⟩, some ⟨1, 3, 3⟩] ∧
    generate 1 2 10 1 (fun i => i * 7 + 3) 1 = GenResult.file 1 2 [none, none] :=
  ⟨⟨by decide, by decide, by decide⟩,
    (C15_generator_dag 2 10 1 (fun i => i * 7 + 3) (by decide) (by decide) (by decide)).1 4 8
      (by decide) (by decide) (by decide),
    by decide,
    (C15_generator_dag 2 10 1 (fun i => i * 7 + 3) (by decide) (by decide) (by decide)).2 0
      (by decide)⟩

/-! ## The rounds of `dijkstra_seq` -/

/-- The loop that records the final vectors returns the vector of the loop of
`dijkstra_seq`. -/
theorem dijkstraFinal_fst (adj : List (List (Nat × Int))) :
    ∀ (k : Nat) (dist : List Int) (used : List Bool),
      (dijkstraFinal adj k dist used).1 = dijkstraLoop adj k dist used := by
  intro k
  induction k with
  | zero => intro dist used; rfl
  | succ k ih =>
    intro dist used
    unfold dijkstraFinal dijkstraLoop
    cases (select_seq dist used adj.length).1 with
    | none => rfl
    | some u =>
      simp only
      split_ifs
      · rfl
      · exact ih _ _

/-- The final vectors are those at the end of the last recorded round, or the
initial ones when no round is recorded. -/
theorem dijkstraFinal_last (adj : List (List (Nat × Int))) :
    ∀ (k : Nat) (dist : List Int) (used : List Bool),
      dijkstraFinal adj k dist used =
        match (dijkstraRounds adj k dist used).getLast? with
        | none => (dist, used)
        | some r => (r.distAfter adj, r.usedAfter) := by
  intro k
  induction k with
  | zero => intro dist used; rfl
  | succ k ih =>
    intro dist used
    unfold dijkstraFinal dijkstraRounds
    cases (select_seq dist used adj.length).1 with
    | none => rfl
    | some u =>
      simp only
      split_ifs
      · rfl
      · rw [ih]
        cases hT : dijkstraRounds adj k (relaxOut u dist (adj.getD u [])) (used.set u true) with
        | nil => rfl
        | cons r rs =>
          rw [List.getLast?_cons_cons, List.getLast?_eq_getLast _ (List.cons_ne_nil r rs)]

/-- Each recorded round starts where the round before it ended, and its vertex
is the one the selection scan returns on its start vectors. -/
theorem dijkstraRounds_chain (adj : List (List (Nat × Int))) :
    ∀ (k : Nat) (dist : List Int) (used : List Bool),
      (∀ r, (dijkstraRounds adj k dist used).head? = some r → r.dist = dist ∧ r.used = used) ∧
      List.Chain' (fun r r' : DRound => r'.dist = r.distAfter adj ∧ r'.used = r.usedAfter)
        (dijkstraRounds adj k dist used) ∧
      ∀ r ∈ dijkstraRounds adj k dist used,
        (select_seq r.dist r.used adj.length).1 = some r.u ∧
          (select_seq r.dist r.used adj.length).2 ≠ INF := by
  intro k
  induction k with
  | zero =>
    intro dist used
    exact ⟨fun r hr => by simp [dijkstraRounds] at hr, List.chain'_nil,
      fun r hr => absurd hr (List.not_mem_nil r)⟩
  | succ k ih =>
    intro dist used
    unfold dijkstraRounds
    cases hsel : (select_seq dist used adj.length).1 with
    | none =>
      exact ⟨fun r hr => by simp at hr, List.chain'_nil,
        fun r hr => absurd hr (List.not_mem_nil r)⟩
    | some u =>
      simp only
      split_ifs with hb
      · exact ⟨fun r hr => by simp at hr, List.chain'_nil,
          fun r hr => absurd hr (List.not_mem_nil r)⟩
      · obtain ⟨h1, h2, h3⟩ := ih (relaxOut u dist (adj.getD u [])) (used.set u true)
        refine ⟨?_, ?_, ?_⟩
        · intro r hr
          simp only [List.head?_cons, Option.some.injEq] at hr
          subst hr
          exact ⟨rfl, rfl⟩
        · rw [List.chain'_cons']
          exact ⟨fun r hr => h1 r hr, h2⟩
        · intro r hr
          rcases List.mem_cons.1 hr with h | h
          · subst h
            exact ⟨hsel, hb⟩
          · exact h3 r h

/-- The initial vectors satisfy the invariant: no vertex is visited. -/
theorem uinv_init (n s : Nat) :
    UInv n ((List.replicate n INF).set s 0) (List.replicate n false) := by
  refine ⟨init_length n s, by simp, fun v => ?_, fun a b ha _ _ => ?_⟩
  · rw [rd_set]
    split_ifs
    · exact le_of_lt INF_pos
    · unfold rd
      rw [List.getD_eq_getElem?_getD, List.getElem?_replicate]
      split_ifs
      · exact le_refl _
      · exact le_of_lt INF_pos
  · rw [ud_replicate_false] at ha
    exact absurd ha (by decide)

/-- Relaxing edges of non-negative weight out of a vertex `u` that is nearest
among the unvisited ones changes no entry of a visited vertex, nor of `u`. -/
theorem relaxOut_used_final {n : Nat} {dist : List Int} {used : List Bool}
    (h : UInv n dist used) {u : Nat} (hu : u < n) (hun : ud used u = false)
    (out : List (Nat × Int)) (hw : ∀ edge ∈ out, 0 ≤ edge.2) (a : Nat)
    (ha : ud (used.set u true) a = true) :
    rd (relaxOut u dist out) a = rd dist a := by
  have hau : rd dist a ≤ rd dist u := by
    rw [ud_set] at ha
    by_cases hc : u = a ∧ u < used.length
    · rw [hc.1]
    · rw [if_neg hc] at ha
      exact h.2.2.2 a u ha hu hun
  rcases relaxOut_cases u out hw dist a with h1 | h1
  · exact h1
  · exact le_antisymm (relaxOut_le u out dist a) (le_trans hau h1)

/-- A round keeps the invariant. -/
theorem UInv.round {n : Nat} {dist : List Int} {used : List Bool}
    (h : UInv n dist used) {u : Nat} (hu : u < n) (hun : ud used u = false)
    (hmin : ∀ v, v < n → ud used v = false → rd dist u ≤ rd dist v)
    (out : List (Nat × Int)) (hw : ∀ edge ∈ out, 0 ≤ edge.2) :
    UInv n (relaxOut u dist out) (used.set u true) := by
  refine ⟨by rw [relaxOut_length, h.1], by rw [List.length_set, h.2.1],
    fun v => le_trans (relaxOut_le u out dist v) (h.2.2.1 v), fun a b ha hb hbu => ?_⟩
  rw [relaxOut_used_final h hu hun out hw a ha]
  have hbu' : ud used b = false := by
    rw [ud_set] at hbu
    by_cases hc : u = b ∧ u < used.length
    · rw [if_pos hc] at hbu
      exact absurd hbu (by decide)
    · rw [if_neg hc] at hbu
      exact hbu
  have hau : rd dist a ≤ rd dist u := by
    rw [ud_set] at ha
    by_cases hc : u = a ∧ u < used.length
    · rw [hc.1]
    · rw [if_neg hc] at ha
      exact h.2.2.2 a u ha hu hun
  rcases relaxOut_cases u out hw dist b with h1 | h1
  · rw [h1]
    exact le_trans hau (hmin b hb hbu')
  · exact le_trans hau h1

/-- What the selection scan returns in a round that is not the last. -/
theorem select_seq_some {dist : List Int} {used : List Bool} {n u : Nat}
    (hsel : (select_seq dist used n).1 = some u) :
    u < n ∧ ud used u = false ∧ rd dist u < INF ∧
      (select_seq dist used n).2 = rd dist u ∧
      ∀ v, v < n → ud used v = false → rd dist u ≤ rd dist v := by
  obtain ⟨_, g2, _, g4⟩ := select_seq_good dist used n
  obtain ⟨hun, huu, hbu, hlt⟩ := g4 u hsel
  exact ⟨hun, huu, by omega, hbu, fun v hv hvu => by have := g2 v hv hvu; omega⟩

/-- When the selection scan ends the loop, every unvisited vertex is at `INF`. -/
theorem select_seq_done {n : Nat} {dist : List Int} {used : List Bool}
    (h : UInv n dist used)
    (hd : (select_seq dist used n).1 = none ∨ (select_seq dist used n).2 = INF) :
    ∀ v, v < n → ud used v = false → rd dist v = INF := by
  obtain ⟨_, g2, g3, _⟩ := select_seq_good dist used n
  have hb : (select_seq dist used n).2 = INF := by
    rcases hd with hd | hd
    · exact g3 hd
    · exact hd
  intro v hv hvu
  have h1 := g2 v hv hvu
  have h2 := h.2.2.1 v
  omega

theorem ud_set_mono (used : List Bool) (u a : Nat) (ha : ud used a = true) :
    ud (used.set u true) a = true := by
  rw [ud_set]
  split_ifs
  · rfl
  · exact ha

theorem ud_set_self (used : List Bool) (u : Nat) (hu : u < used.length) :
    ud (used.set u true) u = true := by
  rw [ud_set, if_pos ⟨rfl, hu⟩]

/-- The rounds of the loop of `dijkstra_seq` on non-negative weights, from any
vectors that satisfy the invariant. -/
theorem dijkstraRounds_spec {adj : List (List (Nat × Int))} {n : Nat} (hadj : adj.length = n)
    (hW : ∀ e, adjGraph adj e → 0 ≤ e.w) :
    ∀ (k : Nat) (dist : List Int) (used : List Bool), UInv n dist used →
      used.count true + k = n →
      (∀ r ∈ dijkstraRounds adj k dist used,
        UInv n r.dist r.used ∧
        (r.u < n ∧ ud r.used r.u = false ∧ rd r.dist r.u < INF ∧
          ∀ v, v < n → ud r.used v = false → rd r.dist r.u ≤ rd r.dist v) ∧
        (∀ a, ud used a = true → ud r.used a = true ∧ rd r.dist a = rd dist a) ∧
        (∀ a, ud r.usedAfter a = true →
          ud (dijkstraFinal adj k dist used).2 a = true ∧
            rd (dijkstraFinal adj k dist used).1 a = rd r.dist a)) ∧
      List.Pairwise (fun r r' : DRound => ∀ a, ud r.usedAfter a = true →
          ud r'.used a = true ∧ rd r'.dist a = rd r.dist a)
        (dijkstraRounds adj k dist used) ∧
      List.Pairwise (fun r r' : DRound => rd r.dist r.u ≤ rd r'.dist r'.u)
        (dijkstraRounds adj k dist used) ∧
      List.Pairwise (fun r r' : DRound => r.u ≠ r'.u) (dijkstraRounds adj k dist used) ∧
      (∀ a, ud used a = true →
        ud (dijkstraFinal adj k dist used).2 a = true ∧
          rd (dijkstraFinal adj k dist used).1 a = rd dist a) ∧
      (∀ v, v < n → ud (dijkstraFinal adj k dist used).2 v = false →
        rd (dijkstraFinal adj k dist used).1 v = INF) := by
  intro k
  induction k with
  | zero =>
    intro dist used h hc
    refine ⟨fun r hr => absurd hr (List.not_mem_nil r), List.Pairwise.nil, List.Pairwise.nil,
      List.Pairwise.nil, fun a ha => ⟨ha, rfl⟩, fun v hv hvu => ?_⟩
    have := @all_used_of_count used (by rw [h.2.1]; omega) v (by rw [h.2.1]; exact hv)
    have hvu' : ud used v = false := hvu
    rw [this] at hvu'
    exact absurd hvu' (by decide)
  | succ k ih =>
    intro dist used h hc
    have hstop : (select_seq dist used adj.length).1 = none ∨
        (select_seq dist used adj.length).2 = INF →
        ∀ v, v < n → ud used v = false → rd dist v = INF := by
      intro hd
      rw [hadj] at hd
      exact select_seq_done h hd
    unfold dijkstraRounds dijkstraFinal
    cases hsel : (select_seq dist used adj.length).1 with
    | none =>
      exact ⟨fun r hr => absurd hr (List.not_mem_nil r), List.Pairwise.nil, List.Pairwise.nil,
        List.Pairwise.nil, fun a ha => ⟨ha, rfl⟩, hstop (Or.inl hsel)⟩
    | some u =>
      simp only
      split_ifs with hb
      · exact ⟨fun r hr => absurd hr (List.not_mem_nil r), List.Pairwise.nil,
          List.Pairwise.nil, List.Pairwise.nil, fun a ha => ⟨ha, rfl⟩, hstop (Or.inr hb)⟩
      · rw [hadj] at hsel
        obtain ⟨hu, hun, hlt, _, hmin⟩ := select_seq_some hsel
        have hw : ∀ edge ∈ adj.getD u [], 0 ≤ edge.2 :=
          fun edge he => hW _ (adjGraph_out (hadj ▸ hu) he)
        have hfin := relaxOut_used_final h hu hun (adj.getD u []) hw
        have hI := h.round hu hun hmin (adj.getD u []) hw
        have hc' : (used.set u true).count true + k = n := by
          rw [count_set_true used u (by rw [h.2.1]; exact hu) hun]
          omega
        obtain ⟨hA, hB1, hB2, hB3, hC, hD⟩ := ih _ _ hI hc'
        have huu : ud (used.set u true) u = true := ud_set_self used u (by rw [h.2.1]; exact hu)
        refine ⟨fun r hr => ?_, ?_, ?_, ?_, fun a ha => ?_, hD⟩
        · rcases List.mem_cons.1 hr with hr0 | hr'
          · subst hr0
            refine ⟨h, ⟨hu, hun, hlt, hmin⟩, fun a ha => ⟨ha, rfl⟩, fun a ha => ?_⟩
            obtain ⟨c1, c2⟩ := hC a ha
            exact ⟨c1, c2.trans (hfin a ha)⟩
          · obtain ⟨a1, a2, a3, a4⟩ := hA r hr'
            refine ⟨a1, a2, fun a ha => ?_, a4⟩
            obtain ⟨c1, c2⟩ := a3 a (ud_set_mono used u a ha)
            exact ⟨c1, c2.trans (hfin a (ud_set_mono used u a ha))⟩
        · refine List.Pairwise.cons (fun r hr a ha => ?_) hB1
          obtain ⟨c1, c2⟩ := (hA r hr).2.2.1 a ha
          exact ⟨c1, c2.trans (hfin a ha)⟩
        · refine List.Pairwise.cons (fun r hr => ?_) hB2
          obtain ⟨a1, a2, a3, _⟩ := hA r hr
          obtain ⟨c1, c2⟩ := a3 u huu
          have h1 := a1.2.2.2 u r.u c1 a2.1 a2.2.1
          rw [c2, hfin u huu] at h1
          exact h1
        · refine List.Pairwise.cons (fun r hr heq => ?_) hB3
          obtain ⟨_, a2, a3, _⟩ := hA r hr
          have c1 := (a3 u huu).1
          have c3 : ud r.used u = false := by
            have := a2.2.1
            rw [← heq] at this
            exact this
          rw [c1] at c3
          exact absurd c3 (by decide)
        · obtain ⟨c1, c2⟩ := hC a (ud_set_mono used u a ha)
          exact ⟨c1, c2.trans (hfin a (ud_set_mono used u a ha))⟩

/-- At most as many rounds are recorded as the loop has iterations. -/
theorem dijkstraRounds_length (adj : List (List (Nat × Int))) :
    ∀ (k : Nat) (dist : List Int) (used : List Bool),
      (dijkstraRounds adj k dist used).length ≤ k := by
  intro k
  induction k with
  | zero => intro dist used; exact le_refl _
  | succ k ih =>
    intro dist used
    unfold dijkstraRounds
    cases (select_seq dist used adj.length).1 with
    | none => exact Nat.zero_le _
    | some u =>
      simp only
      split_ifs
      · exact Nat.zero_le _
      · rw [List.length_cons]
        exact Nat.succ_le_succ (ih _ _)

/-! ## The rounds of `dijkstra_seq`: results -/

/-- The recorded rounds are a run of the loop of `dijkstra_seq(adj, source)`:
the first starts at the initial vectors, each next one where the one before
ended, the vertex of a round is the one the selection scan returns with
`best != INF`, the final vectors are those at the end of the last round, and
the final `dist` is the vector returned. No hypothesis on the weights. -/
theorem dijkstra_seq_rounds_run (adj : List (List (Nat × Int))) (source : Nat) :
    (∀ r, (dijkstra_seq_rounds adj source).head? = some r →
      r.dist = (List.replicate adj.length INF).set source 0 ∧
        r.used = List.replicate adj.length false) ∧
    List.Chain' (fun r r' : DRound => r'.dist = r.distAfter adj ∧ r'.used = r.usedAfter)
      (dijkstra_seq_rounds adj source) ∧
    (∀ r ∈ dijkstra_seq_rounds adj source,
      (select_seq r.dist r.used adj.length).1 = some r.u ∧
        (select_seq r.dist r.used adj.length).2 ≠ INF) ∧
    (dijkstra_seq_final adj source =
      match (dijkstra_seq_rounds adj source).getLast? with
      | none => ((List.replicate adj.length INF).set source 0, List.replicate adj.length false)
      | some r => (r.distAfter adj, r.usedAfter)) ∧
    dijkstra_seq adj source = (dijkstra_seq_final adj source).1 ∧
    (dijkstra_seq_rounds adj source).length ≤ adj.length :=
  ⟨(dijkstraRounds_chain adj _ _ _).1, (dijkstraRounds_chain adj _ _ _).2.1,
    (dijkstraRounds_chain adj _ _ _).2.2, dijkstraFinal_last adj _ _ _,
    (dijkstraFinal_fst adj _ _ _).symm, dijkstraRounds_length adj _ _ _⟩

/-- The rounds of `dijkstra_seq` on the disconnected graph `n=3` with the
single edge `(0,1,4)`, source `0`: the vertices `0` and `1` are selected at the
distances `0` and `4`, and the loop is left in the third round with the
unvisited vertex `2` at `INF`. -/
theorem dijkstra_seq_rounds_disc :
    (dijkstra_seq_rounds [[(1, 4)], [], []] 0).map (fun r => (r.u, rd r.dist r.u)) =
      [(0, 0), (1, 4)] ∧
    dijkstra_seq_final [[(1, 4)], [], []] 0 = ([0, 4, INF], [true, true, false]) := by
  constructor <;> decide

/-- C21: in `dijkstra_seq` on a graph with only non-negative edge weights, for
the rounds of the loop that select a vertex, in order: (0) the vector returned
is the vector `dist` when the loop is left; (1) once `used[a] = 1` (the vertex
selected in the round included), no relaxation of the round, taken one edge
after the other, changes `dist[a]`, `dist[a]` is the same at the start of every
later round, in which `a` is still marked, and it is the value returned;
(2) the distances of the vertices selected in successive rounds are
non-decreasing; (3) no vertex is selected twice; (4) every round that selects a
vertex starts with an unvisited vertex below `INF` (the one it selects, a
nearest one), and when the loop is left every unvisited vertex is at `INF`. -/
theorem C21_dijkstra_used_final (adj : List (List (Nat × Int))) (source : Nat)
    (hW : ∀ e, adjGraph adj e → 0 ≤ e.w) :
    dijkstra_seq adj source = (dijkstra_seq_final adj source).1 ∧
    (∀ r ∈ dijkstra_seq_rounds adj source, ∀ a, ud r.usedAfter a = true →
      (∀ j, rd (relaxOut r.u r.dist ((adj.getD r.u []).take j)) a = rd r.dist a) ∧
      rd (r.distAfter adj) a = rd r.dist a ∧
      rd (dijkstra_seq adj source) a = rd r.dist a) ∧
    List.Pairwise (fun r r' : DRound => ∀ a, ud r.usedAfter a = true →
        ud r'.used a = true ∧ rd r'.dist a = rd r.dist a)
      (dijkstra_seq_rounds adj source) ∧
    List.Pairwise (fun r r' : DRound => rd r.dist r.u ≤ rd r'.dist r'.u)
      (dijkstra_seq_rounds adj source) ∧
    List.Pairwise (fun r r' : DRound => r.u ≠ r'.u) (dijkstra_seq_rounds adj source) ∧
    (∀ r ∈ dijkstra_seq_rounds adj source,
      r.u < adj.length ∧ ud r.used r.u = false ∧ rd r.dist r.u < INF ∧
        ∀ v, v < adj.length → ud r.used v = false → rd r.dist r.u ≤ rd r.dist v) ∧
    (∀ v, v < adj.length → ud (dijkstra_seq_final adj source).2 v = false →
      rd (dijkstra_seq_final adj source).1 v = INF) := by
  obtain ⟨hA, hB1, hB2, hB3, _, hD⟩ :=
    dijkstraRounds_spec rfl hW adj.length _ _ (uinv_init adj.length source) (by
      rw [List.count_replicate]
      simp)
  have hres : dijkstra_seq adj source = (dijkstra_seq_final adj source).1 :=
    (dijkstraFinal_fst adj _ _ _).symm
  refine ⟨hres, fun r hr a ha => ?_, hB1, hB2, hB3, fun r hr => (hA r hr).2.1, hD⟩
  obtain ⟨a1, a2, _, a4⟩ := hA r hr
  have hw : ∀ edge ∈ adj.getD r.u [], 0 ≤ edge.2 :=
    fun edge he => hW _ (adjGraph_out a2.1 he)
  refine ⟨fun j => ?_, relaxOut_used_final a1 a2.1 a2.2.1 _ hw a ha, ?_⟩
  · exact relaxOut_used_final a1 a2.1 a2.2.1 _
      (fun edge he => hw edge (List.mem_of_mem_take he)) a ha
  · rw [hres]
    exact (a4 a ha).2

/-- C21 on the graph of the specification scenario (`exAdj`, source `0`): the
vertices `0, 1, 2, 3` are selected in this order at the distances `0, 1, 3, 4`,
a non-decreasing sequence of distinct vertices, and the vector returned is
`[0, 1, 3, 4]`. -/
theorem C21_dijkstra_used_final_witness :
    (dijkstra_seq_rounds exAdj 0).map (fun r => (r.u, rd r.dist r.u)) =
      [(0, 0), (1, 1), (2, 3), (3, 4)] ∧
    dijkstra_seq exAdj 0 = [0, 1, 3, 4] ∧
    List.Pairwise (fun r r' : DRound => rd r.dist r.u ≤ rd r'.dist r'.u)
      (dijkstra_seq_rounds exAdj 0) ∧
    List.Pairwise (fun r r' : DRound => r.u ≠ r'.u) (dijkstra_seq_rounds exAdj 0) ∧
    (∀ r ∈ dijkstra_seq_rounds exAdj 0, ∀ a, ud r.usedAfter a = true →
      rd (dijkstra_seq exAdj 0) a = rd r.dist a) :=
  ⟨by decide, by decide, (C21_dijkstra_used_final exAdj 0 exAdj_nonneg).2.2.2.1,
    (C21_dijkstra_used_final exAdj 0 exAdj_nonneg).2.2.2.2.1,
    fun r hr a ha => ((C21_dijkstra_used_final exAdj 0 exAdj_nonneg).2.1 r hr a ha).2.2⟩

/-! ## The interleaved round with chunks: the steps -/

end SP
